import Mathlib

/-! # tdb2 I/O core (`ccan/tdb2/io.c`)

A shallow embedding of the I/O layer of tdb2 and the properties of its
specification that hold (or fail) on it.

Modelling conventions.

* `tdb_off_t`, `tdb_len_t`, `size_t` and pointers are naturals; sums the source
  computes in 64 bits are reduced modulo `U64`.  `off_t` is signed, its largest
  value is `OFF_MAX`.
* The handle `tdb_context` carries the fields of `struct tdb_context` that
  `io.c` touches, followed by the world the handle talks to: the bytes of the
  backing store, the calls made so far (`trace`), and the answers the operating
  system and the collaborators will give (`sys`, indexed by `clock`).
* A mapping is a window on the store (`MAP_SHARED`); for a memory-only handle
  the store is the heap block `map_ptr` points at.
* A result of `none` means that the call does not return normally: a failed
  `assert`, a loop that would not terminate, or an access the C standard leaves
  undefined (a read or write outside the mapping, a `free` of an address that
  is no heap block).
* `tdb->methods->...` is the table `io_methods` of this file, so the calls
  through it are direct calls here.
* A `uint64_t` in memory is 8 bytes in the byte order of the host
  (`sys.big_endian`); `host_encode` and `host_decode` pass between the value
  and its bytes.
-/

namespace tdb2

/-- A byte. -/
abbrev Byte := Nat

/-- Modulus of the 64-bit unsigned types and of pointers. -/
abbrev U64 : Nat := 2 ^ 64

/-- Largest value of the signed 64-bit `off_t`. -/
abbrev OFF_MAX : Nat := 2 ^ 63 - 1

/-- The values of `enum TDB_ERROR` that this file latches in `ecode`. -/
inductive TDB_ERROR where
  | TDB_SUCCESS
  | TDB_ERR_CORRUPT
  | TDB_ERR_IO
  | TDB_ERR_LOCK
  | TDB_ERR_OOM
  | TDB_ERR_EXISTS
  | TDB_ERR_NOEXIST
  | TDB_ERR_EINVAL
  | TDB_ERR_RDONLY
  deriving DecidableEq, Repr

/-- Severity passed to the log sink. -/
inductive tdb_debug_level where
  | TDB_DEBUG_FATAL
  | TDB_DEBUG_ERROR
  | TDB_DEBUG_WARNING
  | TDB_DEBUG_TRACE
  deriving DecidableEq, Repr

open TDB_ERROR tdb_debug_level

/-- Values this file stores in `errno`. -/
abbrev ENOSPC : Nat := 28

/-- Value stored in `errno` on a short read. -/
abbrev EWOULDBLOCK : Nat := 11

/-- One call made to the operating system or to a collaborator. -/
inductive Event where
  | lock_expand
  | unlock_expand
  | fstat
  | munmap
  | mmap
  | ftruncate (length : Nat)
  | pwrite (off len : Nat)
  | pread (off len : Nat)
  | malloc (size : Nat)
  | realloc (size : Nat)
  | free
  | log (level : tdb_debug_level)
  deriving DecidableEq, Repr

/-- Answer of the locking collaborator to `tdb_lock_expand`: the lock is taken,
or it is refused and the collaborator leaves `ecode` at the given value. -/
inductive LockAnswer where
  | acquired
  | refused (ecode : TDB_ERROR)
  deriving DecidableEq, Repr

/-- What the outside will answer, by the number of the call (`clock`).
`mmap` answers `0` for `MAP_FAILED`, `malloc` and `realloc` answer `0` for
`NULL`, `pwrite` and `pread` answer the number of bytes the kernel is ready to
transfer (negative for an error), and `junk` is the content of memory that
nothing has initialised.  `big_endian` is the byte order of the host. -/
structure Sys where
  big_endian : Bool
  lock_expand : Nat → LockAnswer
  fstat : Nat → Bool
  mmap : Nat → Nat
  malloc : Nat → Nat
  realloc : Nat → Nat
  ftruncate : Nat → Bool
  pwrite : Nat → Int
  pread : Nat → Int
  junk : Nat → Byte

/-- The handle, `struct tdb_context`, and the world behind it. -/
structure tdb_context where
  TDB_INTERNAL : Bool
  TDB_NOMMAP : Bool
  TDB_CONVERT : Bool
  TDB_NOLOCK : Bool
  read_only : Bool
  map_ptr : Nat
  map_size : Nat
  ecode : TDB_ERROR
  direct_access : Int
  expansion_lock : Bool
  errno : Nat
  store : List Byte
  trace : List Event
  sys : Sys
  clock : Nat

/-- Record a call that consumes no answer. -/
def emit (tdb : tdb_context) (e : Event) : tdb_context :=
  { tdb with trace := tdb.trace ++ [e] }

/-- Record a call that consumes the next answer of `sys`. -/
def tick (tdb : tdb_context) (e : Event) : tdb_context :=
  { tdb with trace := tdb.trace ++ [e], clock := tdb.clock + 1 }

/-- Pointer plus offset, in 64 bits. -/
def ptr_add (p n : Nat) : Nat := (p + n) % U64

/-- The `len` bytes of `store` from `off` on (fewer when the store ends). -/
def slice (store : List Byte) (off len : Nat) : List Byte :=
  (store.drop off).take len

/-- The store after `data` is written at `off`; a write past the end extends
the store, the gap reading as zero. -/
def write_at (store : List Byte) (off : Nat) (data : List Byte) : List Byte :=
  (store ++ List.replicate (off - store.length) 0).take off ++ data
    ++ store.drop (off + data.length)

/-- Whether `[off, off+len)` can be accessed through the mapping. -/
def mapped (tdb : tdb_context) (off len : Nat) : Bool :=
  len = 0 ∨ (off + len ≤ tdb.map_size ∧ off + len ≤ tdb.store.length)

/-- The library call `malloc`. -/
def malloc (tdb : tdb_context) (size : Nat) : Nat × tdb_context :=
  (tdb.sys.malloc tdb.clock, tick tdb (Event.malloc size))

/-- The system call `pwrite(fd, buf, len, off)`: at most `len` bytes of `buf`
go to the store at `off`; a negative `off_t` is refused and no file reaches
past `OFF_MAX`. -/
def pwrite (tdb : tdb_context) (buf : List Byte) (len off : Nat) : Int × tdb_context :=
  let r := tdb.sys.pwrite tdb.clock
  let tdb := tick tdb (Event.pwrite off len)
  if r < 0 ∨ OFF_MAX < off then (-1, tdb)
  else
    let n := min (min r.toNat len) (OFF_MAX - off)
    if n = 0 then (0, tdb)
    else ((n : Int), { tdb with store := write_at tdb.store off (buf.take n) })

/-- The system call `pread(fd, buf, len, off)`: the bytes transferred and their
number; a negative `off_t` is refused and no file reaches past `OFF_MAX`. -/
def pread (tdb : tdb_context) (len off : Nat) : Int × List Byte × tdb_context :=
  let r := tdb.sys.pread tdb.clock
  let tdb := tick tdb (Event.pread off len)
  if r < 0 ∨ OFF_MAX < off then (-1, [], tdb)
  else
    let data := slice tdb.store off (min (min r.toNat len) (OFF_MAX - off))
    ((data.length : Int), data, tdb)

/-- Source: `tdb_munmap`. -/
def tdb_munmap (tdb : tdb_context) : tdb_context :=
  if tdb.TDB_INTERNAL then tdb
  else if tdb.map_ptr ≠ 0 then { emit tdb Event.munmap with map_ptr := 0 }
  else tdb

/-- Source: `tdb_mmap`. -/
def tdb_mmap (tdb : tdb_context) : tdb_context :=
  if tdb.TDB_INTERNAL then tdb
  else if tdb.TDB_NOMMAP then tdb
  else
    let a := tdb.sys.mmap tdb.clock
    let tdb := tick tdb Event.mmap
    if a = 0 then emit { tdb with map_ptr := 0 } (Event.log TDB_DEBUG_WARNING)
    else { tdb with map_ptr := a }

/-- The condition of the `assert` that opens `tdb_oob`. -/
def oob_assertion (tdb : tdb_context) : Bool :=
  tdb.direct_access = 0 || tdb.TDB_NOLOCK || tdb.expansion_lock

/-- Source: `tdb_oob`.  The result is `0` or `-1`. -/
def tdb_oob (tdb : tdb_context) (len : Nat) (probe : Bool) : Option (Int × tdb_context) :=
  if !oob_assertion tdb then none
  else if len ≤ tdb.map_size then some (0, tdb)
  else if tdb.TDB_INTERNAL then
    if !probe then
      some (-1, emit { tdb with ecode := TDB_ERR_IO } (Event.log TDB_DEBUG_FATAL))
    else some (-1, tdb)
  else
    match tdb.sys.lock_expand tdb.clock with
    | LockAnswer.refused e => some (-1, { tick tdb Event.lock_expand with ecode := e })
    | LockAnswer.acquired =>
      let tdb := tick tdb Event.lock_expand
      let ret := tdb.sys.fstat tdb.clock
      let tdb := emit (tick tdb Event.fstat) Event.unlock_expand
      if !ret then some (-1, { tdb with ecode := TDB_ERR_IO })
      else
        let st_size := tdb.store.length
        if st_size < len then
          if !probe then
            some (-1, emit { tdb with ecode := TDB_ERR_IO } (Event.log TDB_DEBUG_FATAL))
          else some (-1, tdb)
        else
          let tdb := tdb_munmap tdb
          let tdb := { tdb with map_size := st_size }
          some (0, tdb_mmap tdb)

/-- The byte order of one 8-byte word reversed, on the bytes the word occupies
in memory. -/
def bswap_64 (w : List Byte) : List Byte := w.reverse

/-- The loop of `tdb_convert`: the first `n` words of `buf` byte-swapped. -/
def convert_words : Nat → List Byte → List Byte
  | 0, buf => buf
  | n + 1, buf => bswap_64 (buf.take 8) ++ convert_words n (buf.drop 8)

/-- Source: `tdb_convert`, for a live buffer `buf` of at least `size` bytes
(for a null `buf` the source does nothing). -/
def tdb_convert (tdb : tdb_context) (buf : List Byte) (size : Nat) : List Byte :=
  if tdb.TDB_CONVERT then convert_words (size / 8) buf else buf

/-- The loop of `tdb_pwrite_all`; each round transfers at least one byte, so
`len` rounds are enough. -/
def tdb_pwrite_all_loop : Nat → tdb_context → List Byte → Nat → Nat → Option (Bool × tdb_context)
  | 0, tdb, _, len, _ => if len = 0 then some (true, tdb) else none
  | fuel + 1, tdb, buf, len, off =>
    if len = 0 then some (true, tdb)
    else
      let r := pwrite tdb buf len off
      if r.1 < 0 then some (false, r.2)
      else if r.1 = 0 then some (false, { r.2 with errno := ENOSPC })
      else tdb_pwrite_all_loop fuel r.2 (buf.drop r.1.toNat) (len - r.1.toNat)
        ((off + r.1.toNat) % U64)

/-- Source: `tdb_pwrite_all`. -/
def tdb_pwrite_all (tdb : tdb_context) (buf : List Byte) (len off : Nat) :
    Option (Bool × tdb_context) :=
  tdb_pwrite_all_loop len tdb buf len off

/-- The loop of `tdb_pread_all`; `acc` is what the buffer holds so far. -/
def tdb_pread_all_loop : Nat → tdb_context → List Byte → Nat → Nat →
    Option (Bool × List Byte × tdb_context)
  | 0, tdb, acc, len, _ => if len = 0 then some (true, acc, tdb) else none
  | fuel + 1, tdb, acc, len, off =>
    if len = 0 then some (true, acc, tdb)
    else
      let r := pread tdb len off
      if r.1 < 0 then some (false, acc, r.2.2)
      else if r.1 = 0 then some (false, acc, { r.2.2 with errno := EWOULDBLOCK })
      else tdb_pread_all_loop fuel r.2.2 (acc ++ r.2.1) (len - r.1.toNat)
        ((off + r.1.toNat) % U64)

/-- Source: `tdb_pread_all`; the second component is the content of `buf`. -/
def tdb_pread_all (tdb : tdb_context) (len off : Nat) :
    Option (Bool × List Byte × tdb_context) :=
  tdb_pread_all_loop len tdb [] len off

/-- Source: `tdb_write`. -/
def tdb_write (tdb : tdb_context) (off : Nat) (buf : List Byte) (len : Nat) :
    Option (Int × tdb_context) :=
  if len = 0 then some (0, tdb)
  else if tdb.read_only then some (-1, { tdb with ecode := TDB_ERR_RDONLY })
  else
    match tdb_oob tdb ((off + len) % U64) false with
    | none => none
    | some (r, tdb) =>
      if r ≠ 0 then some (-1, tdb)
      else if tdb.map_ptr ≠ 0 then
        if mapped tdb off len then
          some (0, { tdb with store := write_at tdb.store off (buf.take len) })
        else none
      else
        match tdb_pwrite_all tdb buf len off with
        | none => none
        | some (ok, tdb) =>
          if !ok then
            some (-1, emit { tdb with ecode := TDB_ERR_IO } (Event.log TDB_DEBUG_FATAL))
          else some (0, tdb)

/-- Source: `tdb_read`; the second component is the content of `buf`. -/
def tdb_read (tdb : tdb_context) (off len : Nat) : Option (Int × List Byte × tdb_context) :=
  match tdb_oob tdb ((off + len) % U64) false with
  | none => none
  | some (r, tdb) =>
    if r ≠ 0 then some (-1, [], tdb)
    else if tdb.map_ptr ≠ 0 then
      if mapped tdb off len then some (0, slice tdb.store off len, tdb)
      else none
    else
      match tdb_pread_all tdb len off with
      | none => none
      | some (ok, data, tdb) =>
        if !ok then
          some (-1, data, emit { tdb with ecode := TDB_ERR_IO } (Event.log TDB_DEBUG_FATAL))
        else some (0, data, tdb)

/-- Source: `tdb_write_convert`. -/
def tdb_write_convert (tdb : tdb_context) (off : Nat) (record : List Byte) (len : Nat) :
    Option (Int × tdb_context) :=
  if tdb.TDB_CONVERT then
    let m := malloc tdb len
    if m.1 = 0 then
      some (-1, emit { m.2 with ecode := TDB_ERR_OOM } (Event.log TDB_DEBUG_FATAL))
    else
      match tdb_write m.2 off (tdb_convert m.2 (record.take len) len) len with
      | none => none
      | some (ret, tdb) => some (ret, emit tdb Event.free)
  else tdb_write tdb off record len

/-- Source: `tdb_read_convert`. -/
def tdb_read_convert (tdb : tdb_context) (off len : Nat) :
    Option (Int × List Byte × tdb_context) :=
  match tdb_read tdb off len with
  | none => none
  | some (ret, record, tdb) => some (ret, tdb_convert tdb record len, tdb)

/-- Source: `_tdb_alloc_read`.  The result is the address of the block (`0` for
`NULL`) and the `len` bytes that follow its first `pfx` bytes. -/
def _tdb_alloc_read (tdb : tdb_context) (offset len pfx : Nat) :
    Option (Nat × List Byte × tdb_context) :=
  let size := if (pfx + len) % U64 ≠ 0 then (pfx + len) % U64 else 1
  let m := malloc tdb size
  if m.1 = 0 then
    some (0, [], emit { m.2 with ecode := TDB_ERR_OOM } (Event.log TDB_DEBUG_ERROR))
  else
    match tdb_read m.2 offset len with
    | none => none
    | some (r, data, tdb) =>
      if r ≠ 0 then some (0, [], emit tdb Event.free)
      else if U64 ≤ pfx + len then none
      else some (m.1, data, tdb)

/-- Source: `tdb_alloc_read`. -/
def tdb_alloc_read (tdb : tdb_context) (offset len : Nat) :
    Option (Nat × List Byte × tdb_context) :=
  _tdb_alloc_read tdb offset len 0

/-- The loop of `fill`: `none` when `len` rounds do not finish it, which is when
`size` is `0`. -/
def fill_loop : Nat → tdb_context → List Byte → Nat → Nat → Nat → Option (Int × tdb_context)
  | 0, tdb, _, _, _, len => if len = 0 then some (0, tdb) else none
  | fuel + 1, tdb, buf, size, off, len =>
    if len = 0 then some (0, tdb)
    else
      let n := if len > size then size else len
      match tdb_pwrite_all tdb buf n off with
      | none => none
      | some (ok, tdb) =>
        if !ok then
          some (-1, emit { tdb with ecode := TDB_ERR_IO } (Event.log TDB_DEBUG_FATAL))
        else fill_loop fuel tdb buf size ((off + n) % U64) (len - n)

/-- Source: `fill`. -/
def fill (tdb : tdb_context) (buf : List Byte) (size off len : Nat) :
    Option (Int × tdb_context) :=
  fill_loop len tdb buf size off len

/-- The `n` bytes that uninitialised memory holds from index `start` on. -/
def uninitialised (junk : Nat → Byte) (start n : Nat) : List Byte :=
  (List.range n).map (fun i => junk (start + i))

/-- The library call `realloc` on the block of a memory-only handle: the bytes
kept are those of the old block, the bytes added hold whatever was there. -/
def realloc (tdb : tdb_context) (size : Nat) : Nat × tdb_context :=
  let a := tdb.sys.realloc tdb.clock
  let tdb := tick tdb (Event.realloc size)
  if a = 0 then (0, tdb)
  else
    (a, { tdb with store := tdb.store.take size ++
      uninitialised tdb.sys.junk tdb.store.length (size - tdb.store.length) })

/-- The system call `ftruncate(fd, length)`; the source ignores its result. -/
def ftruncate (tdb : tdb_context) (length : Nat) : tdb_context :=
  let ok := tdb.sys.ftruncate tdb.clock
  let tdb := tick tdb (Event.ftruncate length)
  if ok && decide (length ≤ OFF_MAX) then
    { tdb with store := tdb.store.take length ++
        List.replicate (length - tdb.store.length) 0 }
  else tdb

/-- Source: `tdb_expand_file`. -/
def tdb_expand_file (tdb : tdb_context) (addition : Nat) : Option (Int × tdb_context) :=
  if tdb.read_only then some (-1, { tdb with ecode := TDB_ERR_RDONLY })
  else if tdb.TDB_INTERNAL then
    let r := realloc tdb ((tdb.map_size + addition) % U64)
    if r.1 = 0 then some (-1, { r.2 with ecode := TDB_ERR_OOM })
    else some (0, { r.2 with map_ptr := r.1, map_size := (tdb.map_size + addition) % U64 })
  else
    let tdb := tdb_munmap tdb
    let tdb := ftruncate tdb ((tdb.map_size + addition) % U64)
    match fill tdb (List.replicate 8192 0x43) 8192 tdb.map_size addition with
    | none => none
    | some (r, tdb) =>
      if r = -1 then some (-1, tdb)
      else some (0, tdb_mmap { tdb with map_size := (tdb.map_size + addition) % U64 })

/-- Source: `struct tdb_access_hdr`. -/
structure tdb_access_hdr where
  off : Nat
  len : Nat
  convert : Bool
  deriving DecidableEq, Repr

/-- Value of `sizeof(struct tdb_access_hdr)`. -/
abbrev HDR_SIZE : Nat := 24

/-- What a borrow hands to the caller.  The C caller holds the address `p`
only; the rest records what lies behind it: for a pointer made by `tdb_direct`
the range of the store it was made for, for a heap block the header in front of
`p` (`none` while its fields are not initialised) and the bytes at `p`. -/
inductive View where
  | direct (p off len : Nat)
  | shadow (p : Nat) (hdr : Option tdb_access_hdr) (buf : List Byte)
  deriving DecidableEq, Repr

/-- The address the caller holds. -/
def View.ptr : View → Nat
  | View.direct p _ _ => p
  | View.shadow p _ _ => p

/-- Whether the borrow made the view with `tdb_direct`. -/
def View.made_direct : View → Bool
  | View.direct _ _ _ => true
  | View.shadow _ _ _ => false

/-- Source: `tdb_direct`.  The result is the pointer, `0` for `NULL`. -/
def tdb_direct (tdb : tdb_context) (off len : Nat) : Option (Nat × tdb_context) :=
  if tdb.map_ptr = 0 then some (0, tdb)
  else
    match tdb_oob tdb ((off + len) % U64) true with
    | none => none
    | some (r, tdb) =>
      if r = -1 then some (0, tdb)
      else some (ptr_add tdb.map_ptr off, tdb)

/-- Source: `tdb_access_read`. -/
def tdb_access_read (tdb : tdb_context) (off len : Nat) (convert : Bool) :
    Option (Option View × tdb_context) :=
  match (if !tdb.TDB_CONVERT then tdb_direct tdb off len else some (0, tdb)) with
  | none => none
  | some (ret, tdb) =>
    if ret = 0 then
      match _tdb_alloc_read tdb off len HDR_SIZE with
      | none => none
      | some (hdr, data, tdb) =>
        if hdr ≠ 0 then
          some (some (View.shadow (ptr_add hdr HDR_SIZE) none
            (if convert then tdb_convert tdb data len else data)), tdb)
        else some (none, tdb)
    else
      some (some (View.direct ret off len),
        { tdb with direct_access := tdb.direct_access + 1 })

/-- Source: `tdb_access_write`. -/
def tdb_access_write (tdb : tdb_context) (off len : Nat) (convert : Bool) :
    Option (Option View × tdb_context) :=
  if tdb.read_only then some (none, { tdb with ecode := TDB_ERR_RDONLY })
  else
    match (if !tdb.TDB_CONVERT then tdb_direct tdb off len else some (0, tdb)) with
    | none => none
    | some (ret, tdb) =>
      if ret = 0 then
        match _tdb_alloc_read tdb off len HDR_SIZE with
        | none => none
        | some (hdr, data, tdb) =>
          if hdr ≠ 0 then
            some (some (View.shadow (ptr_add hdr HDR_SIZE) (some ⟨off, len, convert⟩)
              (if convert then tdb_convert tdb data len else data)), tdb)
          else some (none, tdb)
      else
        some (some (View.direct ret off len),
          { tdb with direct_access := tdb.direct_access + 1 })

/-- Source: `is_direct`. -/
def is_direct (tdb : tdb_context) (p : Nat) : Bool :=
  tdb.map_ptr ≠ 0 && decide (tdb.map_ptr ≤ p) && decide (p < ptr_add tdb.map_ptr tdb.map_size)

/-- Source: `tdb_access_release`.  The `free` branch is defined on a heap block
only. -/
def tdb_access_release (tdb : tdb_context) (v : View) : Option tdb_context :=
  if is_direct tdb v.ptr then some { tdb with direct_access := tdb.direct_access - 1 }
  else
    match v with
    | View.shadow _ _ _ => some (emit tdb Event.free)
    | View.direct _ _ _ => none

/-- Source: `tdb_access_commit`.  The write-back branch reads the header in
front of `p`, which is defined on a heap block with an initialised header
only. -/
def tdb_access_commit (tdb : tdb_context) (v : View) : Option (Int × tdb_context) :=
  if tdb.map_ptr = 0 ∨ v.ptr < tdb.map_ptr ∨ v.ptr ≥ ptr_add tdb.map_ptr tdb.map_size then
    match v with
    | View.shadow _ (some hdr) buf =>
      match (if hdr.convert then tdb_write_convert tdb hdr.off buf hdr.len
             else tdb_write tdb hdr.off buf hdr.len) with
      | none => none
      | some (ret, tdb) => some (ret, emit tdb Event.free)
    | _ => none
  else some (0, { tdb with direct_access := tdb.direct_access - 1 })

/-- The caller stores `B` through a view: into the mapping for a pointer that
`tdb_direct` made on the current mapping, into the heap block otherwise. -/
def view_store (tdb : tdb_context) (v : View) (B : List Byte) : Option (tdb_context × View) :=
  match v with
  | View.direct p off len =>
    if tdb.map_ptr ≠ 0 ∧ p = ptr_add tdb.map_ptr off ∧ B.length = len ∧ mapped tdb off len then
      some ({ tdb with store := if len = 0 then tdb.store else write_at tdb.store off B }, v)
    else none
  | View.shadow p hdr buf =>
    if B.length = buf.length then some (tdb, View.shadow p hdr B) else none

/-- The caller loads the bytes of a view. -/
def view_load (tdb : tdb_context) (v : View) : Option (List Byte) :=
  match v with
  | View.direct p off len =>
    if tdb.map_ptr ≠ 0 ∧ p = ptr_add tdb.map_ptr off ∧ mapped tdb off len then
      some (slice tdb.store off len)
    else none
  | View.shadow _ _ buf => some buf

/-- The handles `a` and `b` agree on everything a call of this layer never
changes by itself: the flags, `read_only`, the lock state and the outside. -/
structure Frame (a b : tdb_context) : Prop where
  internal : b.TDB_INTERNAL = a.TDB_INTERNAL
  nommap : b.TDB_NOMMAP = a.TDB_NOMMAP
  convert : b.TDB_CONVERT = a.TDB_CONVERT
  nolock : b.TDB_NOLOCK = a.TDB_NOLOCK
  read_only : b.read_only = a.read_only
  expansion_lock : b.expansion_lock = a.expansion_lock
  sys : b.sys = a.sys

/-- The handles agree on what only a remap or a borrow changes as well: the
cached size, the mapping and the count of direct borrows. -/
structure Steady (a b : tdb_context) extends Frame a b : Prop where
  map_size : b.map_size = a.map_size
  map_ptr : b.map_ptr = a.map_ptr
  direct_access : b.direct_access = a.direct_access

/-- The 8 bytes of a 64-bit value, least significant first. -/
def le64 (v : Nat) : List Byte :=
  (List.range 8).map (fun k => v / 256 ^ k % 256)

/-- The value whose bytes, least significant first, are `w`. -/
def le_decode (w : List Byte) : Nat :=
  w.foldr (fun b acc => b + 256 * acc) 0

/-- The 8 bytes a `uint64_t` occupies in the memory of the host. -/
def host_encode (big : Bool) (v : Nat) : List Byte :=
  if big then (le64 v).reverse else le64 v

/-- The `uint64_t` that the host reads from 8 bytes of memory. -/
def host_decode (big : Bool) (w : List Byte) : Nat :=
  if big then le_decode w.reverse else le_decode w

/-- The library function `bswap_64` on values: the value whose bytes are those
of `v` in reverse order. -/
def bswap_64_val (v : Nat) : Nat := le_decode (le64 v).reverse

/-- The element `val[k]` of an array of `uint64_t` laid over `data`; `none` when
the array does not reach that far. -/
def word (big : Bool) (data : List Byte) (k : Nat) : Option Nat :=
  if 8 * k + 8 ≤ data.length then some (host_decode big (slice data (8 * k) 8)) else none

/-- The element `val[k]` read through the pointer of a view: for a pointer into
the mapping the 8 bytes at `off + 8 * k` of the store, defined when they lie in
the mapping; for a heap block the 8 bytes at index `8 * k` of the block. -/
def view_word (tdb : tdb_context) (v : View) (k : Nat) : Option Nat :=
  match v with
  | View.direct p off _ =>
    if tdb.map_ptr ≠ 0 ∧ p = ptr_add tdb.map_ptr off ∧ mapped tdb (off + 8 * k) 8 then
      some (host_decode tdb.sys.big_endian (slice tdb.store (off + 8 * k) 8))
    else none
  | View.shadow _ _ buf => word tdb.sys.big_endian buf k

/-- The loop of `tdb_find_zero_off`, `for (; i < num; i++) if (!val[i]) break;`
and the `i` it ends on. -/
def scan_zero : Nat → (Nat → Option Nat) → Nat → Nat → Option Nat
  | 0, _, _, i => some i
  | fuel + 1, val, num, i =>
    if i < num then
      match val i with
      | none => none
      | some w => if w = 0 then some i else scan_zero fuel val num (i + 1)
    else some i

/-- The loop of `tdb_find_nonzero_off`, `for (; i < n; i++) if (val[i]) break;`
and the `i` it ends on. -/
def scan_nonzero : Nat → (Nat → Option Nat) → Nat → Nat → Option Nat
  | 0, _, _, i => some i
  | fuel + 1, val, n, i =>
    if i < n then
      match val i with
      | none => none
      | some w => if w ≠ 0 then some i else scan_nonzero fuel val n (i + 1)
    else some i

/-- Source: `tdb_find_nonzero_off`. -/
def tdb_find_nonzero_off (tdb : tdb_context) (base start end_ : Nat) :
    Option (Nat × tdb_context) :=
  let n := (end_ + U64 - start) % U64
  match tdb_access_read tdb ((base + start * 8) % U64) ((n * 8) % U64) false with
  | none => none
  | some (none, tdb) => some (end_, tdb)
  | some (some v, tdb) =>
    match scan_nonzero n (view_word tdb v) n 0 with
    | none => none
    | some i =>
      match tdb_access_release tdb v with
      | none => none
      | some tdb => some ((start + i) % U64, tdb)

/-- Source: `tdb_find_zero_off`. -/
def tdb_find_zero_off (tdb : tdb_context) (off num : Nat) : Option (Nat × tdb_context) :=
  match tdb_access_read tdb off ((num * 8) % U64) false with
  | none => none
  | some (none, tdb) => some (num, tdb)
  | some (some v, tdb) =>
    match scan_zero num (view_word tdb v) num 0 with
    | none => none
    | some i =>
      match tdb_access_release tdb v with
      | none => none
      | some tdb => some (i, tdb)

/-- The loop of `zero_out` that streams the zero buffer through the write
method. -/
def zero_out_loop : Nat → tdb_context → Nat → Nat → Option (Int × tdb_context)
  | 0, tdb, _, len => if len = 0 then some (0, tdb) else none
  | fuel + 1, tdb, off, len =>
    if len = 0 then some (0, tdb)
    else
      let todo := if len < 8192 then len else 8192
      match tdb_write tdb off (List.replicate 8192 0) todo with
      | none => none
      | some (r, tdb) =>
        if r = -1 then some (-1, tdb)
        else zero_out_loop fuel tdb ((off + todo) % U64) (len - todo)

/-- Source: `zero_out`.  `memset` through the pointer is defined on a range of
the mapping (and when `len` is `0`). -/
def zero_out (tdb : tdb_context) (off len : Nat) : Option (Int × tdb_context) :=
  match tdb_direct tdb off len with
  | none => none
  | some (p, tdb) =>
    if tdb.read_only then some (-1, { tdb with ecode := TDB_ERR_RDONLY })
    else if p ≠ 0 then
      if len = 0 then some (0, tdb)
      else if tdb.map_ptr ≠ 0 ∧ mapped tdb off len then
        some (0, { tdb with store := write_at tdb.store off (List.replicate len 0) })
      else none
    else zero_out_loop len tdb off len

/-- Source: `tdb_read_off`.  `off_err` is the constant `TDB_OFF_ERR` (its
definition is not part of the file); `*p` is defined on 8 bytes of the
mapping. -/
def tdb_read_off (off_err : Nat) (tdb : tdb_context) (off : Nat) :
    Option (Nat × tdb_context) :=
  match (if !tdb.TDB_CONVERT then tdb_direct tdb off 8 else some (0, tdb)) with
  | none => none
  | some (p, tdb) =>
    if p ≠ 0 then
      if tdb.map_ptr ≠ 0 ∧ mapped tdb off 8 then
        some (host_decode tdb.sys.big_endian (slice tdb.store off 8), tdb)
      else none
    else
      match tdb_read_convert tdb off 8 with
      | none => none
      | some (r, ret, tdb) =>
        if r = -1 then some (off_err, tdb)
        else some (host_decode tdb.sys.big_endian ret, tdb)

/-- Source: `tdb_write_off`; `*p = val` is defined on 8 bytes of the mapping. -/
def tdb_write_off (tdb : tdb_context) (off val : Nat) : Option (Int × tdb_context) :=
  if tdb.read_only then some (-1, { tdb with ecode := TDB_ERR_RDONLY })
  else
    match (if !tdb.TDB_CONVERT then tdb_direct tdb off 8 else some (0, tdb)) with
    | none => none
    | some (p, tdb) =>
      if p ≠ 0 then
        if tdb.map_ptr ≠ 0 ∧ mapped tdb off 8 then
          some (0, { tdb with
            store := write_at tdb.store off (host_encode tdb.sys.big_endian val) })
        else none
      else tdb_write_convert tdb off (host_encode tdb.sys.big_endian val) 8

/-- The content the specification asks of `zero(off, len)`: every byte of
`[off, off+len)` is zero and every other byte is as before. -/
def zeroed (store : List Byte) (off len : Nat) : List Byte :=
  (List.range store.length).map
    (fun i => if off ≤ i ∧ i < off + len then 0 else store.getD i 0)

/-- The byte the specification asks at index `i` of a store once `W` has been
written at `off` over `before`: the byte of `W` inside `[off, off + |W|)`, the
byte of `before` elsewhere. -/
def overlay (before : List Byte) (off : Nat) (W : List Byte) (i : Nat) : Option Byte :=
  if off ≤ i ∧ i < off + W.length then W[i - off]? else before[i]?

/-! ## Sample handles -/

/-- An outside where every call succeeds. -/
def sys_ok : Sys where
  big_endian := false
  lock_expand := fun _ => LockAnswer.acquired
  fstat := fun _ => true
  mmap := fun _ => 0x7f0000000000
  malloc := fun _ => 0x1000
  realloc := fun _ => 0x2000
  ftruncate := fun _ => true
  pwrite := fun _ => 4096
  pread := fun _ => 4096
  junk := fun _ => 0xa5

/-- A writable file-backed handle, mapped over the whole of `store`. -/
def sample_file (store : List Byte) : tdb_context where
  TDB_INTERNAL := false
  TDB_NOMMAP := false
  TDB_CONVERT := false
  TDB_NOLOCK := false
  read_only := false
  map_ptr := 0x7f0000000000
  map_size := store.length
  ecode := TDB_SUCCESS
  direct_access := 0
  expansion_lock := false
  errno := 0
  store := store
  trace := []
  sys := sys_ok
  clock := 0

/-- A file-backed handle whose cached size `8` lags behind a store of 16 bytes. -/
def sample_stale : tdb_context :=
  { sample_file (List.replicate 16 7) with map_size := 8 }

/-- The handle `sample_stale` when the locking collaborator refuses the
expansion lock. -/
def sample_refused : tdb_context :=
  { sample_stale with
    sys := { sys_ok with lock_expand := fun _ => LockAnswer.refused TDB_ERR_LOCK } }

/-- A file-backed handle mapped over a store of 16 bytes. -/
def sample_mapped : tdb_context := sample_file (List.replicate 16 7)

/-- The handle `sample_mapped` when `ftruncate` fails. -/
def sample_no_ftruncate : tdb_context :=
  { sample_mapped with sys := { sys_ok with ftruncate := fun _ => false } }

/-- The handle that `tdb_expand_file` leaves when `sample_no_ftruncate` grows by
5 bytes. -/
def sample_grown : tdb_context :=
  match tdb_expand_file sample_no_ftruncate 5 with
  | some (_, t) => t
  | none => sample_no_ftruncate

/-- A writable memory-only handle on a block of 2 bytes. -/
def sample_internal : tdb_context :=
  { sample_file [1, 2] with TDB_INTERNAL := true, map_ptr := 0x1000 }

/-- The handle that `tdb_expand_file` leaves when `sample_internal` grows by 2
bytes. -/
def sample_internal_grown : tdb_context :=
  match tdb_expand_file sample_internal 2 with
  | some (_, t) => t
  | none => sample_internal

/-- The handle `sample_mapped` with `TDB_CONVERT` set. -/
def sample_convert : tdb_context := { sample_mapped with TDB_CONVERT := true }

/-- The view that the write borrow of 8 bytes at offset 4 of `sample_convert`
returns. -/
def sample_view : View :=
  match tdb_access_write sample_convert 4 8 true with
  | some (some v, _) => v
  | _ => View.direct 0 0 0

/-- The handle after that borrow. -/
def sample_borrowed : tdb_context :=
  match tdb_access_write sample_convert 4 8 true with
  | some (_, t) => t
  | none => sample_convert

/-- The handle after the view, filled with `1 .. 8`, is committed. -/
def sample_committed : tdb_context :=
  match tdb_access_commit sample_borrowed
      (View.shadow sample_view.ptr (some ⟨4, 8, true⟩) [1, 2, 3, 4, 5, 6, 7, 8]) with
  | some (_, t) => t
  | none => sample_borrowed

/-- The handle after the view, filled with `1 .. 8`, is released instead. -/
def sample_released : tdb_context :=
  match tdb_access_release sample_borrowed
      (View.shadow sample_view.ptr (some ⟨4, 8, true⟩) [1, 2, 3, 4, 5, 6, 7, 8]) with
  | some t => t
  | none => sample_borrowed

/-- The handle `sample_stale` when the size query fails. -/
def sample_no_fstat : tdb_context :=
  { sample_stale with sys := { sys_ok with fstat := fun _ => false } }

/-- An unmapped file-backed handle on 16 bytes whose `pwrite` transfers at most
2 bytes a call. -/
def sample_short_writes : tdb_context :=
  { sample_mapped with map_ptr := 0, TDB_NOMMAP := true,
                       sys := { sys_ok with pwrite := fun _ => 2 } }

/-- The handle that `zero_out` of 8 bytes at offset 4 leaves on
`sample_short_writes`. -/
def sample_zeroed : tdb_context :=
  match zero_out sample_short_writes 4 8 with
  | some (_, t) => t
  | none => sample_short_writes

/-- The handle `sample_mapped` when every `pwrite` fails. -/
def sample_fill_fails : tdb_context :=
  { sample_mapped with sys := { sys_ok with pwrite := fun _ => -1 } }

/-- The bytes of a run of 8-byte slots, each least significant byte first. -/
def slot_bytes (l : List Nat) : List Byte := (l.map le64).flatten

/-- A mapped handle on the slots `[1, 1, 1, 0, 1]`. -/
def sample_slots_zero : tdb_context := sample_file (slot_bytes [1, 1, 1, 0, 1])

/-- A mapped handle on the slots `[0, 0, 0, 0, 0, 5, 0, 0]`. -/
def sample_slots_nonzero : tdb_context :=
  sample_file (slot_bytes [0, 0, 0, 0, 0, 5, 0, 0])

/-- The handle that `tdb_write_off` of `0x0102030405060708` at offset 8 leaves
on `sample_convert`. -/
def sample_off_written : tdb_context :=
  match tdb_write_off sample_convert 8 0x0102030405060708 with
  | some (_, t) => t
  | none => sample_convert

/-- The handle that `tdb_expand_file` leaves when `sample_internal` grows by 14
bytes, to 16. -/
def sample_internal_wide : tdb_context :=
  match tdb_expand_file sample_internal 14 with
  | some (_, t) => t
  | none => sample_internal

/-- The handle after `tdb_write` of the 8 bytes `11 .. 18` at offset 6 of
`sample_internal_wide`. -/
def sample_written : tdb_context :=
  match tdb_write sample_internal_wide 6 [11, 12, 13, 14, 15, 16, 17, 18] 8 with
  | some (_, t) => t
  | none => sample_internal_wide

/-- A read-only file-backed handle. -/
def sample_read_only : tdb_context :=
  { sample_file (List.replicate 16 7) with read_only := true }

/-! ## Bytes: slices and writes -/

theorem convert_words_nil (n : Nat) : convert_words n [] = [] := by
  induction n with
  | zero => rfl
  | succ n ih => simp [convert_words, bswap_64, ih]

theorem convert_words_length (n : Nat) (buf : List Byte) :
    (convert_words n buf).length = buf.length := by
  induction n generalizing buf with
  | zero => rfl
  | succ n ih =>
    simp only [convert_words, bswap_64, List.length_append, List.length_reverse,
      List.length_take, ih, List.length_drop]
    omega

theorem convert_words_twice (n : Nat) (buf : List Byte) :
    convert_words n (convert_words n buf) = buf := by
  induction n generalizing buf with
  | zero => rfl
  | succ n ih =>
    by_cases h : 8 ≤ buf.length
    · have hl : (bswap_64 (buf.take 8)).length = 8 := by
        simp [bswap_64, List.length_take]; omega
      simp only [convert_words]
      rw [List.take_left' hl, List.drop_left' hl, ih]
      simp [bswap_64]
    · have h1 : buf.take 8 = buf := List.take_of_length_le (by omega)
      have h2 : buf.drop 8 = [] := List.drop_of_length_le (by omega)
      have h3 : (buf.reverse).take 8 = buf.reverse :=
        List.take_of_length_le (by simp; omega)
      have h4 : (buf.reverse).drop 8 = [] := List.drop_of_length_le (by simp; omega)
      simp [convert_words, bswap_64, h1, h2, h3, h4, convert_words_nil]

theorem convert_words_get (n : Nat) (buf : List Byte) (h : 8 * n ≤ buf.length) (i : Nat) :
    (convert_words n buf)[i]? =
      if i < 8 * n then buf[8 * (i / 8) + (7 - i % 8)]? else buf[i]? := by
  induction n generalizing buf i with
  | zero => simp [convert_words]
  | succ n ih =>
    have hl : (bswap_64 (buf.take 8)).length = 8 := by
      simp [bswap_64, List.length_take]; omega
    simp only [convert_words]
    by_cases hi : i < 8
    · rw [List.getElem?_append_left (by omega)]
      have h8 : i < (buf.take 8).length := by simp [List.length_take]; omega
      rw [bswap_64, List.getElem?_reverse h8]
      have e1 : (buf.take 8).length - 1 - i = 7 - i := by
        simp [List.length_take]; omega
      have e2 : i / 8 = 0 := by omega
      have e3 : i % 8 = i := by omega
      rw [e1, List.getElem?_take_of_lt (by omega), if_pos (by omega), e2, e3]
      simp
    · rw [List.getElem?_append_right (by omega), hl,
        ih (buf.drop 8) (by simp [List.length_drop]; omega) (i - 8)]
      by_cases hn : i < 8 * (n + 1)
      · rw [if_pos (by omega), if_pos hn, List.getElem?_drop]
        congr 1
        omega
      · rw [if_neg (by omega), if_neg hn, List.getElem?_drop]
        congr 1
        omega

theorem slice_get (s : List Byte) (off len i : Nat) :
    (slice s off len)[i]? = if i < len then s[off + i]? else none := by
  unfold slice
  rw [List.getElem?_take, List.getElem?_drop]

theorem slice_length (s : List Byte) (off len : Nat) (h : off + len ≤ s.length) :
    (slice s off len).length = len := by
  unfold slice
  rw [List.length_take, List.length_drop]
  omega

theorem slice_append (s : List Byte) (off n m : Nat) :
    slice s off n ++ slice s (off + n) m = slice s off (n + m) := by
  unfold slice
  rw [List.take_add, List.drop_drop]

theorem write_at_length (s : List Byte) (off : Nat) (d : List Byte) :
    (write_at s off d).length = max s.length (off + d.length) := by
  unfold write_at
  simp only [List.length_append, List.length_take, List.length_replicate, List.length_drop]
  omega

theorem write_at_get (s : List Byte) (off : Nat) (d : List Byte) (i : Nat) :
    (write_at s off d)[i]? =
      if i < off then (if i < s.length then s[i]? else some 0)
      else if i < off + d.length then d[i - off]? else s[i]? := by
  have hl : ((s ++ List.replicate (off - s.length) 0).take off).length = off := by
    simp only [List.length_append, List.length_take, List.length_replicate]
    omega
  unfold write_at
  by_cases h1 : i < off
  · rw [if_pos h1, List.append_assoc, List.getElem?_append_left (by omega),
      List.getElem?_take_of_lt h1]
    by_cases h2 : i < s.length
    · rw [if_pos h2, List.getElem?_append_left h2]
    · rw [if_neg h2, List.getElem?_append_right (by omega), List.getElem?_replicate,
        if_pos (by omega)]
  · rw [if_neg h1, List.append_assoc, List.getElem?_append_right (by omega), hl]
    by_cases h2 : i < off + d.length
    · rw [if_pos h2, List.getElem?_append_left (by omega)]
    · rw [if_neg h2, List.getElem?_append_right (by omega), List.getElem?_drop]
      congr 1
      omega

theorem write_at_write_at (s : List Byte) (off : Nat) (a b : List Byte) :
    write_at (write_at s off a) (off + a.length) b = write_at s off (a ++ b) := by
  apply List.ext_getElem?
  intro i
  rw [write_at_get, write_at_get, write_at_get, write_at_length, List.length_append]
  by_cases h1 : i < off
  · simp only [h1, if_true]
    rw [if_pos (by omega), if_pos (by omega)]
  · by_cases h2 : i < off + a.length
    · simp only [h1, if_false]
      rw [if_pos h2, if_pos (by omega), if_pos h2, if_pos (by omega),
        List.getElem?_append_left (by omega)]
    · simp only [h1, if_false]
      rw [if_neg h2, if_neg h2]
      by_cases h3 : i < off + a.length + b.length
      · rw [if_pos h3, if_pos (by omega), List.getElem?_append_right (by omega)]
        congr 1
        omega
      · rw [if_neg h3, if_neg (by omega)]

theorem slice_write_at (s : List Byte) (off : Nat) (d : List Byte) :
    slice (write_at s off d) off d.length = d := by
  apply List.ext_getElem?
  intro i
  rw [slice_get, write_at_get]
  by_cases h : i < d.length
  · rw [if_pos h, if_neg (by omega), if_pos (by omega)]
    congr 1
    omega
  · rw [if_neg h, List.getElem?_eq_none (by omega)]

theorem write_at_length_of_le (s : List Byte) (off : Nat) (d : List Byte)
    (h : off + d.length ≤ s.length) : (write_at s off d).length = s.length := by
  rw [write_at_length]
  omega

/-! ## C10: the endian converter -/

/-- C10. `tdb_convert` applied twice gives back the buffer, for every handle,
buffer and size; on a buffer of at least `size` bytes one application with
`TDB_CONVERT` set keeps the length and puts at index `i` of the first
`size / 8` words the byte of the same word at mirrored position `7 - i % 8`,
every later byte staying as it is; with `TDB_CONVERT` clear the buffer is
unchanged. -/
theorem C10_tdb_convert_self_inverse (tdb : tdb_context) (buf : List Byte) (size : Nat) :
    tdb_convert tdb (tdb_convert tdb buf size) size = buf
    ∧ (size ≤ buf.length → tdb.TDB_CONVERT = true →
        (tdb_convert tdb buf size).length = buf.length
        ∧ ∀ i, (tdb_convert tdb buf size)[i]? =
            if i < 8 * (size / 8) then buf[8 * (i / 8) + (7 - i % 8)]? else buf[i]?)
    ∧ (tdb.TDB_CONVERT = false → tdb_convert tdb buf size = buf) := by
  refine ⟨?_, ?_, ?_⟩
  · unfold tdb_convert
    by_cases hc : tdb.TDB_CONVERT = true
    · simp [hc, convert_words_twice]
    · simp [hc]
  · intro hs hc
    unfold tdb_convert
    simp only [hc, if_true]
    refine ⟨convert_words_length _ _, fun i => ?_⟩
    exact convert_words_get _ _ (by omega) i
  · intro hc
    simp [tdb_convert, hc]

/-- C10, at a sample: a 10-byte buffer on a handle with `TDB_CONVERT` set. -/
theorem C10_tdb_convert_self_inverse_witness :
    tdb_convert { sample_stale with TDB_CONVERT := true }
        (tdb_convert { sample_stale with TDB_CONVERT := true } [1, 2, 3, 4, 5, 6, 7, 8, 9, 10] 10)
        10 = [1, 2, 3, 4, 5, 6, 7, 8, 9, 10]
    ∧ (tdb_convert { sample_stale with TDB_CONVERT := true }
        [1, 2, 3, 4, 5, 6, 7, 8, 9, 10] 10).length = 10 :=
  ⟨(C10_tdb_convert_self_inverse { sample_stale with TDB_CONVERT := true }
      [1, 2, 3, 4, 5, 6, 7, 8, 9, 10] 10).1,
   ((C10_tdb_convert_self_inverse { sample_stale with TDB_CONVERT := true }
      [1, 2, 3, 4, 5, 6, 7, 8, 9, 10] 10).2.1 (by decide) rfl).1⟩

/-! ## Fields that the bookkeeping leaves alone -/
@[simp] theorem emit_TDB_INTERNAL (t : tdb_context) (e : Event) : (emit t e).TDB_INTERNAL = t.TDB_INTERNAL := rfl
@[simp] theorem tick_TDB_INTERNAL (t : tdb_context) (e : Event) : (tick t e).TDB_INTERNAL = t.TDB_INTERNAL := rfl
@[simp] theorem emit_TDB_NOMMAP (t : tdb_context) (e : Event) : (emit t e).TDB_NOMMAP = t.TDB_NOMMAP := rfl
@[simp] theorem tick_TDB_NOMMAP (t : tdb_context) (e : Event) : (tick t e).TDB_NOMMAP = t.TDB_NOMMAP := rfl
@[simp] theorem emit_TDB_CONVERT (t : tdb_context) (e : Event) : (emit t e).TDB_CONVERT = t.TDB_CONVERT := rfl
@[simp] theorem tick_TDB_CONVERT (t : tdb_context) (e : Event) : (tick t e).TDB_CONVERT = t.TDB_CONVERT := rfl
@[simp] theorem emit_TDB_NOLOCK (t : tdb_context) (e : Event) : (emit t e).TDB_NOLOCK = t.TDB_NOLOCK := rfl
@[simp] theorem tick_TDB_NOLOCK (t : tdb_context) (e : Event) : (tick t e).TDB_NOLOCK = t.TDB_NOLOCK := rfl
@[simp] theorem emit_read_only (t : tdb_context) (e : Event) : (emit t e).read_only = t.read_only := rfl
@[simp] theorem tick_read_only (t : tdb_context) (e : Event) : (tick t e).read_only = t.read_only := rfl
@[simp] theorem emit_map_ptr (t : tdb_context) (e : Event) : (emit t e).map_ptr = t.map_ptr := rfl
@[simp] theorem tick_map_ptr (t : tdb_context) (e : Event) : (tick t e).map_ptr = t.map_ptr := rfl
@[simp] theorem emit_map_size (t : tdb_context) (e : Event) : (emit t e).map_size = t.map_size := rfl
@[simp] theorem tick_map_size (t : tdb_context) (e : Event) : (tick t e).map_size = t.map_size := rfl
@[simp] theorem emit_ecode (t : tdb_context) (e : Event) : (emit t e).ecode = t.ecode := rfl
@[simp] theorem tick_ecode (t : tdb_context) (e : Event) : (tick t e).ecode = t.ecode := rfl
@[simp] theorem emit_direct_access (t : tdb_context) (e : Event) : (emit t e).direct_access = t.direct_access := rfl
@[simp] theorem tick_direct_access (t : tdb_context) (e : Event) : (tick t e).direct_access = t.direct_access := rfl
@[simp] theorem emit_expansion_lock (t : tdb_context) (e : Event) : (emit t e).expansion_lock = t.expansion_lock := rfl
@[simp] theorem tick_expansion_lock (t : tdb_context) (e : Event) : (tick t e).expansion_lock = t.expansion_lock := rfl
@[simp] theorem emit_errno (t : tdb_context) (e : Event) : (emit t e).errno = t.errno := rfl
@[simp] theorem tick_errno (t : tdb_context) (e : Event) : (tick t e).errno = t.errno := rfl
@[simp] theorem emit_store (t : tdb_context) (e : Event) : (emit t e).store = t.store := rfl
@[simp] theorem tick_store (t : tdb_context) (e : Event) : (tick t e).store = t.store := rfl
@[simp] theorem emit_sys (t : tdb_context) (e : Event) : (emit t e).sys = t.sys := rfl
@[simp] theorem tick_sys (t : tdb_context) (e : Event) : (tick t e).sys = t.sys := rfl
@[simp] theorem emit_clock (t : tdb_context) (e : Event) : (emit t e).clock = t.clock := rfl
@[simp] theorem emit_trace (t : tdb_context) (e : Event) : (emit t e).trace = t.trace ++ [e] := rfl
@[simp] theorem tick_trace (t : tdb_context) (e : Event) : (tick t e).trace = t.trace ++ [e] := rfl
@[simp] theorem tick_clock (t : tdb_context) (e : Event) : (tick t e).clock = t.clock + 1 := rfl
@[simp] theorem tdb_munmap_TDB_INTERNAL (t : tdb_context) : (tdb_munmap t).TDB_INTERNAL = t.TDB_INTERNAL := by
  unfold tdb_munmap; split
  · rfl
  · split <;> rfl
@[simp] theorem tdb_mmap_TDB_INTERNAL (t : tdb_context) : (tdb_mmap t).TDB_INTERNAL = t.TDB_INTERNAL := by
  unfold tdb_mmap; split
  · rfl
  · split
    · rfl
    · dsimp only; split <;> rfl
@[simp] theorem tdb_munmap_TDB_NOMMAP (t : tdb_context) : (tdb_munmap t).TDB_NOMMAP = t.TDB_NOMMAP := by
  unfold tdb_munmap; split
  · rfl
  · split <;> rfl
@[simp] theorem tdb_mmap_TDB_NOMMAP (t : tdb_context) : (tdb_mmap t).TDB_NOMMAP = t.TDB_NOMMAP := by
  unfold tdb_mmap; split
  · rfl
  · split
    · rfl
    · dsimp only; split <;> rfl
@[simp] theorem tdb_munmap_TDB_CONVERT (t : tdb_context) : (tdb_munmap t).TDB_CONVERT = t.TDB_CONVERT := by
  unfold tdb_munmap; split
  · rfl
  · split <;> rfl
@[simp] theorem tdb_mmap_TDB_CONVERT (t : tdb_context) : (tdb_mmap t).TDB_CONVERT = t.TDB_CONVERT := by
  unfold tdb_mmap; split
  · rfl
  · split
    · rfl
    · dsimp only; split <;> rfl
@[simp] theorem tdb_munmap_TDB_NOLOCK (t : tdb_context) : (tdb_munmap t).TDB_NOLOCK = t.TDB_NOLOCK := by
  unfold tdb_munmap; split
  · rfl
  · split <;> rfl
@[simp] theorem tdb_mmap_TDB_NOLOCK (t : tdb_context) : (tdb_mmap t).TDB_NOLOCK = t.TDB_NOLOCK := by
  unfold tdb_mmap; split
  · rfl
  · split
    · rfl
    · dsimp only; split <;> rfl
@[simp] theorem tdb_munmap_read_only (t : tdb_context) : (tdb_munmap t).read_only = t.read_only := by
  unfold tdb_munmap; split
  · rfl
  · split <;> rfl
@[simp] theorem tdb_mmap_read_only (t : tdb_context) : (tdb_mmap t).read_only = t.read_only := by
  unfold tdb_mmap; split
  · rfl
  · split
    · rfl
    · dsimp only; split <;> rfl
@[simp] theorem tdb_munmap_map_size (t : tdb_context) : (tdb_munmap t).map_size = t.map_size := by
  unfold tdb_munmap; split
  · rfl
  · split <;> rfl
@[simp] theorem tdb_mmap_map_size (t : tdb_context) : (tdb_mmap t).map_size = t.map_size := by
  unfold tdb_mmap; split
  · rfl
  · split
    · rfl
    · dsimp only; split <;> rfl
@[simp] theorem tdb_munmap_ecode (t : tdb_context) : (tdb_munmap t).ecode = t.ecode := by
  unfold tdb_munmap; split
  · rfl
  · split <;> rfl
@[simp] theorem tdb_mmap_ecode (t : tdb_context) : (tdb_mmap t).ecode = t.ecode := by
  unfold tdb_mmap; split
  · rfl
  · split
    · rfl
    · dsimp only; split <;> rfl
@[simp] theorem tdb_munmap_direct_access (t : tdb_context) : (tdb_munmap t).direct_access = t.direct_access := by
  unfold tdb_munmap; split
  · rfl
  · split <;> rfl
@[simp] theorem tdb_mmap_direct_access (t : tdb_context) : (tdb_mmap t).direct_access = t.direct_access := by
  unfold tdb_mmap; split
  · rfl
  · split
    · rfl
    · dsimp only; split <;> rfl
@[simp] theorem tdb_munmap_expansion_lock (t : tdb_context) : (tdb_munmap t).expansion_lock = t.expansion_lock := by
  unfold tdb_munmap; split
  · rfl
  · split <;> rfl
@[simp] theorem tdb_mmap_expansion_lock (t : tdb_context) : (tdb_mmap t).expansion_lock = t.expansion_lock := by
  unfold tdb_mmap; split
  · rfl
  · split
    · rfl
    · dsimp only; split <;> rfl
@[simp] theorem tdb_munmap_errno (t : tdb_context) : (tdb_munmap t).errno = t.errno := by
  unfold tdb_munmap; split
  · rfl
  · split <;> rfl
@[simp] theorem tdb_mmap_errno (t : tdb_context) : (tdb_mmap t).errno = t.errno := by
  unfold tdb_mmap; split
  · rfl
  · split
    · rfl
    · dsimp only; split <;> rfl
@[simp] theorem tdb_munmap_store (t : tdb_context) : (tdb_munmap t).store = t.store := by
  unfold tdb_munmap; split
  · rfl
  · split <;> rfl
@[simp] theorem tdb_mmap_store (t : tdb_context) : (tdb_mmap t).store = t.store := by
  unfold tdb_mmap; split
  · rfl
  · split
    · rfl
    · dsimp only; split <;> rfl
@[simp] theorem tdb_munmap_sys (t : tdb_context) : (tdb_munmap t).sys = t.sys := by
  unfold tdb_munmap; split
  · rfl
  · split <;> rfl
@[simp] theorem tdb_mmap_sys (t : tdb_context) : (tdb_mmap t).sys = t.sys := by
  unfold tdb_mmap; split
  · rfl
  · split
    · rfl
    · dsimp only; split <;> rfl
@[simp] theorem tdb_munmap_clock (t : tdb_context) : (tdb_munmap t).clock = t.clock := by
  unfold tdb_munmap; split
  · rfl
  · split <;> rfl


theorem Frame.same (a : tdb_context) : Frame a a :=
  ⟨Eq.refl _, Eq.refl _, Eq.refl _, Eq.refl _, Eq.refl _, Eq.refl _, Eq.refl _⟩

theorem Frame.trans {a b c : tdb_context} (h1 : Frame a b) (h2 : Frame b c) : Frame a c :=
  ⟨h2.internal.trans h1.internal, h2.nommap.trans h1.nommap, h2.convert.trans h1.convert,
   h2.nolock.trans h1.nolock, h2.read_only.trans h1.read_only,
   h2.expansion_lock.trans h1.expansion_lock, h2.sys.trans h1.sys⟩

theorem Steady.still (a : tdb_context) : Steady a a :=
  ⟨Frame.same a, Eq.refl _, Eq.refl _, Eq.refl _⟩

theorem Steady.chain {a b c : tdb_context} (h1 : Steady a b) (h2 : Steady b c) : Steady a c :=
  ⟨h1.toFrame.trans h2.toFrame, h2.map_size.trans h1.map_size, h2.map_ptr.trans h1.map_ptr,
   h2.direct_access.trans h1.direct_access⟩

theorem steady_tick (t : tdb_context) (e : Event) : Steady t (tick t e) :=
  ⟨⟨rfl, rfl, rfl, rfl, rfl, rfl, rfl⟩, rfl, rfl, rfl⟩

theorem steady_emit (t : tdb_context) (e : Event) : Steady t (emit t e) :=
  ⟨⟨rfl, rfl, rfl, rfl, rfl, rfl, rfl⟩, rfl, rfl, rfl⟩

theorem steady_store (t : tdb_context) (s : List Byte) : Steady t { t with store := s } :=
  ⟨⟨rfl, rfl, rfl, rfl, rfl, rfl, rfl⟩, rfl, rfl, rfl⟩

theorem steady_errno (t : tdb_context) (n : Nat) : Steady t { t with errno := n } :=
  ⟨⟨rfl, rfl, rfl, rfl, rfl, rfl, rfl⟩, rfl, rfl, rfl⟩

theorem steady_ecode (t : tdb_context) (e : TDB_ERROR) : Steady t { t with ecode := e } :=
  ⟨⟨rfl, rfl, rfl, rfl, rfl, rfl, rfl⟩, rfl, rfl, rfl⟩

/-! ## Positioned writes and reads -/

theorem OFF_MAX_lt_U64 : OFF_MAX < U64 := by norm_num [OFF_MAX, U64]


theorem pwrite_spec (t : tdb_context) (buf : List Byte) (len off : Nat) :
    Steady t (pwrite t buf len off).2
    ∧ (((pwrite t buf len off).1 < 0 ∧ (pwrite t buf len off).2.store = t.store)
      ∨ ((pwrite t buf len off).1 = 0 ∧ (pwrite t buf len off).2.store = t.store)
      ∨ ∃ n : Nat, (pwrite t buf len off).1 = (n : Int) ∧ 0 < n ∧ n ≤ len
          ∧ off + n ≤ OFF_MAX
          ∧ (pwrite t buf len off).2.store = write_at t.store off (buf.take n)) := by
  unfold pwrite
  dsimp only
  split
  · exact ⟨steady_tick _ _, Or.inl ⟨by show (-1 : Int) < 0; decide, rfl⟩⟩
  · rename_i h
    split
    · exact ⟨steady_tick _ _, Or.inr (Or.inl ⟨rfl, rfl⟩)⟩
    · rename_i hn
      refine ⟨(steady_tick _ _).chain (steady_store _ _), Or.inr (Or.inr ⟨_, rfl, ?_, ?_, ?_, rfl⟩)⟩
      · omega
      · omega
      · omega

theorem tdb_pwrite_all_loop_total (fuel : Nat) :
    ∀ (t : tdb_context) (buf : List Byte) (len off : Nat), len ≤ fuel →
      ∃ ok t', tdb_pwrite_all_loop fuel t buf len off = some (ok, t') ∧ Steady t t' := by
  induction fuel with
  | zero =>
    intro t buf len off h
    have : len = 0 := by omega
    exact ⟨true, t, by simp [tdb_pwrite_all_loop, this], Steady.still t⟩
  | succ fuel ih =>
    intro t buf len off h
    unfold tdb_pwrite_all_loop
    by_cases h0 : len = 0
    · exact ⟨true, t, by simp [h0], Steady.still t⟩
    · obtain ⟨hs, hc⟩ := pwrite_spec t buf len off
      simp only [h0, if_false]
      rcases hc with ⟨hneg, _⟩ | ⟨hz, _⟩ | ⟨n, hn, hpos, hle, _, _⟩
      · exact ⟨false, _, by simp [hneg], hs⟩
      · exact ⟨false, { (pwrite t buf len off).2 with errno := ENOSPC }, by simp [hz],
          hs.chain (steady_errno _ _)⟩
      · have h1 : ¬ ((pwrite t buf len off).1 < 0) := by rw [hn]; omega
        have h2 : ¬ ((pwrite t buf len off).1 = 0) := by rw [hn]; omega
        simp only [h1, h2, if_false]
        obtain ⟨ok, t', he, hs'⟩ := ih (pwrite t buf len off).2
          (buf.drop (pwrite t buf len off).1.toNat) (len - (pwrite t buf len off).1.toNat)
          ((off + (pwrite t buf len off).1.toNat) % U64) (by rw [hn]; simp; omega)
        exact ⟨ok, t', he, hs.chain hs'⟩

theorem tdb_pwrite_all_loop_store (fuel : Nat) :
    ∀ (t : tdb_context) (buf : List Byte) (len off : Nat) (t' : tdb_context),
      len ≤ fuel → len ≤ buf.length →
      tdb_pwrite_all_loop fuel t buf len off = some (true, t') →
      (len = 0 → t' = t)
      ∧ (0 < len → off + len ≤ OFF_MAX ∧ t'.store = write_at t.store off (buf.take len)) := by
  induction fuel with
  | zero =>
    intro t buf len off t' h hb hr
    have h0 : len = 0 := by omega
    simp only [tdb_pwrite_all_loop, h0, if_true, Option.some.injEq, Prod.mk.injEq,
      true_and] at hr
    exact ⟨fun _ => hr.symm, fun hp => by omega⟩
  | succ fuel ih =>
    intro t buf len off t' h hb hr
    unfold tdb_pwrite_all_loop at hr
    by_cases h0 : len = 0
    · simp only [h0, if_true, Option.some.injEq, Prod.mk.injEq, true_and] at hr
      exact ⟨fun _ => hr.symm, fun hp => by omega⟩
    · refine ⟨fun hz => absurd hz h0, fun _ => ?_⟩
      obtain ⟨_, hc⟩ := pwrite_spec t buf len off
      simp only [h0, if_false] at hr
      rcases hc with ⟨hneg, _⟩ | ⟨hz, _⟩ | ⟨n, hn, hpos, hle, hmax, hst⟩
      · simp [hneg] at hr
      · simp [hz] at hr
      · have h1 : ¬ ((pwrite t buf len off).1 < 0) := by rw [hn]; omega
        have h2 : ¬ ((pwrite t buf len off).1 = 0) := by rw [hn]; omega
        simp only [h1, h2, if_false] at hr
        have hto : (pwrite t buf len off).1.toNat = n := by rw [hn]; simp
        rw [hto] at hr
        have hmod : (off + n) % U64 = off + n :=
          Nat.mod_eq_of_lt (by have := OFF_MAX_lt_U64; omega)
        rw [hmod] at hr
        obtain ⟨hzero, hposr⟩ := ih (pwrite t buf len off).2 (buf.drop n) (len - n) (off + n) t'
          (by omega) (by simp [List.length_drop]; omega) hr
        have htake : (buf.take n).length = n := by
          rw [List.length_take]; omega
        by_cases hrest : len - n = 0
        · have hn' : n = len := by omega
          rw [hzero hrest, hst, hn']
          exact ⟨by omega, rfl⟩
        · obtain ⟨hm, hs2⟩ := hposr (by omega)
          refine ⟨by omega, ?_⟩
          rw [hs2, hst]
          have := write_at_write_at t.store off (buf.take n) ((buf.drop n).take (len - n))
          rw [htake] at this
          rw [this]
          congr 1
          have hsplit : len = n + (len - n) := by omega
          conv_rhs => rw [hsplit, List.take_add]

theorem tdb_pwrite_all_total (t : tdb_context) (buf : List Byte) (len off : Nat) :
    ∃ ok t', tdb_pwrite_all t buf len off = some (ok, t') ∧ Steady t t' :=
  tdb_pwrite_all_loop_total len t buf len off (le_refl _)

theorem tdb_pwrite_all_store (t : tdb_context) (buf : List Byte) (len off : Nat)
    (t' : tdb_context) (hb : len ≤ buf.length)
    (hr : tdb_pwrite_all t buf len off = some (true, t')) :
    (len = 0 → t' = t)
    ∧ (0 < len → off + len ≤ OFF_MAX ∧ t'.store = write_at t.store off (buf.take len)) :=
  tdb_pwrite_all_loop_store len t buf len off t' (le_refl _) hb hr

theorem pread_spec (t : tdb_context) (len off : Nat) :
    Steady t (pread t len off).2.2 ∧ (pread t len off).2.2.store = t.store
    ∧ (((pread t len off).1 < 0 ∧ (t.sys.pread t.clock < 0 ∨ OFF_MAX < off))
      ∨ ∃ n : Nat, (pread t len off).1 = (n : Int) ∧ n ≤ len ∧ off + n ≤ OFF_MAX
          ∧ (pread t len off).2.1 = slice t.store off n
          ∧ (slice t.store off n).length = n
          ∧ (0 < t.sys.pread t.clock → 0 < len → off < OFF_MAX → off < t.store.length →
              0 < n)) := by
  unfold pread
  dsimp only
  split
  · rename_i h
    exact ⟨steady_tick _ _, rfl, Or.inl ⟨by show (-1 : Int) < 0; decide, h⟩⟩
  · rename_i h
    refine ⟨steady_tick _ _, rfl, Or.inr ⟨_, rfl, ?_, ?_, ?_, ?_, ?_⟩⟩
    · simp only [slice, List.length_take, List.length_drop, tick_store]; omega
    · simp only [slice, List.length_take, List.length_drop, tick_store]; omega
    · simp only [slice, tick_store, List.length_take, List.length_drop]
      rw [List.take_eq_take]
      simp only [List.length_drop]
      omega
    · simp only [slice, List.length_take, List.length_drop, tick_store]; omega
    · intro h1 h2 h3 h4
      simp only [slice, List.length_take, List.length_drop, tick_store]
      omega

theorem tdb_pread_all_loop_spec (fuel : Nat) :
    ∀ (t : tdb_context) (acc : List Byte) (len off : Nat), len ≤ fuel →
      ∃ ok data t', tdb_pread_all_loop fuel t acc len off = some (ok, data, t')
        ∧ Steady t t' ∧ t'.store = t.store
        ∧ (ok = true → data = acc ++ slice t.store off len
            ∧ (slice t.store off len).length = len)
        ∧ ((∀ n, 0 < t.sys.pread n) → off + len ≤ t.store.length → off + len ≤ OFF_MAX →
            ok = true) := by
  induction fuel with
  | zero =>
    intro t acc len off h
    have h0 : len = 0 := by omega
    subst h0
    exact ⟨true, acc, t, by simp [tdb_pread_all_loop], Steady.still t, rfl,
      fun _ => by simp [slice], fun _ _ _ => rfl⟩
  | succ fuel ih =>
    intro t acc len off h
    unfold tdb_pread_all_loop
    by_cases h0 : len = 0
    · subst h0
      exact ⟨true, acc, t, by simp, Steady.still t, rfl, fun _ => by simp [slice],
        fun _ _ _ => rfl⟩
    · simp only [h0, if_false]
      obtain ⟨hs, hstore, hc⟩ := pread_spec t len off
      rcases hc with ⟨hneg, hwhy⟩ | ⟨n, hn, hle, hmax, hdata, hlen, hprog⟩
      · refine ⟨false, acc, (pread t len off).2.2, by simp [hneg], hs, hstore,
          (fun hh => by cases hh), ?_⟩
        intro hp h1 h2
        have := hp t.clock
        omega
      · by_cases hz : n = 0
        · subst hz
          refine ⟨false, acc, { (pread t len off).2.2 with errno := EWOULDBLOCK },
            by simp [hn], hs.chain (steady_errno _ _), hstore, (fun hh => by cases hh), ?_⟩
          intro hp h1 h2
          have := hprog (hp _) (by omega) (by omega) (by omega)
          omega
        · have h1 : ¬ ((pread t len off).1 < 0) := by rw [hn]; omega
          have h2 : ¬ ((pread t len off).1 = 0) := by rw [hn]; omega
          have hto : (pread t len off).1.toNat = n := by rw [hn]; simp
          have hmod : (off + n) % U64 = off + n :=
            Nat.mod_eq_of_lt (by have := OFF_MAX_lt_U64; omega)
          simp only [h1, h2, if_false, hto, hmod]
          obtain ⟨ok, data, t', he, hs', hst', hok, hco⟩ :=
            ih (pread t len off).2.2 (acc ++ (pread t len off).2.1) (len - n) (off + n)
              (by omega)
          refine ⟨ok, data, t', he, hs.chain hs', hst'.trans hstore, ?_, ?_⟩
          · intro hh
            obtain ⟨hd, hl⟩ := hok hh
            rw [hstore] at hd hl
            have hsplit : len = n + (len - n) := by omega
            have happ := slice_append t.store off n (len - n)
            rw [← hsplit] at happ
            refine ⟨?_, ?_⟩
            · rw [hd, hdata, List.append_assoc, happ]
            · rw [← happ, List.length_append, hlen, hl]; omega
          · intro hp h3 h4
            apply hco
            · intro k; rw [hs.sys]; exact hp k
            · rw [hstore]; omega
            · omega

theorem tdb_pread_all_spec (t : tdb_context) (len off : Nat) :
    ∃ ok data t', tdb_pread_all t len off = some (ok, data, t')
      ∧ Steady t t' ∧ t'.store = t.store
      ∧ (ok = true → data = slice t.store off len ∧ data.length = len)
      ∧ ((∀ n, 0 < t.sys.pread n) → off + len ≤ t.store.length → off + len ≤ OFF_MAX →
          ok = true) := by
  obtain ⟨ok, data, t', he, hs, hst, hok, hco⟩ :=
    tdb_pread_all_loop_spec len t [] len off (le_refl _)
  refine ⟨ok, data, t', he, hs, hst, ?_, hco⟩
  intro hh
  obtain ⟨hd, hl⟩ := hok hh
  rw [List.nil_append] at hd
  exact ⟨hd, by rw [hd]; exact hl⟩

/-! ## The bounds tracker -/

theorem tdb_oob_eq_none (t : tdb_context) (len : Nat) (probe : Bool)
    (h : oob_assertion t = false) : tdb_oob t len probe = none := by
  simp [tdb_oob, h]

theorem tdb_oob_fits (t : tdb_context) (len : Nat) (probe : Bool)
    (ha : oob_assertion t = true) (h : len ≤ t.map_size) :
    tdb_oob t len probe = some (0, t) := by
  simp [tdb_oob, ha, h]

theorem tdb_oob_spec (t : tdb_context) (len : Nat) (probe : Bool) (r : Int) (t' : tdb_context)
    (h : tdb_oob t len probe = some (r, t')) :
    oob_assertion t = true ∧ Frame t t' ∧ t'.store = t.store
      ∧ t'.direct_access = t.direct_access
      ∧ (r = 0 ∨ r = -1)
      ∧ (r = 0 → len ≤ t'.map_size)
      ∧ (r = -1 → t'.map_size = t.map_size ∧ t'.map_ptr = t.map_ptr)
      ∧ (len ≤ t.map_size → t' = t)
      ∧ t.map_size ≤ t'.map_size := by
  unfold tdb_oob at h
  split at h
  · cases h
  · rename_i ha
    simp only [Bool.not_eq_true, Bool.not_eq_false] at ha
    refine ⟨by simpa using ha, ?_⟩
    split at h
    · simp only [Option.some.injEq, Prod.mk.injEq] at h
      obtain ⟨rfl, rfl⟩ := h
      exact ⟨Frame.same _, rfl, rfl, Or.inl rfl, fun _ => by assumption, by simp, fun _ => rfl,
        le_refl _⟩
    · rename_i hlen
      split at h
      · split at h <;>
        · simp only [Option.some.injEq, Prod.mk.injEq] at h
          obtain ⟨rfl, rfl⟩ := h
          refine ⟨⟨?_, ?_, ?_, ?_, ?_, ?_, ?_⟩, ?_, ?_, ?_, ?_, ?_, ?_, ?_⟩ <;>
            first
              | rfl
              | (intro hh; exact absurd hh hlen)
              | simp
      · split at h
        · simp only [Option.some.injEq, Prod.mk.injEq] at h
          obtain ⟨rfl, rfl⟩ := h
          refine ⟨⟨?_, ?_, ?_, ?_, ?_, ?_, ?_⟩, ?_, ?_, ?_, ?_, ?_, ?_, ?_⟩ <;>
            first
              | rfl
              | (intro hh; exact absurd hh hlen)
              | simp
        · dsimp only at h
          split at h
          · simp only [Option.some.injEq, Prod.mk.injEq] at h
            obtain ⟨rfl, rfl⟩ := h
            refine ⟨⟨?_, ?_, ?_, ?_, ?_, ?_, ?_⟩, ?_, ?_, ?_, ?_, ?_, ?_, ?_⟩ <;>
              first
                | rfl
                | (intro hh; exact absurd hh hlen)
                | simp
          · split at h
            · split at h <;>
              · simp only [Option.some.injEq, Prod.mk.injEq] at h
                obtain ⟨rfl, rfl⟩ := h
                refine ⟨⟨?_, ?_, ?_, ?_, ?_, ?_, ?_⟩, ?_, ?_, ?_, ?_, ?_, ?_, ?_⟩ <;>
                  first
                    | rfl
                    | (intro hh; exact absurd hh hlen)
                    | simp
            · rename_i hst
              simp only [emit_store, tick_store, not_lt] at hst
              simp only [Option.some.injEq, Prod.mk.injEq] at h
              obtain ⟨rfl, rfl⟩ := h
              refine ⟨⟨?_, ?_, ?_, ?_, ?_, ?_, ?_⟩, ?_, ?_, ?_, ?_, ?_, ?_, ?_⟩ <;>
                first
                  | (intro hh; exact absurd hh hlen)
                  | (simp; omega)
                  | simp

theorem tdb_munmap_count_fstat (t : tdb_context) :
    (tdb_munmap t).trace.count Event.fstat = t.trace.count Event.fstat := by
  unfold tdb_munmap; split
  · rfl
  · split
    · simp [emit, List.count_append]
    · rfl

theorem tdb_mmap_count_fstat (t : tdb_context) :
    (tdb_mmap t).trace.count Event.fstat = t.trace.count Event.fstat := by
  unfold tdb_mmap; split
  · rfl
  · split
    · rfl
    · dsimp only; split <;> simp [emit, tick, List.count_append]

theorem tdb_oob_resync (tdb : tdb_context) (len : Nat) (probe : Bool)
    (hassert : oob_assertion tdb = true)
    (hfile : tdb.TDB_INTERNAL = false)
    (hlt : tdb.map_size < len) (hle : len ≤ tdb.store.length)
    (hlock : tdb.sys.lock_expand tdb.clock = LockAnswer.acquired)
    (hfstat : tdb.sys.fstat (tdb.clock + 1) = true) :
    tdb_oob tdb len probe = some (0, tdb_mmap
      { tdb_munmap (emit (tick (tick tdb Event.lock_expand) Event.fstat) Event.unlock_expand)
        with map_size := tdb.store.length }) := by
  have hnle : ¬ len ≤ tdb.map_size := by omega
  have hnlt : ¬ tdb.store.length < len := by omega
  unfold tdb_oob
  simp only [hassert, hfile, hnle, hlock, Bool.not_true, Bool.false_eq_true, if_false,
    tick_sys, tick_clock, hfstat, emit_store, tick_store, hnlt]

/-- C3. On a file-backed handle called as the assert of `tdb_oob` requires,
with `map_size < len ≤` true size, the expansion lock acquired and the size
query answering, `tdb_oob` returns `0`, has made exactly one more size query,
leaves the store alone and sets `map_size` to the true size, so that
`len ≤ map_size` on return. -/
theorem C3_resync_success (tdb : tdb_context) (len : Nat) (probe : Bool)
    (hassert : oob_assertion tdb = true)
    (hfile : tdb.TDB_INTERNAL = false)
    (hlt : tdb.map_size < len) (hle : len ≤ tdb.store.length)
    (hlock : tdb.sys.lock_expand tdb.clock = LockAnswer.acquired)
    (hfstat : tdb.sys.fstat (tdb.clock + 1) = true) :
    ∃ tdb', tdb_oob tdb len probe = some (0, tdb')
      ∧ tdb'.trace.count Event.fstat = tdb.trace.count Event.fstat + 1
      ∧ tdb'.map_size = tdb.store.length
      ∧ tdb'.store = tdb.store
      ∧ len ≤ tdb'.map_size := by
  refine ⟨_, tdb_oob_resync tdb len probe hassert hfile hlt hle hlock hfstat, ?_, ?_, ?_, ?_⟩
  · rw [tdb_mmap_count_fstat]
    show (tdb_munmap _).trace.count Event.fstat = _
    rw [tdb_munmap_count_fstat]
    simp [List.count_append]
  · rw [tdb_mmap_map_size]
  · rw [tdb_mmap_store]
    show (tdb_munmap _).store = _
    simp
  · rw [tdb_mmap_map_size]
    exact hle

/-- C3, at a sample: the cached size is 8, the store has 16 bytes, 12 are asked
for. -/
theorem C3_resync_success_witness :
    ∃ tdb', tdb_oob sample_stale 12 false = some (0, tdb')
      ∧ tdb'.trace.count Event.fstat = sample_stale.trace.count Event.fstat + 1
      ∧ tdb'.map_size = sample_stale.store.length
      ∧ tdb'.store = sample_stale.store
      ∧ 12 ≤ tdb'.map_size :=
  C3_resync_success sample_stale 12 false (by decide) (by decide) (by decide) (by decide)
    (by decide) (by decide)

/-- C4, refuted as stated: on `sample_refused` (file-backed, cached size 8, true
size 16) a request for 100 bytes without probe returns `-1`, but the locking
collaborator refused the expansion lock, so `tdb_oob` returned before setting
`ecode`, which is not `TDB_ERR_IO`. -/
theorem C4_resync_failure_counterexample :
    sample_refused.TDB_INTERNAL = false
    ∧ sample_refused.map_size < 100 ∧ sample_refused.store.length < 100
    ∧ ∃ tdb', tdb_oob sample_refused 100 false = some (-1, tdb')
        ∧ tdb'.ecode ≠ TDB_ERR_IO :=
  ⟨by decide, by decide, by decide, _, rfl, by decide⟩

/-- C4, amended. On a file-backed handle called as the assert of `tdb_oob`
requires, with `len` above both the cached and the true size and no probe,
`tdb_oob` returns `-1` and leaves `map_size`, `map_ptr` and the store as they
were; `ecode` is `TDB_ERR_IO` when the expansion lock was acquired, and what the
locking collaborator left when it refused the lock. -/
theorem C4_resync_failure (tdb : tdb_context) (len : Nat)
    (hassert : oob_assertion tdb = true)
    (hfile : tdb.TDB_INTERNAL = false)
    (hlt : tdb.map_size < len) (htrue : tdb.store.length < len) :
    ∃ tdb', tdb_oob tdb len false = some (-1, tdb')
      ∧ tdb'.map_size = tdb.map_size ∧ tdb'.map_ptr = tdb.map_ptr
      ∧ tdb'.store = tdb.store
      ∧ (tdb.sys.lock_expand tdb.clock = LockAnswer.acquired → tdb'.ecode = TDB_ERR_IO)
      ∧ (∀ e, tdb.sys.lock_expand tdb.clock = LockAnswer.refused e → tdb'.ecode = e) := by
  have hnle : ¬ len ≤ tdb.map_size := by omega
  unfold tdb_oob
  simp only [hassert, hfile, hnle, Bool.not_true, Bool.false_eq_true, if_false]
  cases hl : tdb.sys.lock_expand tdb.clock with
  | refused e =>
    refine ⟨_, rfl, rfl, rfl, rfl, ?_, ?_⟩
    · intro h; cases h
    · intro e' h; cases h; rfl
  | acquired =>
    dsimp only
    by_cases hf : (tick tdb Event.lock_expand).sys.fstat (tick tdb Event.lock_expand).clock = true
    · simp only [hf, Bool.not_true, Bool.false_eq_true, if_false, emit_store, tick_store,
        htrue, if_true]
      refine ⟨_, rfl, rfl, rfl, rfl, ?_, ?_⟩
      · intro _; rfl
      · intro e' h; cases h
    · simp only [hf, Bool.not_false, if_true]
      refine ⟨_, rfl, rfl, rfl, rfl, ?_, ?_⟩
      · intro _; rfl
      · intro e' h; cases h

/-- C4 amended, at a sample: 100 bytes asked of a store of 16. -/
theorem C4_resync_failure_witness :
    ∃ tdb', tdb_oob sample_stale 100 false = some (-1, tdb')
      ∧ tdb'.map_size = sample_stale.map_size ∧ tdb'.map_ptr = sample_stale.map_ptr
      ∧ tdb'.store = sample_stale.store
      ∧ (sample_stale.sys.lock_expand sample_stale.clock = LockAnswer.acquired →
          tdb'.ecode = TDB_ERR_IO)
      ∧ (∀ e, sample_stale.sys.lock_expand sample_stale.clock = LockAnswer.refused e →
          tdb'.ecode = e) :=
  C4_resync_failure sample_stale 100 (by decide) (by decide) (by decide) (by decide)

/-! ## The read and write methods -/

theorem tdb_read_spec (t : tdb_context) (off len : Nat) (r : Int) (data : List Byte)
    (t' : tdb_context) (h : tdb_read t off len = some (r, data, t')) :
    oob_assertion t = true ∧ Frame t t' ∧ t'.store = t.store
      ∧ t'.direct_access = t.direct_access ∧ t.map_size ≤ t'.map_size
      ∧ (r = 0 ∨ r = -1)
      ∧ (r = 0 → (off + len) % U64 ≤ t'.map_size ∧ data = slice t.store off len
          ∧ data.length = len) := by
  unfold tdb_read at h
  cases ho : tdb_oob t ((off + len) % U64) false with
  | none => simp [ho] at h
  | some p =>
    obtain ⟨r1, t1⟩ := p
    obtain ⟨ha, hf, hst, hda, hr1, hfit, _, _, hmono⟩ := tdb_oob_spec _ _ _ _ _ ho
    simp only [ho] at h
    split at h
    · simp only [Option.some.injEq, Prod.mk.injEq] at h
      obtain ⟨rfl, rfl, rfl⟩ := h
      exact ⟨ha, hf, hst, hda, hmono, Or.inr rfl, fun hh => by cases hh⟩
    · rename_i hr0
      have hr0' : r1 = 0 := by simpa using hr0
      split at h
      · split at h
        · rename_i hm
          simp only [Option.some.injEq, Prod.mk.injEq] at h
          obtain ⟨rfl, rfl, rfl⟩ := h
          refine ⟨ha, hf, hst, hda, hmono, Or.inl rfl, fun _ => ⟨hfit hr0', by rw [hst], ?_⟩⟩
          simp only [mapped, decide_eq_true_eq, Bool.decide_or, Bool.decide_and,
            Bool.or_eq_true, Bool.and_eq_true] at hm
          rcases hm with hz | ⟨_, hl⟩
          · subst hz; simp [slice]
          · exact slice_length _ _ _ hl
        · cases h
      · obtain ⟨ok, d, t2, he, hs2, hst2, hok, _⟩ := tdb_pread_all_spec t1 len off
        simp only [he] at h
        cases ok with
        | false =>
          simp only [Bool.not_false, if_true, Option.some.injEq, Prod.mk.injEq] at h
          obtain ⟨rfl, rfl, rfl⟩ := h
          refine ⟨ha, ?_, ?_, ?_, ?_, Or.inr rfl, fun hh => by cases hh⟩
          · exact hf.trans (hs2.toFrame.trans
              ((steady_ecode _ _).chain (steady_emit _ _)).toFrame)
          · show t2.store = _
            rw [hst2, hst]
          · show t2.direct_access = _
            rw [hs2.direct_access, hda]
          · show _ ≤ t2.map_size
            rw [hs2.map_size]; exact hmono
        | true =>
          simp only [Bool.not_true, Bool.false_eq_true, if_false, Option.some.injEq,
            Prod.mk.injEq] at h
          obtain ⟨rfl, rfl, rfl⟩ := h
          obtain ⟨hd, hl⟩ := hok rfl
          refine ⟨ha, hf.trans hs2.toFrame, hst2.trans hst, hs2.direct_access.trans hda,
            by rw [hs2.map_size]; exact hmono, Or.inl rfl, fun _ => ⟨?_, ?_, hl⟩⟩
          · rw [hs2.map_size]; exact hfit hr0'
          · rw [hd, hst]

theorem tdb_read_fits (t : tdb_context) (off len : Nat)
    (ha : oob_assertion t = true) (hno : off + len < U64)
    (hfit : off + len ≤ t.map_size) (hin : off + len ≤ t.store.length) :
    ∃ r data t', tdb_read t off len = some (r, data, t') ∧ Steady t t'
      ∧ t'.store = t.store
      ∧ ((∀ n, 0 < t.sys.pread n) → off + len ≤ OFF_MAX → r = 0) := by
  unfold tdb_read
  rw [Nat.mod_eq_of_lt hno, tdb_oob_fits t _ _ ha hfit]
  dsimp only
  simp only [ne_eq, not_true_eq_false, if_false]
  by_cases hp : t.map_ptr = 0
  · simp only [hp, not_true_eq_false, if_false]
    obtain ⟨ok, d, t2, he, hs2, hst2, _, hco⟩ := tdb_pread_all_spec t len off
    simp only [he]
    cases ok with
    | false =>
      refine ⟨-1, d, emit { t2 with ecode := TDB_ERR_IO } (Event.log TDB_DEBUG_FATAL),
        by simp, hs2.chain ((steady_ecode _ _).chain (steady_emit _ _)), hst2, ?_⟩
      intro hpr hmax
      have := hco hpr hin hmax
      cases this
    | true =>
      exact ⟨0, d, t2, by simp, hs2, hst2, fun _ _ => rfl⟩
  · have hm : mapped t off len = true := by
      simp only [mapped, decide_eq_true_eq, Bool.decide_or, Bool.decide_and,
        Bool.or_eq_true, Bool.and_eq_true]
      exact Or.inr ⟨hfit, hin⟩
    simp only [hp, not_false_eq_true, if_true, hm]
    exact ⟨0, _, t, rfl, Steady.still t, rfl, fun _ _ => rfl⟩

theorem tdb_write_spec (t : tdb_context) (off : Nat) (buf : List Byte) (len : Nat) (r : Int)
    (t' : tdb_context) (hb : len ≤ buf.length)
    (h : tdb_write t off buf len = some (r, t')) :
    Frame t t' ∧ t'.direct_access = t.direct_access ∧ t.map_size ≤ t'.map_size
      ∧ (len = 0 → t' = t)
      ∧ (r = 0 → 0 < len → (off + len) % U64 ≤ t'.map_size
          ∧ t'.store = write_at t.store off (buf.take len)) := by
  unfold tdb_write at h
  by_cases h0 : len = 0
  · simp only [h0, if_true, Option.some.injEq, Prod.mk.injEq] at h
    obtain ⟨rfl, rfl⟩ := h
    exact ⟨Frame.same _, rfl, le_refl _, fun _ => rfl, fun _ hp => by omega⟩
  · simp only [h0, if_false] at h
    refine ⟨?_, ?_, ?_, fun hz => absurd hz h0, ?_⟩ <;>
    · split at h
      · simp only [Option.some.injEq, Prod.mk.injEq] at h
        obtain ⟨rfl, rfl⟩ := h
        first
          | exact (steady_ecode _ _).toFrame
          | rfl
          | exact le_refl _
          | (intro hh; cases hh)
      · cases ho : tdb_oob t ((off + len) % U64) false with
        | none => simp [ho] at h
        | some p =>
          obtain ⟨r1, t1⟩ := p
          obtain ⟨ha, hf, hst, hda, hr1, hfit, _, _, hmono⟩ := tdb_oob_spec _ _ _ _ _ ho
          simp only [ho] at h
          split at h
          · simp only [Option.some.injEq, Prod.mk.injEq] at h
            obtain ⟨rfl, rfl⟩ := h
            first
              | exact hf
              | exact hda
              | exact hmono
              | (intro hh; cases hh)
          · rename_i hr0
            have hr0' : r1 = 0 := by simpa using hr0
            split at h
            · split at h
              · simp only [Option.some.injEq, Prod.mk.injEq] at h
                obtain ⟨rfl, rfl⟩ := h
                first
                  | exact hf.trans (steady_store _ _).toFrame
                  | exact hda
                  | exact hmono
                  | (intro _ _; exact ⟨hfit hr0', by rw [← hst]⟩)
              · cases h
            · obtain ⟨ok, t2, he, hs2⟩ := tdb_pwrite_all_total t1 buf len off
              simp only [he] at h
              cases ok with
              | false =>
                simp only [Bool.not_false, if_true, Option.some.injEq, Prod.mk.injEq] at h
                obtain ⟨rfl, rfl⟩ := h
                first
                  | exact hf.trans (hs2.toFrame.trans
                      ((steady_ecode _ _).chain (steady_emit _ _)).toFrame)
                  | (show t2.direct_access = _; rw [hs2.direct_access, hda])
                  | (show _ ≤ t2.map_size; rw [hs2.map_size]; exact hmono)
                  | (intro hh; cases hh)
              | true =>
                simp only [Bool.not_true, Bool.false_eq_true, if_false, Option.some.injEq,
                  Prod.mk.injEq] at h
                obtain ⟨rfl, rfl⟩ := h
                obtain ⟨_, hw⟩ := tdb_pwrite_all_store t1 buf len off t2 hb he
                first
                  | exact hf.trans hs2.toFrame
                  | exact hs2.direct_access.trans hda
                  | (rw [hs2.map_size]; exact hmono)
                  | (intro _ hp
                     refine ⟨by rw [hs2.map_size]; exact hfit hr0', ?_⟩
                     rw [(hw hp).2, hst])

theorem tdb_convert_length (t : tdb_context) (buf : List Byte) (size : Nat) :
    (tdb_convert t buf size).length = buf.length := by
  unfold tdb_convert
  split
  · exact convert_words_length _ _
  · rfl

theorem tdb_convert_congr (a b : tdb_context) (h : b.TDB_CONVERT = a.TDB_CONVERT)
    (buf : List Byte) (size : Nat) : tdb_convert b buf size = tdb_convert a buf size := by
  unfold tdb_convert
  rw [h]

theorem tdb_convert_twice (t : tdb_context) (buf : List Byte) (size : Nat) :
    tdb_convert t (tdb_convert t buf size) size = buf := by
  unfold tdb_convert
  by_cases hc : t.TDB_CONVERT = true
  · simp [hc, convert_words_twice]
  · simp [hc]

theorem tdb_convert_off (t : tdb_context) (h : t.TDB_CONVERT = false) (buf : List Byte)
    (size : Nat) : tdb_convert t buf size = buf := by
  simp [tdb_convert, h]

theorem oob_assertion_congr (a b : tdb_context) (hf : Frame a b)
    (hd : b.direct_access = a.direct_access) : oob_assertion b = oob_assertion a := by
  unfold oob_assertion
  rw [hd, hf.nolock, hf.expansion_lock]

theorem tdb_write_convert_spec (t : tdb_context) (off : Nat) (record : List Byte) (len : Nat)
    (r : Int) (t' : tdb_context) (hb : len ≤ record.length)
    (h : tdb_write_convert t off record len = some (r, t')) :
    Frame t t' ∧ t'.direct_access = t.direct_access ∧ t.map_size ≤ t'.map_size
      ∧ (len = 0 → t'.store = t.store)
      ∧ (r = 0 → 0 < len → (off + len) % U64 ≤ t'.map_size
          ∧ t'.store = write_at t.store off (tdb_convert t (record.take len) len)) := by
  unfold tdb_write_convert at h
  by_cases hc : t.TDB_CONVERT = true
  · simp only [hc, if_true] at h
    by_cases hm : (malloc t len).1 = 0
    · simp only [hm, if_true, Option.some.injEq, Prod.mk.injEq] at h
      obtain ⟨rfl, rfl⟩ := h
      exact ⟨((steady_tick _ _).chain ((steady_ecode _ _).chain (steady_emit _ _))).toFrame,
        rfl, le_refl _, fun _ => rfl, fun hh => by cases hh⟩
    · simp only [hm, if_false] at h
      cases hw : tdb_write (malloc t len).2 off
          (tdb_convert (malloc t len).2 (record.take len) len) len with
      | none => simp [hw] at h
      | some p =>
        obtain ⟨r1, t1⟩ := p
        simp only [hw, Option.some.injEq, Prod.mk.injEq] at h
        obtain ⟨rfl, rfl⟩ := h
        have hl : (tdb_convert (malloc t len).2 (record.take len) len).length = len := by
          rw [tdb_convert_length, List.length_take]; omega
        obtain ⟨hf, hda, hmono, hz, hpos⟩ := tdb_write_spec _ _ _ _ _ _ (by omega) hw
        have hs0 : Steady t (malloc t len).2 := steady_tick _ _
        refine ⟨hs0.toFrame.trans (hf.trans (steady_emit _ _).toFrame), ?_, ?_, ?_, ?_⟩
        · show t1.direct_access = _
          rw [hda]; rfl
        · exact hmono
        · intro h0
          show t1.store = _
          rw [hz h0]; rfl
        · intro hr hp
          obtain ⟨h1, h2⟩ := hpos hr hp
          refine ⟨h1, ?_⟩
          show t1.store = _
          rw [h2, List.take_of_length_le (by omega),
            tdb_convert_congr t (malloc t len).2 hs0.convert]
          rfl
  · have hc' : t.TDB_CONVERT = false := by simpa using hc
    simp only [hc', Bool.false_eq_true, if_false] at h
    obtain ⟨hf, hda, hmono, hz, hpos⟩ := tdb_write_spec _ _ _ _ _ _ hb h
    refine ⟨hf, hda, hmono, fun h0 => by rw [hz h0], ?_⟩
    intro hr hp
    rw [tdb_convert_off t hc']
    exact hpos hr hp

/-! ## Borrows -/

theorem tdb_direct_spec (t : tdb_context) (off len p : Nat) (t' : tdb_context)
    (h : tdb_direct t off len = some (p, t')) :
    Frame t t' ∧ t'.store = t.store ∧ t'.direct_access = t.direct_access
      ∧ t.map_size ≤ t'.map_size
      ∧ (t.map_ptr = 0 → t' = t ∧ p = 0)
      ∧ (t.map_ptr ≠ 0 → oob_assertion t = true)
      ∧ (p ≠ 0 → (off + len) % U64 ≤ t'.map_size ∧ p = ptr_add t'.map_ptr off) := by
  unfold tdb_direct at h
  by_cases hp : t.map_ptr = 0
  · simp only [hp, if_true, Option.some.injEq, Prod.mk.injEq] at h
    obtain ⟨rfl, rfl⟩ := h
    exact ⟨Frame.same _, rfl, rfl, le_refl _, fun _ => ⟨rfl, rfl⟩, fun hh => absurd hp hh,
      fun hh => absurd rfl hh⟩
  · simp only [hp, if_false] at h
    cases ho : tdb_oob t ((off + len) % U64) true with
    | none => simp [ho] at h
    | some q =>
      obtain ⟨r1, t1⟩ := q
      obtain ⟨ha, hf, hst, hda, hr1, hfit, _, _, hmono⟩ := tdb_oob_spec _ _ _ _ _ ho
      simp only [ho] at h
      split at h
      · simp only [Option.some.injEq, Prod.mk.injEq] at h
        obtain ⟨rfl, rfl⟩ := h
        exact ⟨hf, hst, hda, hmono, fun hh => absurd hh hp, fun _ => ha,
          fun hh => absurd rfl hh⟩
      · rename_i hr
        simp only [Option.some.injEq, Prod.mk.injEq] at h
        obtain ⟨rfl, rfl⟩ := h
        have hr0 : r1 = 0 := by
          rcases hr1 with h0 | h1
          · exact h0
          · exact absurd h1 hr
        exact ⟨hf, hst, hda, hmono, fun hh => absurd hh hp, fun _ => ha,
          fun _ => ⟨hfit hr0, rfl⟩⟩

theorem tdb_alloc_read_spec (t : tdb_context) (off len pfx hdr : Nat) (data : List Byte)
    (t' : tdb_context) (h : _tdb_alloc_read t off len pfx = some (hdr, data, t')) :
    Frame t t' ∧ t'.store = t.store ∧ t'.direct_access = t.direct_access
      ∧ t.map_size ≤ t'.map_size
      ∧ (hdr ≠ 0 → oob_assertion t = true ∧ (off + len) % U64 ≤ t'.map_size
          ∧ data = slice t.store off len ∧ data.length = len) := by
  unfold _tdb_alloc_read at h
  dsimp only at h
  generalize (if (pfx + len) % U64 ≠ 0 then (pfx + len) % U64 else 1) = sz at h
  split at h
  · simp only [Option.some.injEq, Prod.mk.injEq] at h
    obtain ⟨rfl, rfl, rfl⟩ := h
    exact ⟨((steady_tick _ _).chain ((steady_ecode _ _).chain (steady_emit _ _))).toFrame,
      rfl, rfl, le_refl _, fun hh => absurd rfl hh⟩
  · rename_i hm
    cases hr : tdb_read (malloc t sz).2 off len with
    | none => simp [hr] at h
    | some q =>
      obtain ⟨r1, d1, t1⟩ := q
      have hs0 : Steady t (malloc t sz).2 := steady_tick _ _
      obtain ⟨ha, hf, hst, hda, hmono, hr1, hok⟩ := tdb_read_spec _ _ _ _ _ _ hr
      have ha' : oob_assertion t = true := by
        rw [← oob_assertion_congr t (malloc t sz).2 hs0.toFrame hs0.direct_access]
        exact ha
      simp only [hr] at h
      split at h
      · simp only [Option.some.injEq, Prod.mk.injEq] at h
        obtain ⟨rfl, rfl, rfl⟩ := h
        exact ⟨hs0.toFrame.trans (hf.trans (steady_emit _ _).toFrame), hst, hda, hmono,
          fun hh => absurd rfl hh⟩
      · rename_i hr0
        have hr0' : r1 = 0 := by simpa using hr0
        split at h
        · cases h
        · simp only [Option.some.injEq, Prod.mk.injEq] at h
          obtain ⟨rfl, rfl, rfl⟩ := h
          obtain ⟨h1, h2, h3⟩ := hok hr0'
          exact ⟨hs0.toFrame.trans hf, hst, hda, hmono, fun _ => ⟨ha', h1, h2, h3⟩⟩

theorem try_direct_spec (t : tdb_context) (off len ret : Nat) (t0 : tdb_context)
    (h : (if !t.TDB_CONVERT then tdb_direct t off len else some (0, t)) = some (ret, t0)) :
    Frame t t0 ∧ t0.store = t.store ∧ t0.direct_access = t.direct_access
      ∧ t.map_size ≤ t0.map_size
      ∧ (ret ≠ 0 → t.TDB_CONVERT = false ∧ oob_assertion t = true
          ∧ (off + len) % U64 ≤ t0.map_size ∧ ret = ptr_add t0.map_ptr off) := by
  by_cases hc : t.TDB_CONVERT = true
  · simp only [hc, Bool.not_true, Bool.false_eq_true, if_false, Option.some.injEq,
      Prod.mk.injEq] at h
    obtain ⟨rfl, rfl⟩ := h
    exact ⟨Frame.same _, rfl, rfl, le_refl _, fun hh => absurd rfl hh⟩
  · have hc' : t.TDB_CONVERT = false := by simpa using hc
    simp only [hc', Bool.not_false, if_true] at h
    obtain ⟨hf, hst, hda, hmono, _, hnz, hp⟩ := tdb_direct_spec _ _ _ _ _ h
    refine ⟨hf, hst, hda, hmono, fun hr => ⟨hc', ?_, hp hr⟩⟩
    apply hnz
    intro hz
    obtain ⟨_, h0⟩ := (tdb_direct_spec _ _ _ _ _ h).2.2.2.2.1 hz
    exact hr h0

theorem tdb_access_write_spec (t : tdb_context) (off len : Nat) (convert : Bool) (v : View)
    (t1 : tdb_context) (h : tdb_access_write t off len convert = some (some v, t1)) :
    oob_assertion t = true ∧ Frame t t1 ∧ t1.store = t.store
      ∧ (off + len) % U64 ≤ t1.map_size ∧ t.read_only = false
      ∧ ((∃ p, v = View.direct p off len ∧ p ≠ 0 ∧ p = ptr_add t1.map_ptr off
            ∧ t.TDB_CONVERT = false ∧ t1.direct_access = t.direct_access + 1)
        ∨ (∃ p data, v = View.shadow p (some ⟨off, len, convert⟩) data ∧ data.length = len
            ∧ data = (if convert then tdb_convert t (slice t.store off len) len
                else slice t.store off len)
            ∧ t1.direct_access = t.direct_access)) := by
  unfold tdb_access_write at h
  by_cases hro : t.read_only = true
  · simp [hro] at h
  · have hro' : t.read_only = false := by simpa using hro
    simp only [hro', Bool.false_eq_true, if_false] at h
    cases hd : (if !t.TDB_CONVERT then tdb_direct t off len else some (0, t)) with
    | none => rw [hd] at h; simp at h
    | some q =>
      obtain ⟨ret, t0⟩ := q
      obtain ⟨hf, hst, hda, hmono, hnz⟩ := try_direct_spec _ _ _ _ _ hd
      simp only [hd] at h
      by_cases hret : ret = 0
      · simp only [hret, if_true] at h
        cases hal : _tdb_alloc_read t0 off len HDR_SIZE with
        | none => simp [hal] at h
        | some q2 =>
          obtain ⟨hdr, data, t2⟩ := q2
          obtain ⟨hf2, hst2, hda2, hmono2, hok⟩ := tdb_alloc_read_spec _ _ _ _ _ _ _ hal
          simp only [hal] at h
          by_cases hh : hdr = 0
          · simp [hh] at h
          · simp only [hh, ne_eq, not_false_eq_true, if_true, Option.some.injEq,
              Prod.mk.injEq] at h
            obtain ⟨rfl, rfl⟩ := h
            obtain ⟨ha, hfit, hdat, hlen⟩ := hok hh
            have ha' : oob_assertion t = true := by
              rw [← oob_assertion_congr t t0 hf hda]; exact ha
            refine ⟨ha', hf.trans hf2, hst2.trans hst, hfit, hro', Or.inr ⟨_, _, rfl, ?_, ?_,
              hda2.trans hda⟩⟩
            · split
              · rw [tdb_convert_length]; exact hlen
              · exact hlen
            · rw [tdb_convert_congr t _ (hf.trans hf2).convert, hdat, hst]
      · simp only [hret, if_false, Option.some.injEq, Prod.mk.injEq] at h
        obtain ⟨rfl, rfl⟩ := h
        obtain ⟨hc, ha, hfit, hp⟩ := hnz hret
        exact ⟨ha, hf.trans ⟨rfl, rfl, rfl, rfl, rfl, rfl, rfl⟩, hst, hfit, hro',
          Or.inl ⟨ret, rfl, hret, hp, hc, by show t0.direct_access + 1 = _; rw [hda]⟩⟩

theorem tdb_access_read_spec (t : tdb_context) (off len : Nat) (convert : Bool) (v : View)
    (t1 : tdb_context) (h : tdb_access_read t off len convert = some (some v, t1)) :
    oob_assertion t = true ∧ Frame t t1 ∧ t1.store = t.store
      ∧ (off + len) % U64 ≤ t1.map_size
      ∧ ((∃ p, v = View.direct p off len ∧ p ≠ 0 ∧ p = ptr_add t1.map_ptr off
            ∧ t.TDB_CONVERT = false ∧ t1.direct_access = t.direct_access + 1)
        ∨ (∃ p data, v = View.shadow p none data ∧ data.length = len
            ∧ data = (if convert then tdb_convert t (slice t.store off len) len
                else slice t.store off len)
            ∧ t1.direct_access = t.direct_access)) := by
  unfold tdb_access_read at h
  cases hd : (if !t.TDB_CONVERT then tdb_direct t off len else some (0, t)) with
  | none => rw [hd] at h; simp at h
  | some q =>
    obtain ⟨ret, t0⟩ := q
    obtain ⟨hf, hst, hda, hmono, hnz⟩ := try_direct_spec _ _ _ _ _ hd
    simp only [hd] at h
    by_cases hret : ret = 0
    · simp only [hret, if_true] at h
      cases hal : _tdb_alloc_read t0 off len HDR_SIZE with
      | none => simp [hal] at h
      | some q2 =>
        obtain ⟨hdr, data, t2⟩ := q2
        obtain ⟨hf2, hst2, hda2, hmono2, hok⟩ := tdb_alloc_read_spec _ _ _ _ _ _ _ hal
        simp only [hal] at h
        by_cases hh : hdr = 0
        · simp [hh] at h
        · simp only [hh, ne_eq, not_false_eq_true, if_true, Option.some.injEq,
            Prod.mk.injEq] at h
          obtain ⟨rfl, rfl⟩ := h
          obtain ⟨ha, hfit, hdat, hlen⟩ := hok hh
          have ha' : oob_assertion t = true := by
            rw [← oob_assertion_congr t t0 hf hda]; exact ha
          refine ⟨ha', hf.trans hf2, hst2.trans hst, hfit, Or.inr ⟨_, _, rfl, ?_, ?_,
            hda2.trans hda⟩⟩
          · split
            · rw [tdb_convert_length]; exact hlen
            · exact hlen
          · rw [tdb_convert_congr t _ (hf.trans hf2).convert, hdat, hst]
    · simp only [hret, if_false, Option.some.injEq, Prod.mk.injEq] at h
      obtain ⟨rfl, rfl⟩ := h
      obtain ⟨hc, ha, hfit, hp⟩ := hnz hret
      exact ⟨ha, hf.trans ⟨rfl, rfl, rfl, rfl, rfl, rfl, rfl⟩, hst, hfit,
        Or.inl ⟨ret, rfl, hret, hp, hc, by show t0.direct_access + 1 = _; rw [hda]⟩⟩

theorem is_direct_eq_false_iff (t : tdb_context) (p : Nat) :
    is_direct t p = false ↔
      (t.map_ptr = 0 ∨ p < t.map_ptr ∨ p ≥ ptr_add t.map_ptr t.map_size) := by
  unfold is_direct
  by_cases h1 : t.map_ptr = 0
  · simp [h1]
  · by_cases h2 : p < t.map_ptr
    · have : ¬ t.map_ptr ≤ p := by omega
      simp [h1, h2, this]
    · have h2' : t.map_ptr ≤ p := by omega
      by_cases h3 : p < ptr_add t.map_ptr t.map_size
      · have : ¬ ptr_add t.map_ptr t.map_size ≤ p := by omega
        simp [h1, h2, h2', h3, this]
      · have : ptr_add t.map_ptr t.map_size ≤ p := by omega
        simp [h1, h2, h2', h3, this]

theorem tdb_access_commit_direct (t : tdb_context) (p off len : Nat) (r : Int)
    (t2 : tdb_context) (h : tdb_access_commit t (View.direct p off len) = some (r, t2)) :
    r = 0 ∧ t2 = { t with direct_access := t.direct_access - 1 } ∧ is_direct t p = true := by
  unfold tdb_access_commit at h
  split at h
  · cases h
  · rename_i hc
    simp only [Option.some.injEq, Prod.mk.injEq] at h
    refine ⟨h.1.symm, h.2.symm, ?_⟩
    cases hd : is_direct t p with
    | true => rfl
    | false => exact absurd ((is_direct_eq_false_iff t p).mp hd) hc

theorem view_store_direct (t : tdb_context) (p off len : Nat) (B : List Byte)
    (t' : tdb_context) (v' : View) (h : view_store t (View.direct p off len) B = some (t', v')) :
    v' = View.direct p off len
      ∧ t' = { t with store := if len = 0 then t.store else write_at t.store off B }
      ∧ t.map_ptr ≠ 0 ∧ p = ptr_add t.map_ptr off ∧ B.length = len
      ∧ mapped t off len = true := by
  unfold view_store at h
  dsimp only at h
  split at h
  · rename_i hc
    simp only [Option.some.injEq, Prod.mk.injEq] at h
    exact ⟨h.2.symm, h.1.symm, hc.1, hc.2.1, hc.2.2.1, hc.2.2.2⟩
  · cases h

theorem view_store_shadow (t : tdb_context) (p : Nat) (hdr : Option tdb_access_hdr)
    (buf B : List Byte) (t' : tdb_context) (v' : View)
    (h : view_store t (View.shadow p hdr buf) B = some (t', v')) :
    v' = View.shadow p hdr B ∧ t' = t ∧ B.length = buf.length := by
  unfold view_store at h
  dsimp only at h
  split at h
  · rename_i hc
    simp only [Option.some.injEq, Prod.mk.injEq] at h
    exact ⟨h.2.symm, h.1.symm, hc⟩
  · cases h

theorem tdb_access_commit_shadow (t : tdb_context) (p off len : Nat) (convert : Bool)
    (B : List Byte) (r : Int) (t2 : tdb_context) (hB : B.length = len)
    (hheap : is_direct t p = false)
    (h : tdb_access_commit t (View.shadow p (some ⟨off, len, convert⟩) B) = some (r, t2)) :
    Frame t t2 ∧ t2.direct_access = t.direct_access ∧ t.map_size ≤ t2.map_size
      ∧ (len = 0 → t2.store = t.store)
      ∧ (r = 0 → 0 < len → (off + len) % U64 ≤ t2.map_size
          ∧ t2.store = write_at t.store off (if convert then tdb_convert t B len else B)) := by
  unfold tdb_access_commit at h
  have hcond := (is_direct_eq_false_iff t p).mp hheap
  simp only [View.ptr, hcond, if_true] at h
  have htake : B.take len = B := List.take_of_length_le (by omega)
  by_cases hcv : convert = true
  · subst hcv
    simp only [if_true] at h
    cases hw : tdb_write_convert t off B len with
    | none => rw [hw] at h; simp at h
    | some q =>
      obtain ⟨r1, t1⟩ := q
      rw [hw] at h
      simp only [Option.some.injEq, Prod.mk.injEq] at h
      obtain ⟨rfl, rfl⟩ := h
      obtain ⟨hf, hda, hmono, hz, hpos⟩ := tdb_write_convert_spec _ _ _ _ _ _ (by omega) hw
      rw [htake] at hpos
      exact ⟨hf.trans (steady_emit _ _).toFrame, hda, hmono, hz, hpos⟩
  · have hcv' : convert = false := by simpa using hcv
    subst hcv'
    simp only [Bool.false_eq_true, if_false] at h
    cases hw : tdb_write t off B len with
    | none => rw [hw] at h; simp at h
    | some q =>
      obtain ⟨r1, t1⟩ := q
      rw [hw] at h
      simp only [Option.some.injEq, Prod.mk.injEq] at h
      obtain ⟨rfl, rfl⟩ := h
      obtain ⟨hf, hda, hmono, hz, hpos⟩ := tdb_write_spec _ _ _ _ _ _ (by omega) hw
      rw [htake] at hpos
      exact ⟨hf.trans (steady_emit _ _).toFrame, hda, hmono,
        fun h0 => by show t1.store = _; rw [hz h0], hpos⟩

theorem borrow_store_commit (t : tdb_context) (off len : Nat) (convert : Bool)
    (B : List Byte) (v : View) (t1 t1' : tdb_context) (v' : View) (t2 : tdb_context)
    (hno : off + len < U64) (hin : off + len ≤ t.store.length) (hB : B.length = len)
    (hw : tdb_access_write t off len convert = some (some v, t1))
    (hheap : v.made_direct = false → is_direct t1 v.ptr = false)
    (hs : view_store t1 v B = some (t1', v'))
    (hc : tdb_access_commit t1' v' = some (0, t2)) :
    Frame t t2 ∧ oob_assertion t2 = true ∧ off + len ≤ t2.map_size
      ∧ t2.store.length = t.store.length ∧ t2.direct_access = t.direct_access
      ∧ slice t2.store off len = (if convert then tdb_convert t B len else B) := by
  obtain ⟨ha, hf, hst, hfit, hro, hv⟩ := tdb_access_write_spec _ _ _ _ _ _ hw
  rw [Nat.mod_eq_of_lt hno] at hfit
  rcases hv with ⟨p, rfl, hp0, hp, hcv, hda⟩ | ⟨p, data, rfl, hdl, hdata, hda⟩
  · -- a pointer into the mapping
    obtain ⟨rfl, rfl, hmp, _, _, _⟩ := view_store_direct _ _ _ _ _ _ _ hs
    obtain ⟨_, rfl, _⟩ := tdb_access_commit_direct _ _ _ _ _ _ hc
    have hda2 : t1.direct_access - 1 = t.direct_access := by rw [hda]; omega
    have hfr : Frame t t1 := hf
    refine ⟨⟨hfr.internal, hfr.nommap, hfr.convert, hfr.nolock, hfr.read_only,
      hfr.expansion_lock, hfr.sys⟩, ?_, hfit, ?_, hda2, ?_⟩
    · unfold oob_assertion at ha ⊢
      show (decide (t1.direct_access - 1 = 0) || t1.TDB_NOLOCK || t1.expansion_lock) = true
      rw [hda2, hfr.nolock, hfr.expansion_lock]
      exact ha
    · show (if len = 0 then t1.store else write_at t1.store off B).length = _
      split
      · rw [hst]
      · rw [write_at_length_of_le _ _ _ (by rw [hst, hB]; exact hin), hst]
    · show slice (if len = 0 then t1.store else write_at t1.store off B) off len = _
      have hid : (if convert = true then tdb_convert t B len else B) = B := by
        split
        · exact tdb_convert_off t hcv _ _
        · rfl
      rw [hid]
      by_cases h0 : len = 0
      · subst h0
        have : B = [] := List.length_eq_zero.mp hB
        simp [slice, this]
      · rw [if_neg h0, ← hB]
        exact slice_write_at _ _ _
  · -- a heap block
    obtain ⟨rfl, rfl, _⟩ := view_store_shadow _ _ _ _ _ _ _ hs
    obtain ⟨hf2, hda2, hmono, hz, hpos⟩ :=
      tdb_access_commit_shadow t1' p off len convert B 0 t2 hB (hheap rfl) hc
    have hfr : Frame t t2 := hf.trans hf2
    have hdat : t2.direct_access = t.direct_access := hda2.trans hda
    have hconv : (if convert = true then tdb_convert t1' B len else B)
        = (if convert = true then tdb_convert t B len else B) := by
      rw [tdb_convert_congr t t1' hf.convert]
    have hwl : (if convert = true then tdb_convert t B len else B).length = len := by
      split
      · rw [tdb_convert_length]; exact hB
      · exact hB
    refine ⟨hfr, ?_, le_trans hfit hmono, ?_, hdat, ?_⟩
    · rw [oob_assertion_congr t _ hfr hdat]; exact ha
    · by_cases h0 : len = 0
      · rw [hz h0, hst]
      · rw [(hpos rfl (by omega)).2, hconv,
          write_at_length_of_le _ _ _ (by rw [hst, hwl]; exact hin), hst]
    · by_cases h0 : len = 0
      · subst h0
        have : (if convert = true then tdb_convert t B 0 else B) = [] :=
          List.length_eq_zero.mp hwl
        rw [this]
        simp [slice]
      · rw [(hpos rfl (by omega)).2, hconv]
        have := slice_write_at t1'.store off
          (if convert = true then tdb_convert t B len else B)
        rw [hwl] at this
        exact this

theorem tdb_direct_fits (t : tdb_context) (off len : Nat) (ha : oob_assertion t = true)
    (hfit : (off + len) % U64 ≤ t.map_size) :
    tdb_direct t off len = some (if t.map_ptr = 0 then 0 else ptr_add t.map_ptr off, t) := by
  unfold tdb_direct
  by_cases hp : t.map_ptr = 0
  · simp [hp]
  · rw [tdb_oob_fits t _ _ ha hfit]
    simp [hp]

theorem tdb_alloc_read_fits (t : tdb_context) (off len pfx : Nat)
    (ha : oob_assertion t = true) (hpfx : pfx + len < U64) (hno : off + len < U64)
    (hfit : off + len ≤ t.map_size) (hin : off + len ≤ t.store.length) :
    ∃ hdr data t', _tdb_alloc_read t off len pfx = some (hdr, data, t')
      ∧ (t.sys.malloc t.clock ≠ 0 → (∀ n, 0 < t.sys.pread n) → off + len ≤ OFF_MAX →
          hdr ≠ 0) := by
  unfold _tdb_alloc_read
  dsimp only
  generalize (if (pfx + len) % U64 ≠ 0 then (pfx + len) % U64 else 1) = sz
  by_cases hm : (malloc t sz).1 = 0
  · refine ⟨0, [], _, by rw [if_pos hm], ?_⟩
    intro h1
    exact absurd hm h1
  · have hs0 : Steady t (malloc t sz).2 := steady_tick _ _
    have ha' : oob_assertion (malloc t sz).2 = true := by
      rw [oob_assertion_congr t _ hs0.toFrame hs0.direct_access]; exact ha
    obtain ⟨r, data, t', hr, _, _, hco⟩ := tdb_read_fits (malloc t sz).2 off len ha' hno
      (by rw [hs0.map_size]; exact hfit) (by show off + len ≤ t.store.length; exact hin)
    have hnot : ¬ U64 ≤ pfx + len := by omega
    rw [if_neg hm, hr]
    dsimp only
    by_cases hr0 : r = 0
    · refine ⟨_, _, _, by rw [if_neg (not_not.mpr hr0), if_neg hnot], ?_⟩
      intro _ _ _
      exact hm
    · refine ⟨0, [], _, by rw [if_pos hr0], ?_⟩
      intro _ hp hmax
      exact absurd (hco (fun n => by rw [hs0.sys]; exact hp n) hmax) hr0

theorem tdb_access_read_in_bounds (t : tdb_context) (off len : Nat) (convert : Bool)
    (ha : oob_assertion t = true) (hmax : off + len ≤ OFF_MAX)
    (hfit : off + len ≤ t.map_size) (hin : off + len ≤ t.store.length) :
    ∃ r t3, tdb_access_read t off len convert = some (r, t3)
      ∧ (∀ v, r = some v → view_load t3 v = some
          (if convert then tdb_convert t (slice t.store off len) len
           else slice t.store off len))
      ∧ ((∀ n, t.sys.malloc n ≠ 0 ∧ 0 < t.sys.pread n) → r ≠ none) := by
  have hlt : OFF_MAX + 24 < U64 := by norm_num [OFF_MAX, U64]
  have hno : off + len < U64 := by omega
  have hfit' : (off + len) % U64 ≤ t.map_size := by rw [Nat.mod_eq_of_lt hno]; exact hfit
  have htry : ∃ ret, (if !t.TDB_CONVERT then tdb_direct t off len else some (0, t))
      = some (ret, t)
      ∧ (ret ≠ 0 → t.TDB_CONVERT = false ∧ t.map_ptr ≠ 0 ∧ ret = ptr_add t.map_ptr off) := by
    by_cases hc : t.TDB_CONVERT = true
    · exact ⟨0, by simp [hc], fun h => absurd rfl h⟩
    · have hc' : t.TDB_CONVERT = false := by simpa using hc
      rw [tdb_direct_fits t off len ha hfit']
      refine ⟨if t.map_ptr = 0 then 0 else ptr_add t.map_ptr off, by simp [hc'], ?_⟩
      intro h
      by_cases hp : t.map_ptr = 0
      · simp [hp] at h
      · exact ⟨hc', hp, by simp [hp]⟩
  obtain ⟨ret, htry, hret⟩ := htry
  unfold tdb_access_read
  rw [htry]
  dsimp only
  by_cases hr0 : ret = 0
  · simp only [hr0, if_true]
    obtain ⟨hdr, data, t', hal, hco⟩ := tdb_alloc_read_fits t off len HDR_SIZE ha
      (by show 24 + len < U64; omega) hno hfit hin
    obtain ⟨hf, _, _, _, hok⟩ := tdb_alloc_read_spec _ _ _ _ _ _ _ hal
    rw [hal]
    dsimp only
    by_cases hh : hdr = 0
    · refine ⟨none, t', by simp [hh], (fun v hv => by cases hv), ?_⟩
      intro hsys
      exact absurd hh (hco (hsys _).1 (fun n => (hsys n).2) hmax)
    · refine ⟨_, t', by simp only [hh, ne_eq, not_false_eq_true, if_true]; rfl, ?_,
        fun _ => by simp⟩
      intro v hv
      simp only [Option.some.injEq] at hv
      subst hv
      obtain ⟨_, _, hdat, _⟩ := hok hh
      simp only [view_load]
      rw [tdb_convert_congr t t' hf.convert, hdat]
  · obtain ⟨hc, hp, hptr⟩ := hret hr0
    refine ⟨_, _, by simp only [hr0, if_false]; rfl, ?_, fun _ => by simp⟩
    intro v hv
    simp only [Option.some.injEq] at hv
    subst hv
    have hm : mapped t off len = true := by
      simp only [mapped, decide_eq_true_eq, Bool.decide_or, Bool.decide_and,
        Bool.or_eq_true, Bool.and_eq_true]
      exact Or.inr ⟨hfit, hin⟩
    have hcond : t.map_ptr ≠ 0 ∧ ret = ptr_add t.map_ptr off ∧ mapped t off len = true :=
      ⟨hp, hptr, hm⟩
    show (if t.map_ptr ≠ 0 ∧ ret = ptr_add t.map_ptr off ∧ mapped t off len = true then
        some (slice t.store off len) else none) = _
    rw [if_pos hcond]
    congr 1
    split
    · exact (tdb_convert_off t hc _ _).symm
    · rfl

/-- C2, the code at the failing input: on a handle mapped over 16 bytes,
`tdb_direct` for the one byte at offset `2^64 - 1` passes the bound check with
the wrapped sum `0` and hands out a pointer that is not null, though the range
ends at `2^64`, far above `map_size = 16`; `tdb_read` of the same range passes
the same check and then copies from outside the mapping. -/
theorem C2_direct_bounds_wraparound :
    ∃ p tdb', tdb_direct sample_mapped (2 ^ 64 - 1) 1 = some (p, tdb')
      ∧ p ≠ 0
      ∧ tdb'.map_size = 16
      ∧ ¬ ((2 ^ 64 - 1) + 1 ≤ tdb'.map_size)
      ∧ tdb_oob sample_mapped ((2 ^ 64 - 1 + 1) % U64) false = some (0, sample_mapped)
      ∧ tdb_read sample_mapped (2 ^ 64 - 1) 1 = none :=
  ⟨_, _, rfl, by decide, rfl, by decide, rfl, rfl⟩

/-! ## C5: writes on a read-only handle -/

/-- C5, refuted as stated: on a read-only handle `tdb_write` of length `0`
returns `0`, not `-1`, and leaves `ecode` as it was. -/
theorem C5_read_only_counterexample :
    sample_read_only.read_only = true
    ∧ tdb_write sample_read_only 4 [] 0 = some (0, sample_read_only)
    ∧ sample_read_only.ecode ≠ TDB_ERR_RDONLY :=
  ⟨rfl, rfl, by decide⟩

/-- C5, amended. On a read-only handle `tdb_access_write` returns `NULL` for
every offset, length and convert flag, and `tdb_write` returns `-1` for every
offset, buffer and length above `0`, each with `ecode = TDB_ERR_RDONLY` and
with the store, `map_size` and `map_ptr` as before; `tdb_write` of length `0`
returns `0` and changes nothing at all. -/
theorem C5_read_only_rejection (tdb : tdb_context) (hro : tdb.read_only = true)
    (off len : Nat) (convert : Bool) (buf : List Byte) :
    (∃ tdb', tdb_access_write tdb off len convert = some (none, tdb')
        ∧ tdb'.ecode = TDB_ERR_RDONLY ∧ tdb'.store = tdb.store
        ∧ tdb'.map_size = tdb.map_size ∧ tdb'.map_ptr = tdb.map_ptr)
    ∧ (0 < len → ∃ tdb', tdb_write tdb off buf len = some (-1, tdb')
        ∧ tdb'.ecode = TDB_ERR_RDONLY ∧ tdb'.store = tdb.store
        ∧ tdb'.map_size = tdb.map_size ∧ tdb'.map_ptr = tdb.map_ptr)
    ∧ (len = 0 → tdb_write tdb off buf len = some (0, tdb)) := by
  refine ⟨?_, ?_, ?_⟩
  · exact ⟨{ tdb with ecode := TDB_ERR_RDONLY }, by simp [tdb_access_write, hro],
      rfl, rfl, rfl, rfl⟩
  · intro hlen
    have : len ≠ 0 := by omega
    exact ⟨{ tdb with ecode := TDB_ERR_RDONLY }, by simp [tdb_write, hro, this],
      rfl, rfl, rfl, rfl⟩
  · intro hlen
    simp [tdb_write, hlen]

/-- C5 amended, at a sample: 8 bytes at offset 4 of a read-only handle. -/
theorem C5_read_only_rejection_witness :
    (∃ tdb', tdb_access_write sample_read_only 4 8 false = some (none, tdb')
        ∧ tdb'.ecode = TDB_ERR_RDONLY ∧ tdb'.store = sample_read_only.store
        ∧ tdb'.map_size = sample_read_only.map_size
        ∧ tdb'.map_ptr = sample_read_only.map_ptr)
    ∧ (∃ tdb', tdb_write sample_read_only 4 [1, 2, 3, 4, 5, 6, 7, 8] 8 = some (-1, tdb')
        ∧ tdb'.ecode = TDB_ERR_RDONLY ∧ tdb'.store = sample_read_only.store
        ∧ tdb'.map_size = sample_read_only.map_size
        ∧ tdb'.map_ptr = sample_read_only.map_ptr) :=
  ⟨(C5_read_only_rejection sample_read_only rfl 4 8 false [1, 2, 3, 4, 5, 6, 7, 8]).1,
   (C5_read_only_rejection sample_read_only rfl 4 8 false [1, 2, 3, 4, 5, 6, 7, 8]).2.1
     (by decide)⟩

/-! ## Growth -/

theorem fill_loop_total (fuel : Nat) :
    ∀ (t : tdb_context) (buf : List Byte) (size off len : Nat), 0 < size → len ≤ fuel →
      ∃ r t', fill_loop fuel t buf size off len = some (r, t') ∧ Steady t t'
        ∧ (r = 0 ∨ r = -1) := by
  induction fuel with
  | zero =>
    intro t buf size off len _ h
    have : len = 0 := by omega
    exact ⟨0, t, by simp [fill_loop, this], Steady.still t, Or.inl rfl⟩
  | succ fuel ih =>
    intro t buf size off len hsize h
    unfold fill_loop
    by_cases h0 : len = 0
    · exact ⟨0, t, by simp [h0], Steady.still t, Or.inl rfl⟩
    · simp only [h0, if_false]
      obtain ⟨ok, t1, he, hs⟩ :=
        tdb_pwrite_all_total t buf (if len > size then size else len) off
      rw [he]
      cases ok with
      | false =>
        exact ⟨-1, emit { t1 with ecode := TDB_ERR_IO } (Event.log TDB_DEBUG_FATAL), by simp,
          hs.chain ((steady_ecode _ _).chain (steady_emit _ _)), Or.inr rfl⟩
      | true =>
        obtain ⟨r, t', he', hs', hr⟩ := ih t1 buf size
          ((off + if len > size then size else len) % U64)
          (len - if len > size then size else len) hsize (by split <;> omega)
        exact ⟨r, t', by simpa using he', hs.chain hs', hr⟩

theorem fill_loop_store (fuel : Nat) (c : Byte) (size : Nat) (hsize : 0 < size) :
    ∀ (t : tdb_context) (off len : Nat) (t' : tdb_context), len ≤ fuel →
      fill_loop fuel t (List.replicate size c) size off len = some (0, t') →
      (len = 0 → t' = t)
      ∧ (0 < len → off + len ≤ OFF_MAX
          ∧ t'.store = write_at t.store off (List.replicate len c)) := by
  induction fuel with
  | zero =>
    intro t off len t' h hr
    have h0 : len = 0 := by omega
    simp only [fill_loop, h0, if_true, Option.some.injEq, Prod.mk.injEq, true_and] at hr
    exact ⟨fun _ => hr.symm, fun hp => by omega⟩
  | succ fuel ih =>
    intro t off len t' h hr
    unfold fill_loop at hr
    by_cases h0 : len = 0
    · simp only [h0, if_true, Option.some.injEq, Prod.mk.injEq, true_and] at hr
      exact ⟨fun _ => hr.symm, fun hp => by omega⟩
    · refine ⟨fun hz => absurd hz h0, fun _ => ?_⟩
      simp only [h0, if_false] at hr
      generalize hn : (if len > size then size else len) = n at hr
      have hn1 : 0 < n := by rw [← hn]; split <;> omega
      have hn2 : n ≤ len := by rw [← hn]; split <;> omega
      have hn3 : n ≤ size := by rw [← hn]; split <;> omega
      obtain ⟨ok, t1, he, _⟩ := tdb_pwrite_all_total t (List.replicate size c) n off
      rw [he] at hr
      cases ok with
      | false => simp at hr
      | true =>
        simp only [Bool.not_true, Bool.false_eq_true, if_false] at hr
        obtain ⟨_, hw⟩ := tdb_pwrite_all_store t (List.replicate size c) n off t1
          (by simpa using hn3) he
        obtain ⟨hmax, hst⟩ := hw hn1
        have htk : (List.replicate size c).take n = List.replicate n c := by
          rw [List.take_replicate, Nat.min_eq_left hn3]
        rw [htk] at hst
        have hmod : (off + n) % U64 = off + n :=
          Nat.mod_eq_of_lt (by have := OFF_MAX_lt_U64; omega)
        rw [hmod] at hr
        obtain ⟨hzero, hposr⟩ := ih t1 (off + n) (len - n) t' (by omega) hr
        by_cases hrest : len - n = 0
        · have hn' : n = len := by omega
          rw [hzero hrest, hst, hn']
          exact ⟨by omega, rfl⟩
        · obtain ⟨hm, hs2⟩ := hposr (by omega)
          refine ⟨by omega, ?_⟩
          rw [hs2, hst]
          have := write_at_write_at t.store off (List.replicate n c)
            (List.replicate (len - n) c)
          rw [List.length_replicate] at this
          rw [this]
          congr 1
          rw [List.append_replicate_replicate]
          congr 1
          omega

theorem fill_store (t : tdb_context) (c : Byte) (size off len : Nat) (t' : tdb_context)
    (hsize : 0 < size)
    (hr : fill t (List.replicate size c) size off len = some (0, t')) :
    (len = 0 → t' = t)
    ∧ (0 < len → off + len ≤ OFF_MAX
        ∧ t'.store = write_at t.store off (List.replicate len c)) :=
  fill_loop_store len c size hsize t off len t' (le_refl _) hr

theorem fill_total (t : tdb_context) (buf : List Byte) (size off len : Nat) (hsize : 0 < size) :
    ∃ r t', fill t buf size off len = some (r, t') ∧ Steady t t' ∧ (r = 0 ∨ r = -1) :=
  fill_loop_total len t buf size off len hsize (le_refl _)

theorem ftruncate_spec (t : tdb_context) (length : Nat) :
    Steady t (ftruncate t length)
    ∧ ((ftruncate t length).store = t.store
      ∨ (ftruncate t length).store
          = t.store.take length ++ List.replicate (length - t.store.length) 0) := by
  unfold ftruncate
  dsimp only
  split
  · exact ⟨(steady_tick _ _).chain (steady_store _ _), Or.inr rfl⟩
  · exact ⟨steady_tick _ _, Or.inl rfl⟩

theorem ftruncate_keeps (t : tdb_context) (length i : Nat) (b : Byte) (hi : i < length)
    (h : t.store[i]? = some b) : (ftruncate t length).store[i]? = some b := by
  rcases (ftruncate_spec t length).2 with he | he
  · rw [he]; exact h
  · rw [he]
    have hlt : i < t.store.length := by
      by_contra hc
      rw [List.getElem?_eq_none (by omega)] at h
      cases h
    rw [List.getElem?_append_left (by rw [List.length_take]; omega),
      List.getElem?_take_of_lt hi]
    exact h

/-- C6. On a file-backed handle whose cached size `S` is a 64-bit value, if
`tdb_expand_file` returns `0` for the addition `N`, then `map_size` is `S + N`,
every byte of the store in `[S, S + N)` is the fill byte `0x43`, and every byte
the store had below `S` is unchanged; the outcome of `ftruncate` is any. -/
theorem C6_growth_fill_file (tdb : tdb_context) (addition : Nat) (tdb' : tdb_context)
    (hfile : tdb.TDB_INTERNAL = false) (hsize : tdb.map_size < U64)
    (h : tdb_expand_file tdb addition = some (0, tdb')) :
    tdb'.map_size = tdb.map_size + addition
    ∧ (∀ i, tdb.map_size ≤ i → i < tdb.map_size + addition → tdb'.store[i]? = some 0x43)
    ∧ (∀ i b, i < tdb.map_size → tdb.store[i]? = some b → tdb'.store[i]? = some b) := by
  unfold tdb_expand_file at h
  by_cases hro : tdb.read_only = true
  · simp [hro] at h
  · simp only [hro, hfile, Bool.false_eq_true, if_false, tdb_munmap_map_size] at h
    have hft := ftruncate_spec (tdb_munmap tdb) ((tdb.map_size + addition) % U64)
    have hms : (ftruncate (tdb_munmap tdb) ((tdb.map_size + addition) % U64)).map_size
        = tdb.map_size := by rw [hft.1.map_size, tdb_munmap_map_size]
    rw [hms] at h
    obtain ⟨r, t3, hfill, hs3, hr⟩ := fill_total
      (ftruncate (tdb_munmap tdb) ((tdb.map_size + addition) % U64))
      (List.replicate 8192 0x43) 8192 tdb.map_size addition (by decide)
    rw [hfill] at h
    have hms3 : t3.map_size = tdb.map_size := by rw [hs3.map_size, hms]
    rcases hr with rfl | rfl
    · simp only [Option.some.injEq, Prod.mk.injEq, true_and] at h
      have h' : tdb_mmap { t3 with map_size := (t3.map_size + addition) % U64 } = tdb' := by
        simpa using h
      subst h'
      obtain ⟨hzero, hpos⟩ := fill_store _ 0x43 8192 tdb.map_size addition t3 (by decide) hfill
      rw [tdb_mmap_map_size, tdb_mmap_store]
      show (t3.map_size + addition) % U64 = _ ∧ _
      rw [hms3]
      by_cases hadd : addition = 0
      · subst hadd
        have hm0 : (tdb.map_size + 0) % U64 = tdb.map_size := by
          rw [Nat.add_zero]; exact Nat.mod_eq_of_lt hsize
        refine ⟨hm0, fun i h1 h2 => by omega, ?_⟩
        intro i b hi hb
        rw [hzero rfl]
        apply ftruncate_keeps _ _ _ _ (by rw [hm0]; exact hi)
        simpa using hb
      · obtain ⟨hmax, hst⟩ := hpos (by omega)
        have hmod : (tdb.map_size + addition) % U64 = tdb.map_size + addition :=
          Nat.mod_eq_of_lt (by have := OFF_MAX_lt_U64; omega)
        refine ⟨hmod, ?_, ?_⟩
        · intro i h1 h2
          show t3.store[i]? = _
          rw [hst, write_at_get, if_neg (by omega), List.length_replicate, if_pos h2,
            List.getElem?_replicate, if_pos (by omega)]
        · intro i b hi hb
          show t3.store[i]? = _
          have hk := ftruncate_keeps (tdb_munmap tdb) ((tdb.map_size + addition) % U64) i b
            (by rw [hmod]; omega) (by simpa using hb)
          have hlen : i < (ftruncate (tdb_munmap tdb)
              ((tdb.map_size + addition) % U64)).store.length := by
            by_contra hc
            rw [List.getElem?_eq_none (by omega)] at hk
            cases hk
          rw [hst, write_at_get, if_pos hi, if_pos hlen]
          exact hk
    · simp at h

/-- C6, at a sample: a mapped store of 16 bytes grows by 5 while `ftruncate`
fails. -/
theorem C6_growth_fill_file_witness :
    sample_grown.map_size = sample_no_ftruncate.map_size + 5
    ∧ (∀ i, sample_no_ftruncate.map_size ≤ i → i < sample_no_ftruncate.map_size + 5 →
        sample_grown.store[i]? = some 0x43)
    ∧ (∀ i b, i < sample_no_ftruncate.map_size → sample_no_ftruncate.store[i]? = some b →
        sample_grown.store[i]? = some b) :=
  C6_growth_fill_file sample_no_ftruncate 5 sample_grown (by decide) (by decide) rfl

/-- C7, refuted as stated: a memory-only handle of 2 bytes grows by 2 and the
two bytes added hold what `realloc` left there, `0xa5` at this sample, not
zero. -/
theorem C7_growth_internal_counterexample :
    sample_internal.TDB_INTERNAL = true ∧ sample_internal.read_only = false
    ∧ sample_internal.map_size = 2
    ∧ ∃ tdb', tdb_expand_file sample_internal 2 = some (0, tdb')
        ∧ tdb'.store[2]? = some 0xa5 ∧ tdb'.store[3]? = some 0xa5 :=
  ⟨rfl, rfl, rfl, _, rfl, rfl, rfl⟩

/-- C7, amended. On a memory-only handle of size `S`, for an addition `N` with
`S + N` below `2^64`, if `tdb_expand_file` returns `0` then `map_size` is
`S + N`, the block has that many bytes, every byte it had below `S` is
unchanged, and a byte added holds what uninitialised memory held there: this
layer writes nothing to it. -/
theorem C7_growth_internal (tdb : tdb_context) (addition : Nat) (tdb' : tdb_context)
    (hint : tdb.TDB_INTERNAL = true) (hsum : tdb.map_size + addition < U64)
    (h : tdb_expand_file tdb addition = some (0, tdb')) :
    tdb'.map_size = tdb.map_size + addition
    ∧ tdb'.store.length = tdb.map_size + addition
    ∧ (∀ i b, i < tdb.map_size → tdb.store[i]? = some b → tdb'.store[i]? = some b)
    ∧ (∀ i, tdb.store.length ≤ i → i < tdb.map_size + addition →
        tdb'.store[i]? = some (tdb.sys.junk i)) := by
  unfold tdb_expand_file at h
  by_cases hro : tdb.read_only = true
  · simp [hro] at h
  · have hmod : (tdb.map_size + addition) % U64 = tdb.map_size + addition :=
      Nat.mod_eq_of_lt hsum
    simp only [hro, hint, Bool.false_eq_true, if_false, if_true, hmod] at h
    unfold realloc at h
    dsimp only at h
    by_cases ha : tdb.sys.realloc tdb.clock = 0
    · simp [ha] at h
    · simp only [ha, if_false, Option.some.injEq, Prod.mk.injEq, true_and] at h
      subst h
      refine ⟨rfl, ?_, ?_, ?_⟩
      · show (List.take _ _ ++ uninitialised _ _ _).length = _
        simp only [uninitialised, List.length_append, List.length_take, List.length_map,
          List.length_range, tick_store]
        omega
      · intro i b hi hb
        show (List.take _ _ ++ uninitialised _ _ _)[i]? = _
        have hlt : i < tdb.store.length := by
          by_contra hc
          rw [List.getElem?_eq_none (by omega)] at hb
          cases hb
        rw [List.getElem?_append_left (by simp [List.length_take]; omega),
          List.getElem?_take_of_lt (by omega)]
        exact hb
      · intro i h1 h2
        show (List.take _ _ ++ uninitialised _ _ _)[i]? = _
        have htl : (List.take (tdb.map_size + addition) (tick tdb
            (Event.realloc (tdb.map_size + addition))).store).length = tdb.store.length := by
          simp only [List.length_take, tick_store]; omega
        rw [List.getElem?_append_right (by omega), htl]
        simp only [uninitialised, tick_store, tick_sys, List.getElem?_map]
        rw [List.getElem?_range (by omega)]
        simp only [Option.map_some']
        congr 2
        omega

/-- C7 amended, at a sample: a block of 2 bytes grows by 2. -/
theorem C7_growth_internal_witness :
    sample_internal_grown.map_size = sample_internal.map_size + 2
    ∧ sample_internal_grown.store.length = sample_internal.map_size + 2
    ∧ (∀ i b, i < sample_internal.map_size → sample_internal.store[i]? = some b →
        sample_internal_grown.store[i]? = some b)
    ∧ (∀ i, sample_internal.store.length ≤ i → i < sample_internal.map_size + 2 →
        sample_internal_grown.store[i]? = some (sample_internal.sys.junk i)) :=
  C7_growth_internal sample_internal 2 sample_internal_grown rfl (by decide) rfl

/-! ## C1: round trip through the access arena -/

/-- C1. Take any handle, a range `[off, off+len)` inside a store no longer than
`OFF_MAX`, a convert flag and `len` bytes `B`.  If `tdb_access_write` returns a
view (a heap block lying outside the mapping, when it is one), the caller stores
`B` through it and `tdb_access_commit` returns `0`, then `tdb_access_read` of
the same range with the same flag returns normally, every view it returns
holds exactly `B`, and it does return a view when `malloc` and `pread` do not
fail. -/
theorem C1_access_round_trip (tdb : tdb_context) (off len : Nat) (convert : Bool)
    (B : List Byte) (v : View) (tdb1 tdb1' : tdb_context) (v' : View) (tdb2 : tdb_context)
    (hin : off + len ≤ tdb.store.length) (hfile : tdb.store.length ≤ OFF_MAX)
    (hB : B.length = len)
    (hw : tdb_access_write tdb off len convert = some (some v, tdb1))
    (hheap : v.made_direct = false → is_direct tdb1 v.ptr = false)
    (hs : view_store tdb1 v B = some (tdb1', v'))
    (hc : tdb_access_commit tdb1' v' = some (0, tdb2)) :
    ∃ r tdb3, tdb_access_read tdb2 off len convert = some (r, tdb3)
      ∧ (∀ w, r = some w → view_load tdb3 w = some B)
      ∧ ((∀ n, tdb.sys.malloc n ≠ 0 ∧ 0 < tdb.sys.pread n) → r ≠ none) := by
  have hlt := OFF_MAX_lt_U64
  obtain ⟨hf, ha, hfit, hlen, _, hsl⟩ := borrow_store_commit tdb off len convert B v tdb1
    tdb1' v' tdb2 (by omega) hin hB hw hheap hs hc
  obtain ⟨r, tdb3, hr, hview, hco⟩ := tdb_access_read_in_bounds tdb2 off len convert ha
    (by omega) hfit (by rw [hlen]; exact hin)
  refine ⟨r, tdb3, hr, ?_, ?_⟩
  · intro w hw'
    rw [hview w hw', hsl]
    congr 1
    cases convert with
    | false => rfl
    | true =>
      simp only [if_true]
      rw [tdb_convert_congr tdb tdb2 hf.convert]
      exact tdb_convert_twice tdb B len
  · intro hsys
    apply hco
    intro n
    rw [hf.sys]
    exact hsys n

/-- C1, at a sample: 8 bytes at offset 4 of a mapped store with `TDB_CONVERT`
set, borrowed with the convert flag, filled, committed and read back. -/
theorem C1_access_round_trip_witness :
    ∃ r tdb3, tdb_access_read sample_committed 4 8 true = some (r, tdb3)
      ∧ (∀ w, r = some w → view_load tdb3 w = some [1, 2, 3, 4, 5, 6, 7, 8])
      ∧ ((∀ n, sample_convert.sys.malloc n ≠ 0 ∧ 0 < sample_convert.sys.pread n) →
          r ≠ none) :=
  C1_access_round_trip sample_convert 4 8 true [1, 2, 3, 4, 5, 6, 7, 8]
    sample_view sample_borrowed sample_borrowed
    (View.shadow sample_view.ptr (some ⟨4, 8, true⟩) [1, 2, 3, 4, 5, 6, 7, 8])
    sample_committed (by decide) (by decide) rfl rfl (fun _ => rfl) rfl rfl

/-! ## C8: release without commit -/

theorem tdb_access_release_store (t : tdb_context) (v : View) (t2 : tdb_context)
    (h : tdb_access_release t v = some t2) : t2.store = t.store := by
  unfold tdb_access_release at h
  split at h
  · simp only [Option.some.injEq] at h
    subst h
    rfl
  · split at h
    · simp only [Option.some.injEq] at h
      subst h
      rfl
    · cases h

/-- C8, refuted as stated: on a mapped handle the write borrow of 2 bytes at
offset 4 is a pointer into the mapping, so the two bytes `9, 9` the caller
stores land in the backing content at once, and releasing the view without
commit leaves them there: the content differs from what it was before the
borrow. -/
theorem C8_discard_counterexample :
    ∃ v t1 t1' v' t2, tdb_access_write sample_mapped 4 2 false = some (some v, t1)
      ∧ view_store t1 v [9, 9] = some (t1', v')
      ∧ tdb_access_release t1' v' = some t2
      ∧ sample_mapped.store[4]? = some 7 ∧ t2.store[4]? = some 9 :=
  ⟨_, _, _, _, _, rfl, rfl, rfl, rfl, rfl⟩

/-- C8, amended. `tdb_access_release` changes no byte of the backing content.
So after a write borrow, any store through the view and a release without
commit, the content is what it was before the borrow when the view is a heap
block (the shadow path); when the view is a pointer into the mapping (the
direct path) the bytes stored through it are in the content already and stay
there. -/
theorem C8_discard (tdb : tdb_context) (off len : Nat) (convert : Bool) (B : List Byte)
    (v : View) (tdb1 tdb1' : tdb_context) (v' : View) (tdb2 : tdb_context)
    (hw : tdb_access_write tdb off len convert = some (some v, tdb1))
    (hs : view_store tdb1 v B = some (tdb1', v'))
    (hr : tdb_access_release tdb1' v' = some tdb2) :
    tdb2.store = tdb1'.store
    ∧ (v.made_direct = false → tdb2.store = tdb.store)
    ∧ (v.made_direct = true →
        tdb2.store = if len = 0 then tdb.store else write_at tdb.store off B) := by
  have h2 := tdb_access_release_store _ _ _ hr
  obtain ⟨_, _, hst, _, _, hv⟩ := tdb_access_write_spec _ _ _ _ _ _ hw
  refine ⟨h2, ?_, ?_⟩
  · intro hm
    rcases hv with ⟨p, rfl, _⟩ | ⟨p, data, rfl, _⟩
    · cases hm
    · obtain ⟨_, rfl, _⟩ := view_store_shadow _ _ _ _ _ _ _ hs
      rw [h2, hst]
  · intro hm
    rcases hv with ⟨p, rfl, _⟩ | ⟨p, data, rfl, _⟩
    · obtain ⟨_, rfl, _⟩ := view_store_direct _ _ _ _ _ _ _ hs
      rw [h2]
      show (if len = 0 then tdb1.store else write_at tdb1.store off B) = _
      rw [hst]
    · cases hm

/-- C8 amended, at a sample: the heap view borrowed on `sample_convert` is
filled with `1 .. 8` and released without commit. -/
theorem C8_discard_witness :
    sample_released.store = sample_borrowed.store
    ∧ (sample_view.made_direct = false → sample_released.store = sample_convert.store)
    ∧ (sample_view.made_direct = true → sample_released.store =
        if 8 = 0 then sample_convert.store
        else write_at sample_convert.store 4 [1, 2, 3, 4, 5, 6, 7, 8]) :=
  C8_discard sample_convert 4 8 true [1, 2, 3, 4, 5, 6, 7, 8] sample_view sample_borrowed
    sample_borrowed (View.shadow sample_view.ptr (some ⟨4, 8, true⟩) [1, 2, 3, 4, 5, 6, 7, 8])
    sample_released rfl rfl rfl

/-! ## C9: classification of a view at release and commit -/

/-- C9, the code at the failing input: on a handle mapped over 16 bytes with no
borrow outstanding, a borrow of `len = 0` at `off = map_size = 16` (read or
write) is made by `tdb_direct` and raises `direct_access` to `1`, but its
pointer `map_ptr + 16` is not below `map_ptr + map_size`, so `is_direct` says
no: `tdb_access_release` takes the `free` branch and `tdb_access_commit` the
write-back branch, on an address that is no heap block, and neither lowers
`direct_access`. -/
theorem C9_zero_length_view_misclassified :
    ∃ v t1, tdb_access_read sample_mapped 16 0 false = some (some v, t1)
      ∧ tdb_access_write sample_mapped 16 0 false = some (some v, t1)
      ∧ v = View.direct (sample_mapped.map_ptr + 16) 16 0
      ∧ sample_mapped.direct_access = 0 ∧ t1.direct_access = 1
      ∧ is_direct t1 v.ptr = false
      ∧ tdb_access_release t1 v = none
      ∧ tdb_access_commit t1 v = none :=
  ⟨_, _, rfl, rfl, rfl, rfl, rfl, rfl, rfl, rfl⟩

/-! ## C16, C17: bounds checks that fail -/

/-- C16, refuted as stated: on `sample_no_fstat` (file-backed, cached size 8,
true size 16) a probe for 100 bytes takes the expansion lock, the size query
fails, and `tdb_oob` sets `ecode` to `TDB_ERR_IO` before it returns `-1`,
probe or not. -/
theorem C16_probe_silent_counterexample :
    sample_no_fstat.TDB_INTERNAL = false ∧ sample_no_fstat.store.length < 100
    ∧ sample_no_fstat.ecode = TDB_SUCCESS
    ∧ ∃ tdb', tdb_oob sample_no_fstat 100 true = some (-1, tdb')
        ∧ tdb'.ecode = TDB_ERR_IO :=
  ⟨rfl, by decide, rfl, _, rfl, rfl⟩

/-- C16, amended. On a handle called as the assert of `tdb_oob` requires, with
`len` above the cached size and, for a file-backed handle, above the true size,
`tdb_oob` with probe returns `-1`, calls the log sink at no severity and leaves
`map_size`, `map_ptr` and the store as they were.  `ecode` is unchanged on a
memory-only handle and on a file-backed handle whose expansion lock and size
query succeed; a failed size query sets it to `TDB_ERR_IO`, and a refused lock
leaves what the locking collaborator set. -/
theorem C16_probe_silent (tdb : tdb_context) (len : Nat)
    (hassert : oob_assertion tdb = true)
    (hlt : tdb.map_size < len)
    (htrue : tdb.TDB_INTERNAL = false → tdb.store.length < len) :
    ∃ tdb', tdb_oob tdb len true = some (-1, tdb')
      ∧ (∀ lvl, tdb'.trace.count (Event.log lvl) = tdb.trace.count (Event.log lvl))
      ∧ tdb'.map_size = tdb.map_size ∧ tdb'.map_ptr = tdb.map_ptr
      ∧ tdb'.store = tdb.store
      ∧ (tdb.TDB_INTERNAL = true → tdb' = tdb)
      ∧ (tdb.TDB_INTERNAL = false →
          (tdb.sys.lock_expand tdb.clock = LockAnswer.acquired →
            tdb.sys.fstat (tdb.clock + 1) = true → tdb'.ecode = tdb.ecode)
          ∧ (tdb.sys.lock_expand tdb.clock = LockAnswer.acquired →
            tdb.sys.fstat (tdb.clock + 1) = false → tdb'.ecode = TDB_ERR_IO)
          ∧ (∀ e, tdb.sys.lock_expand tdb.clock = LockAnswer.refused e →
            tdb'.ecode = e)) := by
  have hnle : ¬ len ≤ tdb.map_size := by omega
  unfold tdb_oob
  simp only [hassert, hnle, Bool.not_true, Bool.false_eq_true, if_false]
  by_cases hint : tdb.TDB_INTERNAL = true
  · simp only [hint, if_true]
    exact ⟨tdb, rfl, fun _ => rfl, rfl, rfl, rfl, fun _ => rfl, fun h => by cases h⟩
  · have hint' : tdb.TDB_INTERNAL = false := by simpa using hint
    have htrue' := htrue hint'
    simp only [hint', Bool.false_eq_true, if_false]
    cases hl : tdb.sys.lock_expand tdb.clock with
    | refused e =>
      refine ⟨_, rfl, ?_, rfl, rfl, rfl, (fun h => by cases h), fun _ => ⟨?_, ?_, ?_⟩⟩
      · intro lvl
        simp [tick, List.count_append]
      · intro h; cases h
      · intro h; cases h
      · intro e' h; cases h; rfl
    | acquired =>
      dsimp only
      by_cases hf : (tick tdb Event.lock_expand).sys.fstat
          (tick tdb Event.lock_expand).clock = true
      · simp only [hf, Bool.not_true, Bool.false_eq_true, if_false, emit_store, tick_store,
          htrue', if_true]
        refine ⟨_, rfl, ?_, rfl, rfl, rfl, (fun h => by cases h), fun _ => ⟨?_, ?_, ?_⟩⟩
        · intro lvl
          simp [tick, emit, List.count_append]
        · intro _ _; rfl
        · intro _ h
          have hf' : tdb.sys.fstat (tdb.clock + 1) = true := hf
          rw [hf'] at h; cases h
        · intro e' h; cases h
      · simp only [hf, Bool.not_false, if_true]
        refine ⟨_, rfl, ?_, rfl, rfl, rfl, (fun h => by cases h), fun _ => ⟨?_, ?_, ?_⟩⟩
        · intro lvl
          simp [tick, emit, List.count_append]
        · intro _ h
          exact absurd h hf
        · intro _ _; rfl
        · intro e' h; cases h

/-- C16 amended, at a sample: a probe for 100 bytes on a store of 16. -/
theorem C16_probe_silent_witness :
    ∃ tdb', tdb_oob sample_stale 100 true = some (-1, tdb')
      ∧ (∀ lvl, tdb'.trace.count (Event.log lvl) = sample_stale.trace.count (Event.log lvl))
      ∧ tdb'.map_size = sample_stale.map_size ∧ tdb'.map_ptr = sample_stale.map_ptr
      ∧ tdb'.store = sample_stale.store
      ∧ (sample_stale.TDB_INTERNAL = true → tdb' = sample_stale)
      ∧ (sample_stale.TDB_INTERNAL = false →
          (sample_stale.sys.lock_expand sample_stale.clock = LockAnswer.acquired →
            sample_stale.sys.fstat (sample_stale.clock + 1) = true →
            tdb'.ecode = sample_stale.ecode)
          ∧ (sample_stale.sys.lock_expand sample_stale.clock = LockAnswer.acquired →
            sample_stale.sys.fstat (sample_stale.clock + 1) = false →
            tdb'.ecode = TDB_ERR_IO)
          ∧ (∀ e, sample_stale.sys.lock_expand sample_stale.clock = LockAnswer.refused e →
            tdb'.ecode = e)) :=
  C16_probe_silent sample_stale 100 (by decide) (by decide) (fun _ => by decide)

/-- C17. On a memory-only handle called as the assert of `tdb_oob` requires: for
`len` above `map_size`, `tdb_oob` returns `-1`, consumes no answer of the
outside (no lock, no size query), and leaves `map_size`, `map_ptr` and the store
as they were; with probe it changes nothing at all, without probe the only
changes are `ecode = TDB_ERR_IO` and one call of the log sink at fatal
severity.  For `len` up to `map_size` it returns `0` and changes nothing. -/
theorem C17_internal_bound (tdb : tdb_context) (len : Nat) (probe : Bool)
    (hassert : oob_assertion tdb = true) (hint : tdb.TDB_INTERNAL = true) :
    (tdb.map_size < len →
      ∃ tdb', tdb_oob tdb len probe = some (-1, tdb')
        ∧ tdb'.clock = tdb.clock
        ∧ tdb'.map_size = tdb.map_size ∧ tdb'.map_ptr = tdb.map_ptr
        ∧ tdb'.store = tdb.store
        ∧ (probe = true → tdb' = tdb)
        ∧ (probe = false → tdb'.ecode = TDB_ERR_IO
            ∧ tdb'.trace = tdb.trace ++ [Event.log TDB_DEBUG_FATAL]))
    ∧ (len ≤ tdb.map_size → tdb_oob tdb len probe = some (0, tdb)) := by
  refine ⟨?_, fun h => tdb_oob_fits tdb len probe hassert h⟩
  intro hlt
  have hnle : ¬ len ≤ tdb.map_size := by omega
  unfold tdb_oob
  simp only [hassert, hnle, hint, Bool.not_true, Bool.false_eq_true, if_false, if_true]
  cases probe with
  | true =>
    exact ⟨tdb, rfl, rfl, rfl, rfl, rfl, fun _ => rfl, fun h => by cases h⟩
  | false =>
    exact ⟨_, rfl, rfl, rfl, rfl, rfl, (fun h => by cases h), fun _ => ⟨rfl, rfl⟩⟩

/-- C17, at a sample: 3 bytes asked of a memory-only block of 2, without
probe. -/
theorem C17_internal_bound_witness :
    (sample_internal.map_size < 3 →
      ∃ tdb', tdb_oob sample_internal 3 false = some (-1, tdb')
        ∧ tdb'.clock = sample_internal.clock
        ∧ tdb'.map_size = sample_internal.map_size
        ∧ tdb'.map_ptr = sample_internal.map_ptr
        ∧ tdb'.store = sample_internal.store
        ∧ (false = true → tdb' = sample_internal)
        ∧ (false = false → tdb'.ecode = TDB_ERR_IO
            ∧ tdb'.trace = sample_internal.trace ++ [Event.log TDB_DEBUG_FATAL]))
    ∧ (3 ≤ sample_internal.map_size →
        tdb_oob sample_internal 3 false = some (0, sample_internal)) :=
  C17_internal_bound sample_internal 3 false (by decide) rfl

/-! ## C13: the positioned write loop -/

theorem pwrite_trace (t : tdb_context) (buf : List Byte) (len off : Nat) :
    (pwrite t buf len off).2.trace = t.trace ++ [Event.pwrite off len] := by
  unfold pwrite
  dsimp only
  split
  · rfl
  · split <;> rfl

theorem pwrite_progress (t : tdb_context) (buf : List Byte) (len off : Nat)
    (hr : 0 < t.sys.pwrite t.clock) (hlen : 0 < len) (hoff : off < OFF_MAX) :
    0 < (pwrite t buf len off).1 := by
  unfold pwrite
  dsimp only
  have h1 : ¬ (t.sys.pwrite t.clock < 0 ∨ OFF_MAX < off) := by omega
  rw [if_neg h1]
  have h2 : ¬ (min (min (t.sys.pwrite t.clock).toNat len) (OFF_MAX - off) = 0) := by omega
  rw [if_neg h2]
  show (0 : Int) < ((min (min (t.sys.pwrite t.clock).toNat len) (OFF_MAX - off) : Nat) : Int)
  omega

theorem tdb_pwrite_all_loop_fuel (fuel1 : Nat) :
    ∀ (fuel2 : Nat) (t : tdb_context) (buf : List Byte) (len off : Nat),
      len ≤ fuel1 → len ≤ fuel2 →
      tdb_pwrite_all_loop fuel1 t buf len off = tdb_pwrite_all_loop fuel2 t buf len off := by
  induction fuel1 with
  | zero =>
    intro fuel2 t buf len off h1 _
    have h0 : len = 0 := by omega
    subst h0
    cases fuel2 <;> simp [tdb_pwrite_all_loop]
  | succ fuel1 ih =>
    intro fuel2 t buf len off h1 h2
    cases fuel2 with
    | zero =>
      have h0 : len = 0 := by omega
      subst h0
      simp [tdb_pwrite_all_loop]
    | succ fuel2 =>
      unfold tdb_pwrite_all_loop
      by_cases h0 : len = 0
      · simp [h0]
      · simp only [h0, if_false]
        obtain ⟨_, hc⟩ := pwrite_spec t buf len off
        rcases hc with ⟨hneg, _⟩ | ⟨hz, _⟩ | ⟨n, hn, hpos, hle, _, _⟩
        · simp [hneg]
        · simp [hz]
        · have e1 : ¬ ((pwrite t buf len off).1 < 0) := by rw [hn]; omega
          have e2 : ¬ ((pwrite t buf len off).1 = 0) := by rw [hn]; omega
          have hto : (pwrite t buf len off).1.toNat = n := by rw [hn]; simp
          simp only [e1, e2, if_false, hto]
          exact ih fuel2 _ _ _ _ (by omega) (by omega)

theorem tdb_pwrite_all_step (t : tdb_context) (buf : List Byte) (len off : Nat)
    (hlen : 0 < len) :
    tdb_pwrite_all t buf len off =
      if (pwrite t buf len off).1 < 0 then some (false, (pwrite t buf len off).2)
      else if (pwrite t buf len off).1 = 0 then
        some (false, { (pwrite t buf len off).2 with errno := ENOSPC })
      else tdb_pwrite_all (pwrite t buf len off).2
        (buf.drop (pwrite t buf len off).1.toNat) (len - (pwrite t buf len off).1.toNat)
        ((off + (pwrite t buf len off).1.toNat) % U64) := by
  unfold tdb_pwrite_all
  cases len with
  | zero => omega
  | succ m =>
    rw [tdb_pwrite_all_loop]
    simp only [Nat.succ_ne_zero, if_false]
    split
    · rfl
    · split
      · rfl
      · exact tdb_pwrite_all_loop_fuel m _ _ _ _ _ (by omega) (le_refl _)

theorem tdb_pwrite_all_loop_trace (fuel : Nat) :
    ∀ (t : tdb_context) (buf : List Byte) (len off : Nat) (ok : Bool) (t' : tdb_context),
      len ≤ fuel → tdb_pwrite_all_loop fuel t buf len off = some (ok, t') →
      ∃ l, t'.trace = t.trace ++ l
        ∧ ∀ e ∈ l, ∃ done, done < len ∧ e = Event.pwrite (off + done) (len - done) := by
  induction fuel with
  | zero =>
    intro t buf len off ok t' h hr
    have h0 : len = 0 := by omega
    simp only [tdb_pwrite_all_loop, h0, if_true, Option.some.injEq, Prod.mk.injEq] at hr
    obtain ⟨_, rfl⟩ := hr
    exact ⟨[], by simp, fun e he => by cases he⟩
  | succ fuel ih =>
    intro t buf len off ok t' h hr
    unfold tdb_pwrite_all_loop at hr
    by_cases h0 : len = 0
    · simp only [h0, if_true, Option.some.injEq, Prod.mk.injEq] at hr
      obtain ⟨_, rfl⟩ := hr
      exact ⟨[], by simp, fun e he => by cases he⟩
    · simp only [h0, if_false] at hr
      have htr := pwrite_trace t buf len off
      have hfirst : ∀ e ∈ [Event.pwrite off len],
          ∃ done, done < len ∧ e = Event.pwrite (off + done) (len - done) := by
        intro e he
        simp only [List.mem_singleton] at he
        exact ⟨0, by omega, by simpa using he⟩
      obtain ⟨_, hc⟩ := pwrite_spec t buf len off
      rcases hc with ⟨hneg, _⟩ | ⟨hz, _⟩ | ⟨n, hn, hpos, hle, hmax, _⟩
      · simp only [hneg, if_true, Option.some.injEq, Prod.mk.injEq] at hr
        obtain ⟨_, rfl⟩ := hr
        exact ⟨_, htr, hfirst⟩
      · have e1 : ¬ ((pwrite t buf len off).1 < 0) := by rw [hz]; decide
        simp only [e1, hz, if_false, if_true, Option.some.injEq, Prod.mk.injEq] at hr
        obtain ⟨_, rfl⟩ := hr
        exact ⟨_, htr, hfirst⟩
      · have e1 : ¬ ((pwrite t buf len off).1 < 0) := by rw [hn]; omega
        have e2 : ¬ ((pwrite t buf len off).1 = 0) := by rw [hn]; omega
        have hto : (pwrite t buf len off).1.toNat = n := by rw [hn]; simp
        have hmod : (off + n) % U64 = off + n :=
          Nat.mod_eq_of_lt (by have := OFF_MAX_lt_U64; omega)
        simp only [e1, e2, if_false, hto, hmod] at hr
        obtain ⟨l, hl, hev⟩ := ih _ _ _ _ _ _ (by omega) hr
        refine ⟨Event.pwrite off len :: l, by rw [hl, htr]; simp, ?_⟩
        intro e he
        rcases List.mem_cons.mp he with rfl | he'
        · exact ⟨0, by omega, by simp⟩
        · obtain ⟨d, hd, rfl⟩ := hev e he'
          refine ⟨n + d, by omega, ?_⟩
          congr 1 <;> omega

theorem tdb_pwrite_all_loop_succeeds (fuel : Nat) :
    ∀ (t : tdb_context) (buf : List Byte) (len off : Nat),
      len ≤ fuel → (∀ n, 0 < t.sys.pwrite n) → off + len ≤ OFF_MAX →
      ∃ t', tdb_pwrite_all_loop fuel t buf len off = some (true, t') := by
  induction fuel with
  | zero =>
    intro t buf len off h _ _
    have h0 : len = 0 := by omega
    exact ⟨t, by simp [tdb_pwrite_all_loop, h0]⟩
  | succ fuel ih =>
    intro t buf len off h hsys hmax
    unfold tdb_pwrite_all_loop
    by_cases h0 : len = 0
    · exact ⟨t, by simp [h0]⟩
    · simp only [h0, if_false]
      have hprog := pwrite_progress t buf len off (hsys _) (by omega) (by omega)
      obtain ⟨hs, hc⟩ := pwrite_spec t buf len off
      rcases hc with ⟨hneg, _⟩ | ⟨hz, _⟩ | ⟨n, hn, hpos, hle, hmx, _⟩
      · omega
      · omega
      · have e1 : ¬ ((pwrite t buf len off).1 < 0) := by rw [hn]; omega
        have e2 : ¬ ((pwrite t buf len off).1 = 0) := by rw [hn]; omega
        have hto : (pwrite t buf len off).1.toNat = n := by rw [hn]; simp
        have hmod : (off + n) % U64 = off + n :=
          Nat.mod_eq_of_lt (by have := OFF_MAX_lt_U64; omega)
        simp only [e1, e2, if_false, hto, hmod]
        exact ih _ _ _ _ (by omega) (fun k => by rw [hs.sys]; exact hsys k) (by omega)

/-- C13. `tdb_pwrite_all` returns for every buffer, length, offset and every
sequence of answers of `pwrite`, and every call it makes is
`pwrite(fd, buf + done, len - done, off + done)` for some `done < len`.  With
`len = 0` it returns true without a call.  With `len > 0` it returns false
right after a first call that reports an error, returns false with
`errno = ENOSPC` right after a first call without progress, and otherwise goes
on as `tdb_pwrite_all` of the rest of the buffer at the advanced offset.
Whenever it returns true, the store holds `buf[0..len)` at `[off, off+len)`; it
does return true when every call can transfer at least one byte. -/
theorem C13_pwrite_all (t : tdb_context) (buf : List Byte) (len off : Nat) :
    (∃ ok t', tdb_pwrite_all t buf len off = some (ok, t')
      ∧ ∃ l, t'.trace = t.trace ++ l
        ∧ ∀ e ∈ l, ∃ done, done < len ∧ e = Event.pwrite (off + done) (len - done))
    ∧ (len = 0 → tdb_pwrite_all t buf len off = some (true, t))
    ∧ (0 < len →
        ((pwrite t buf len off).1 < 0 →
          tdb_pwrite_all t buf len off = some (false, (pwrite t buf len off).2))
        ∧ ((pwrite t buf len off).1 = 0 →
          tdb_pwrite_all t buf len off
            = some (false, { (pwrite t buf len off).2 with errno := ENOSPC }))
        ∧ (0 < (pwrite t buf len off).1 →
          tdb_pwrite_all t buf len off
            = tdb_pwrite_all (pwrite t buf len off).2
                (buf.drop (pwrite t buf len off).1.toNat)
                (len - (pwrite t buf len off).1.toNat)
                ((off + (pwrite t buf len off).1.toNat) % U64)))
    ∧ (len ≤ buf.length → ∀ t', tdb_pwrite_all t buf len off = some (true, t') →
        t'.store = if len = 0 then t.store else write_at t.store off (buf.take len))
    ∧ ((∀ n, 0 < t.sys.pwrite n) → off + len ≤ OFF_MAX →
        ∃ t', tdb_pwrite_all t buf len off = some (true, t')) := by
  refine ⟨?_, ?_, ?_, ?_, ?_⟩
  · obtain ⟨ok, t', he, _⟩ := tdb_pwrite_all_total t buf len off
    exact ⟨ok, t', he, tdb_pwrite_all_loop_trace len t buf len off ok t' (le_refl _) he⟩
  · intro h0
    subst h0
    simp [tdb_pwrite_all, tdb_pwrite_all_loop]
  · intro hlen
    have hstep := tdb_pwrite_all_step t buf len off hlen
    refine ⟨?_, ?_, ?_⟩
    · intro h
      rw [hstep, if_pos h]
    · intro h
      have e1 : ¬ ((pwrite t buf len off).1 < 0) := by rw [h]; decide
      rw [hstep, if_neg e1, if_pos h]
    · intro h
      have e1 : ¬ ((pwrite t buf len off).1 < 0) := by omega
      have e2 : ¬ ((pwrite t buf len off).1 = 0) := by omega
      rw [hstep, if_neg e1, if_neg e2]
  · intro hb t' hr
    obtain ⟨hz, hp⟩ := tdb_pwrite_all_store t buf len off t' hb hr
    by_cases h0 : len = 0
    · rw [if_pos h0, hz h0]
    · rw [if_neg h0]
      exact (hp (by omega)).2
  · intro hsys hmax
    exact tdb_pwrite_all_loop_succeeds len t buf len off (le_refl _) hsys hmax

/-- C13, at a sample: 5 bytes at offset 3 of an unmapped store of 16 bytes,
`pwrite` ready to transfer 2 bytes a call. -/
theorem C13_pwrite_all_witness :
    ∃ t', tdb_pwrite_all sample_short_writes [1, 2, 3, 4, 5] 5 3 = some (true, t') :=
  (C13_pwrite_all sample_short_writes [1, 2, 3, 4, 5] 5 3).2.2.2.2
    (fun _ => by show (0 : Int) < 2; decide) (by decide)

/-! ## C18: what a write on a read-only handle leaves behind -/

theorem tdb_oob_total (t : tdb_context) (len : Nat) (probe : Bool)
    (ha : oob_assertion t = true) : ∃ r t', tdb_oob t len probe = some (r, t') := by
  unfold tdb_oob
  simp only [ha, Bool.not_true, Bool.false_eq_true, if_false]
  split
  · exact ⟨_, _, rfl⟩
  · split
    · split <;> exact ⟨_, _, rfl⟩
    · split
      · exact ⟨_, _, rfl⟩
      · split
        · exact ⟨_, _, rfl⟩
        · split
          · split <;> exact ⟨_, _, rfl⟩
          · exact ⟨_, _, rfl⟩

theorem tdb_munmap_count_log (t : tdb_context) (lvl : tdb_debug_level) :
    (tdb_munmap t).trace.count (Event.log lvl) = t.trace.count (Event.log lvl) := by
  unfold tdb_munmap; split
  · rfl
  · split
    · simp [emit, List.count_append]
    · rfl

theorem tdb_mmap_count_fatal (t : tdb_context) :
    (tdb_mmap t).trace.count (Event.log TDB_DEBUG_FATAL)
      = t.trace.count (Event.log TDB_DEBUG_FATAL) := by
  unfold tdb_mmap; split
  · rfl
  · split
    · rfl
    · dsimp only; split <;> simp [emit, tick, List.count_append]

theorem tdb_oob_probe_count_fatal (t : tdb_context) (len : Nat) (r : Int) (t' : tdb_context)
    (h : tdb_oob t len true = some (r, t')) :
    t'.trace.count (Event.log TDB_DEBUG_FATAL) = t.trace.count (Event.log TDB_DEBUG_FATAL) := by
  unfold tdb_oob at h
  split at h
  · cases h
  · split at h
    · simp only [Option.some.injEq, Prod.mk.injEq] at h
      obtain ⟨_, rfl⟩ := h
      rfl
    · split at h
      · simp only [Bool.not_true, Bool.false_eq_true, if_false, Option.some.injEq,
          Prod.mk.injEq] at h
        obtain ⟨_, rfl⟩ := h
        rfl
      · split at h
        · simp only [Option.some.injEq, Prod.mk.injEq] at h
          obtain ⟨_, rfl⟩ := h
          simp [tick, List.count_append]
        · dsimp only at h
          split at h
          · simp only [Option.some.injEq, Prod.mk.injEq] at h
            obtain ⟨_, rfl⟩ := h
            simp [tick, emit, List.count_append]
          · split at h
            · simp only [Bool.not_true, Bool.false_eq_true, if_false, Option.some.injEq,
                Prod.mk.injEq] at h
              obtain ⟨_, rfl⟩ := h
              simp [tick, emit, List.count_append]
            · simp only [Option.some.injEq, Prod.mk.injEq] at h
              obtain ⟨_, rfl⟩ := h
              rw [tdb_mmap_count_fatal]
              show (tdb_munmap _).trace.count _ = _
              rw [tdb_munmap_count_log]
              simp [tick, emit, List.count_append]

theorem tdb_direct_count_fatal (t : tdb_context) (off len p : Nat) (t' : tdb_context)
    (h : tdb_direct t off len = some (p, t')) :
    t'.trace.count (Event.log TDB_DEBUG_FATAL) = t.trace.count (Event.log TDB_DEBUG_FATAL) := by
  unfold tdb_direct at h
  split at h
  · simp only [Option.some.injEq, Prod.mk.injEq] at h
    obtain ⟨_, rfl⟩ := h
    rfl
  · cases ho : tdb_oob t ((off + len) % U64) true with
    | none => rw [ho] at h; simp at h
    | some q =>
      obtain ⟨r1, t1⟩ := q
      rw [ho] at h
      have hc := tdb_oob_probe_count_fatal _ _ _ _ ho
      dsimp only at h
      split at h <;>
      · simp only [Option.some.injEq, Prod.mk.injEq] at h
        obtain ⟨_, rfl⟩ := h
        exact hc

theorem tdb_direct_total (t : tdb_context) (off len : Nat)
    (ha : oob_assertion t = true ∨ t.map_ptr = 0) :
    ∃ p t', tdb_direct t off len = some (p, t') := by
  unfold tdb_direct
  by_cases hp : t.map_ptr = 0
  · exact ⟨0, t, by simp [hp]⟩
  · have ha' : oob_assertion t = true := by
      rcases ha with h | h
      · exact h
      · exact absurd h hp
    obtain ⟨r, t', ho⟩ := tdb_oob_total t ((off + len) % U64) true ha'
    simp only [hp, if_false, ho]
    split <;> exact ⟨_, _, rfl⟩

/-- C18, refuted as stated: on a read-only handle `tdb_write` of 8 bytes returns
`-1` with `ecode = TDB_ERR_RDONLY`, and the trace of calls is as empty as
before: the log sink is not called. -/
theorem C18_read_only_logged_counterexample :
    sample_read_only.read_only = true ∧ sample_read_only.trace = []
    ∧ ∃ tdb', tdb_write sample_read_only 4 [1, 2, 3, 4, 5, 6, 7, 8] 8 = some (-1, tdb')
        ∧ tdb'.ecode = TDB_ERR_RDONLY ∧ tdb'.trace = [] :=
  ⟨rfl, rfl, _, rfl, rfl, rfl⟩

/-- C18, amended. On a read-only handle every write attempt through this layer
fails with `ecode = TDB_ERR_RDONLY` latched on the handle, and none calls the
log sink at fatal severity: `tdb_write` with `len > 0`, `tdb_access_write`,
`tdb_write_off` and `tdb_expand_file` make no call at all, and `zero_out`
(called as the assert of `tdb_oob` requires, or without a mapping) makes only
the calls of its request for a direct pointer, none of them a fatal log, and
leaves the store alone. -/
theorem C18_read_only_latched (tdb : tdb_context) (hro : tdb.read_only = true)
    (off len val addition : Nat) (convert : Bool) (buf : List Byte) :
    (0 < len → ∃ tdb', tdb_write tdb off buf len = some (-1, tdb')
        ∧ tdb'.ecode = TDB_ERR_RDONLY ∧ tdb'.trace = tdb.trace)
    ∧ (∃ tdb', tdb_access_write tdb off len convert = some (none, tdb')
        ∧ tdb'.ecode = TDB_ERR_RDONLY ∧ tdb'.trace = tdb.trace)
    ∧ (∃ tdb', tdb_write_off tdb off val = some (-1, tdb')
        ∧ tdb'.ecode = TDB_ERR_RDONLY ∧ tdb'.trace = tdb.trace)
    ∧ (∃ tdb', tdb_expand_file tdb addition = some (-1, tdb')
        ∧ tdb'.ecode = TDB_ERR_RDONLY ∧ tdb'.trace = tdb.trace)
    ∧ (oob_assertion tdb = true ∨ tdb.map_ptr = 0 →
        ∃ tdb', zero_out tdb off len = some (-1, tdb')
          ∧ tdb'.ecode = TDB_ERR_RDONLY
          ∧ tdb'.trace.count (Event.log TDB_DEBUG_FATAL)
              = tdb.trace.count (Event.log TDB_DEBUG_FATAL)
          ∧ tdb'.store = tdb.store
          ∧ ∃ p t1, tdb_direct tdb off len = some (p, t1) ∧ tdb'.trace = t1.trace) := by
  refine ⟨?_, ?_, ?_, ?_, ?_⟩
  · intro hlen
    have : len ≠ 0 := by omega
    exact ⟨{ tdb with ecode := TDB_ERR_RDONLY }, by simp [tdb_write, hro, this], rfl, rfl⟩
  · exact ⟨{ tdb with ecode := TDB_ERR_RDONLY }, by simp [tdb_access_write, hro], rfl, rfl⟩
  · exact ⟨{ tdb with ecode := TDB_ERR_RDONLY }, by simp [tdb_write_off, hro], rfl, rfl⟩
  · exact ⟨{ tdb with ecode := TDB_ERR_RDONLY }, by simp [tdb_expand_file, hro], rfl, rfl⟩
  · intro ha
    obtain ⟨p, t1, hd⟩ := tdb_direct_total tdb off len ha
    have hf := (tdb_direct_spec _ _ _ _ _ hd).1
    have hc := tdb_direct_count_fatal _ _ _ _ _ hd
    have hro1 : t1.read_only = true := by rw [hf.read_only]; exact hro
    refine ⟨{ t1 with ecode := TDB_ERR_RDONLY }, ?_, rfl, hc,
      (tdb_direct_spec _ _ _ _ _ hd).2.1, p, t1, hd, rfl⟩
    unfold zero_out
    rw [hd]
    simp [hro1]

/-- C18 amended, at a sample: `zero_out` of 8 bytes at offset 4 of a read-only
handle. -/
theorem C18_read_only_latched_witness :
    ∃ tdb', zero_out sample_read_only 4 8 = some (-1, tdb')
      ∧ tdb'.ecode = TDB_ERR_RDONLY
      ∧ tdb'.trace.count (Event.log TDB_DEBUG_FATAL)
          = sample_read_only.trace.count (Event.log TDB_DEBUG_FATAL)
      ∧ tdb'.store = sample_read_only.store
      ∧ ∃ p t1, tdb_direct sample_read_only 4 8 = some (p, t1) ∧ tdb'.trace = t1.trace :=
  (C18_read_only_latched sample_read_only rfl 4 8 0 0 false []).2.2.2.2
    (Or.inl (by decide))

/-! ## C15: the cached size and the true size -/

theorem pwrite_length (t : tdb_context) (buf : List Byte) (len off : Nat) :
    t.store.length ≤ (pwrite t buf len off).2.store.length := by
  rcases (pwrite_spec t buf len off).2 with ⟨_, h⟩ | ⟨_, h⟩ | ⟨n, _, _, _, _, h⟩
  · rw [h]
  · rw [h]
  · rw [h, write_at_length]
    exact le_max_left _ _

theorem tdb_pwrite_all_loop_length (fuel : Nat) :
    ∀ (t : tdb_context) (buf : List Byte) (len off : Nat) (ok : Bool) (t' : tdb_context),
      tdb_pwrite_all_loop fuel t buf len off = some (ok, t') →
      t.store.length ≤ t'.store.length := by
  induction fuel with
  | zero =>
    intro t buf len off ok t' h
    unfold tdb_pwrite_all_loop at h
    split at h
    · simp only [Option.some.injEq, Prod.mk.injEq] at h
      rw [← h.2]
    · cases h
  | succ fuel ih =>
    intro t buf len off ok t' h
    unfold tdb_pwrite_all_loop at h
    have hp := pwrite_length t buf len off
    split at h
    · simp only [Option.some.injEq, Prod.mk.injEq] at h
      rw [← h.2]
    · dsimp only at h
      split at h
      · simp only [Option.some.injEq, Prod.mk.injEq] at h
        rw [← h.2]
        exact hp
      · split at h
        · simp only [Option.some.injEq, Prod.mk.injEq] at h
          rw [← h.2]
          exact hp
        · exact le_trans hp (ih _ _ _ _ _ _ h)

theorem fill_loop_length (fuel : Nat) :
    ∀ (t : tdb_context) (buf : List Byte) (size off len : Nat) (r : Int) (t' : tdb_context),
      fill_loop fuel t buf size off len = some (r, t') →
      t.store.length ≤ t'.store.length := by
  induction fuel with
  | zero =>
    intro t buf size off len r t' h
    unfold fill_loop at h
    split at h
    · simp only [Option.some.injEq, Prod.mk.injEq] at h
      rw [← h.2]
    · cases h
  | succ fuel ih =>
    intro t buf size off len r t' h
    unfold fill_loop at h
    split at h
    · simp only [Option.some.injEq, Prod.mk.injEq] at h
      rw [← h.2]
    · dsimp only at h
      cases hw : tdb_pwrite_all t buf (if len > size then size else len) off with
      | none => rw [hw] at h; cases h
      | some q =>
        obtain ⟨ok, t1⟩ := q
        have h1 : t.store.length ≤ t1.store.length :=
          tdb_pwrite_all_loop_length _ _ _ _ _ _ _ hw
        rw [hw] at h
        dsimp only at h
        split at h
        · simp only [Option.some.injEq, Prod.mk.injEq] at h
          rw [← h.2]
          exact h1
        · exact le_trans h1 (ih _ _ _ _ _ _ _ h)

/-- The cached size stays within the true size over `tdb_oob`, whatever the
arguments and the outcome. -/
theorem tdb_oob_keeps_size_bound (t : tdb_context) (len : Nat) (probe : Bool) (r : Int)
    (t' : tdb_context) (h : tdb_oob t len probe = some (r, t'))
    (hinv : t.map_size ≤ t.store.length) : t'.map_size ≤ t'.store.length := by
  unfold tdb_oob at h
  split at h
  · cases h
  · split at h
    · simp only [Option.some.injEq, Prod.mk.injEq] at h
      rw [← h.2]; exact hinv
    · split at h
      · split at h <;>
        · simp only [Option.some.injEq, Prod.mk.injEq] at h
          rw [← h.2]; exact hinv
      · split at h
        · simp only [Option.some.injEq, Prod.mk.injEq] at h
          rw [← h.2]; exact hinv
        · dsimp only at h
          split at h
          · simp only [Option.some.injEq, Prod.mk.injEq] at h
            rw [← h.2]; exact hinv
          · split at h
            · split at h <;>
              · simp only [Option.some.injEq, Prod.mk.injEq] at h
                rw [← h.2]; exact hinv
            · simp only [Option.some.injEq, Prod.mk.injEq] at h
              rw [← h.2]
              simp only [tdb_mmap_map_size, tdb_mmap_store, tdb_munmap_store, emit_store,
                tick_store]
              exact le_refl _

theorem realloc_size (t : tdb_context) (size : Nat) :
    ((realloc t size).1 = 0 →
      (realloc t size).2.map_size = t.map_size ∧ (realloc t size).2.store = t.store)
    ∧ ((realloc t size).1 ≠ 0 → (realloc t size).2.store.length = size) := by
  unfold realloc
  dsimp only
  by_cases ha : t.sys.realloc t.clock = 0
  · rw [if_pos ha]
    exact ⟨fun _ => ⟨rfl, rfl⟩, fun h => absurd rfl h⟩
  · rw [if_neg ha]
    refine ⟨fun h => absurd h ha, fun _ => ?_⟩
    simp only [List.length_append, List.length_take, uninitialised, List.length_map,
      List.length_range, tick_store]
    omega

/-- The cached size stays within the true size over `tdb_expand_file`, success
or failure, whenever `map_size + addition` does not wrap on a file-backed
handle. -/
theorem tdb_expand_file_keeps_size_bound (t : tdb_context) (addition : Nat) (r : Int)
    (t' : tdb_context) (h : tdb_expand_file t addition = some (r, t'))
    (hinv : t.map_size ≤ t.store.length)
    (hsum : t.TDB_INTERNAL = false → t.map_size + addition < U64) :
    t'.map_size ≤ t'.store.length := by
  unfold tdb_expand_file at h
  split at h
  · simp only [Option.some.injEq, Prod.mk.injEq] at h
    rw [← h.2]; exact hinv
  · split at h
    · dsimp only at h
      obtain ⟨hfail, hok⟩ := realloc_size t ((t.map_size + addition) % U64)
      split at h
      · rename_i ha
        simp only [Option.some.injEq, Prod.mk.injEq] at h
        rw [← h.2]
        show (realloc t ((t.map_size + addition) % U64)).2.map_size
          ≤ (realloc t ((t.map_size + addition) % U64)).2.store.length
        rw [(hfail ha).1, (hfail ha).2]
        exact hinv
      · rename_i ha
        simp only [Option.some.injEq, Prod.mk.injEq] at h
        rw [← h.2]
        show (t.map_size + addition) % U64
          ≤ (realloc t ((t.map_size + addition) % U64)).2.store.length
        rw [hok ha]
    · rename_i hint
      have hint' : t.TDB_INTERNAL = false := by simpa using hint
      have hs := hsum hint'
      dsimp only at h
      rw [Nat.mod_eq_of_lt (by rw [tdb_munmap_map_size]; exact hs)] at h
      have hft := ftruncate_spec (tdb_munmap t) ((tdb_munmap t).map_size + addition)
      have hlen2 : t.map_size ≤ (ftruncate (tdb_munmap t)
          ((tdb_munmap t).map_size + addition)).store.length := by
        rcases hft.2 with he | he
        · rw [he, tdb_munmap_store]; exact hinv
        · rw [he, tdb_munmap_store, tdb_munmap_map_size]
          simp only [List.length_append, List.length_take, List.length_replicate]
          omega
      have hms : (ftruncate (tdb_munmap t) ((tdb_munmap t).map_size + addition)).map_size
          = t.map_size := by
        rw [hft.1.map_size, tdb_munmap_map_size]
      rw [hms] at h
      cases hfill : fill (ftruncate (tdb_munmap t) ((tdb_munmap t).map_size + addition))
          (List.replicate 8192 0x43) 8192 t.map_size addition with
      | none => rw [hfill] at h; cases h
      | some q =>
        obtain ⟨r1, t1⟩ := q
        rw [hfill] at h
        dsimp only at h
        obtain ⟨r2, t2, hfill2, hst, hr01⟩ := fill_total
          (ftruncate (tdb_munmap t) ((tdb_munmap t).map_size + addition))
          (List.replicate 8192 0x43) 8192 t.map_size addition (by decide)
        rw [hfill] at hfill2
        simp only [Option.some.injEq, Prod.mk.injEq] at hfill2
        obtain ⟨rfl, rfl⟩ := hfill2
        have hms1 : t1.map_size = t.map_size := by rw [hst.map_size, hms]
        have hmono : (ftruncate (tdb_munmap t) ((tdb_munmap t).map_size + addition)).store.length
            ≤ t1.store.length := fill_loop_length _ _ _ _ _ _ _ _ hfill
        split at h
        · simp only [Option.some.injEq, Prod.mk.injEq] at h
          rw [← h.2, hms1]
          exact le_trans hlen2 hmono
        · rename_i hr
          have hr0 : r1 = 0 := by
            rcases hr01 with h0 | h0
            · exact h0
            · exact absurd h0 hr
          subst hr0
          simp only [Option.some.injEq, Prod.mk.injEq] at h
          rw [← h.2]
          simp only [tdb_mmap_map_size, tdb_mmap_store]
          rw [hms1, Nat.mod_eq_of_lt hs]
          obtain ⟨hz, hpos⟩ := fill_store _ _ _ _ _ _ (by decide) hfill
          by_cases h0 : addition = 0
          · rw [hz h0]
            have := hlen2
            omega
          · rw [(hpos (by omega)).2, write_at_length, List.length_replicate]
            exact le_max_right _ _

/-- C15, the code at the failing input: on `sample_fill_fails` (file-backed,
`map_size = 16`, a store of 16 bytes, so `map_size ≤` true size) the addition
`2^64 - 8` makes `map_size + addition` wrap to `8`; `ftruncate(fd, 8)` succeeds
and cuts the store to 8 bytes, the first `pwrite` of the fill fails, and
`tdb_expand_file` returns `-1` with `map_size` still `16`, above the true size
`8`. -/
theorem C15_expand_wrap_breaks_size_invariant :
    sample_fill_fails.TDB_INTERNAL = false
    ∧ sample_fill_fails.map_size ≤ sample_fill_fails.store.length
    ∧ ∃ tdb', tdb_expand_file sample_fill_fails (2 ^ 64 - 8) = some (-1, tdb')
        ∧ tdb'.map_size = 16 ∧ tdb'.store.length = 8
        ∧ ¬ (tdb'.map_size ≤ tdb'.store.length) :=
  ⟨rfl, by decide, _, rfl, rfl, rfl, by decide⟩

/-! ## C14: zero fill -/

theorem tdb_write_ret (t : tdb_context) (off : Nat) (buf : List Byte) (len : Nat) (r : Int)
    (t' : tdb_context) (h : tdb_write t off buf len = some (r, t')) : r = 0 ∨ r = -1 := by
  unfold tdb_write at h
  split at h
  · simp only [Option.some.injEq, Prod.mk.injEq] at h
    exact Or.inl h.1.symm
  · split at h
    · simp only [Option.some.injEq, Prod.mk.injEq] at h
      exact Or.inr h.1.symm
    · split at h
      · cases h
      · split at h
        · simp only [Option.some.injEq, Prod.mk.injEq] at h
          exact Or.inr h.1.symm
        · split at h
          · split at h
            · simp only [Option.some.injEq, Prod.mk.injEq] at h
              exact Or.inl h.1.symm
            · cases h
          · split at h
            · cases h
            · split at h
              · simp only [Option.some.injEq, Prod.mk.injEq] at h
                exact Or.inr h.1.symm
              · simp only [Option.some.injEq, Prod.mk.injEq] at h
                exact Or.inl h.1.symm

theorem zero_out_loop_store (fuel : Nat) :
    ∀ (t : tdb_context) (off len : Nat) (t' : tdb_context), len ≤ fuel →
      off + len ≤ t.store.length → off + len < U64 →
      zero_out_loop fuel t off len = some (0, t') →
      Frame t t'
      ∧ t'.store = if len = 0 then t.store else write_at t.store off (List.replicate len 0) := by
  induction fuel with
  | zero =>
    intro t off len t' h _ _ hr
    have h0 : len = 0 := by omega
    simp only [zero_out_loop, h0, if_true, Option.some.injEq, Prod.mk.injEq, true_and] at hr
    subst hr
    exact ⟨Frame.same _, by simp [h0]⟩
  | succ fuel ih =>
    intro t off len t' h hin hno hr
    unfold zero_out_loop at hr
    by_cases h0 : len = 0
    · simp only [h0, if_true, Option.some.injEq, Prod.mk.injEq, true_and] at hr
      subst hr
      exact ⟨Frame.same _, by simp [h0]⟩
    · simp only [h0, if_false] at hr
      generalize hn : (if len < 8192 then len else 8192) = n at hr
      have hn1 : 0 < n := by rw [← hn]; split <;> omega
      have hn2 : n ≤ len := by rw [← hn]; split <;> omega
      have hn3 : n ≤ 8192 := by rw [← hn]; split <;> omega
      cases hw : tdb_write t off (List.replicate 8192 0) n with
      | none => rw [hw] at hr; simp at hr
      | some q =>
        obtain ⟨r, t1⟩ := q
        rw [hw] at hr
        dsimp only at hr
        have hret := tdb_write_ret _ _ _ _ _ _ hw
        obtain ⟨hf, _, _, _, hpos⟩ := tdb_write_spec _ _ _ _ _ _
          (by rw [List.length_replicate]; exact hn3) hw
        rcases hret with rfl | rfl
        · simp only [show ¬ ((0 : Int) = -1) by decide, if_false] at hr
          obtain ⟨_, hst⟩ := hpos rfl hn1
          have htk : (List.replicate 8192 (0 : Byte)).take n = List.replicate n 0 := by
            rw [List.take_replicate, Nat.min_eq_left hn3]
          rw [htk] at hst
          have hlen1 : t1.store.length = t.store.length := by
            rw [hst, write_at_length_of_le _ _ _ (by rw [List.length_replicate]; omega)]
          have hmod : (off + n) % U64 = off + n := Nat.mod_eq_of_lt (by omega)
          rw [hmod] at hr
          obtain ⟨hf2, hst2⟩ := ih t1 (off + n) (len - n) t' (by omega)
            (by rw [hlen1]; omega) (by omega) hr
          refine ⟨hf.trans hf2, ?_⟩
          rw [hst2, if_neg h0]
          by_cases hrest : len - n = 0
          · have hn' : n = len := by omega
            rw [if_pos hrest, hst, hn']
          · rw [if_neg hrest, hst]
            have := write_at_write_at t.store off (List.replicate n 0)
              (List.replicate (len - n) 0)
            rw [List.length_replicate] at this
            rw [this, List.append_replicate_replicate]
            congr 2
            omega
        · simp at hr

theorem zero_out_store (t : tdb_context) (off len : Nat) (t' : tdb_context)
    (hin : off + len ≤ t.store.length) (hno : off + len < U64)
    (h : zero_out t off len = some (0, t')) :
    Frame t t'
    ∧ t'.store = if len = 0 then t.store else write_at t.store off (List.replicate len 0) := by
  unfold zero_out at h
  cases hd : tdb_direct t off len with
  | none => rw [hd] at h; simp at h
  | some q =>
    obtain ⟨p, t1⟩ := q
    rw [hd] at h
    dsimp only at h
    obtain ⟨hf, hst, _, _, _, _, _⟩ := tdb_direct_spec _ _ _ _ _ hd
    split at h
    · simp at h
    · split at h
      · split at h
        · rename_i h0
          simp only [Option.some.injEq, Prod.mk.injEq, true_and] at h
          subst h
          exact ⟨hf, by rw [if_pos h0, hst]⟩
        · rename_i h0
          split at h
          · simp only [Option.some.injEq, Prod.mk.injEq, true_and] at h
            subst h
            exact ⟨hf.trans (steady_store _ _).toFrame, by
              show write_at t1.store off _ = _
              rw [if_neg h0, hst]⟩
          · cases h
      · obtain ⟨hf2, hst2⟩ := zero_out_loop_store len t1 off len t' (le_refl _)
          (by rw [hst]; exact hin) hno h
        exact ⟨hf.trans hf2, by rw [hst2, hst]⟩

theorem zeroed_get (s : List Byte) (off len i : Nat) :
    (zeroed s off len)[i]? =
      if i < s.length then (if off ≤ i ∧ i < off + len then some 0 else s[i]?) else none := by
  unfold zeroed
  rw [List.getElem?_map]
  by_cases hi : i < s.length
  · rw [List.getElem?_range hi, if_pos hi]
    simp only [Option.map_some']
    split
    · rfl
    · rw [List.getD_eq_getElem?_getD, List.getElem?_eq_getElem hi]
      rfl
  · rw [if_neg hi, List.getElem?_eq_none (by simpa using hi)]
    rfl

theorem write_zeros_eq_zeroed (s : List Byte) (off len : Nat) (hin : off + len ≤ s.length) :
    (if len = 0 then s else write_at s off (List.replicate len 0)) = zeroed s off len := by
  apply List.ext_getElem?
  intro i
  rw [zeroed_get]
  by_cases hi : i < s.length
  · rw [if_pos hi]
    by_cases h0 : len = 0
    · rw [if_pos h0, if_neg (by omega)]
    · rw [if_neg h0, write_at_get, List.length_replicate]
      by_cases h1 : i < off
      · have hr : ¬ (off ≤ i ∧ i < off + len) := by omega
        rw [if_neg hr, if_pos h1, if_pos hi]
      · by_cases h2 : i < off + len
        · have hr : off ≤ i ∧ i < off + len := ⟨by omega, h2⟩
          rw [if_pos hr, if_neg h1, if_pos h2, List.getElem?_replicate, if_pos (by omega)]
        · have hr : ¬ (off ≤ i ∧ i < off + len) := by omega
          rw [if_neg hr, if_neg h1, if_neg h2]
  · rw [if_neg hi]
    by_cases h0 : len = 0
    · rw [if_pos h0, List.getElem?_eq_none (by omega)]
    · rw [if_neg h0, List.getElem?_eq_none]
      rw [write_at_length_of_le _ _ _ (by rw [List.length_replicate]; exact hin)]
      omega

/-- C14. For `[off, off+len)` inside a store no longer than `OFF_MAX`: when
`zero_out` returns `0`, the store is the one the specification asks for
(`zeroed`): every byte of `[off, off+len)` is zero and every byte outside is
as it was.  The path does not matter: any handle on the same bytes that returns
`0`, cleared in place or streamed through the write method, ends on the same
store. -/
theorem C14_zero_out (tdb : tdb_context) (off len : Nat) (tdb' : tdb_context)
    (hin : off + len ≤ tdb.store.length) (hfile : tdb.store.length ≤ OFF_MAX)
    (h : zero_out tdb off len = some (0, tdb')) :
    tdb'.store = zeroed tdb.store off len
    ∧ (∀ i, off ≤ i → i < off + len → tdb'.store[i]? = some 0)
    ∧ (∀ i, i < off ∨ off + len ≤ i → tdb'.store[i]? = tdb.store[i]?)
    ∧ (∀ other other', other.store = tdb.store →
        zero_out other off len = some (0, other') → other'.store = tdb'.store) := by
  have hlt := OFF_MAX_lt_U64
  have hno : off + len < U64 := by omega
  have hst : tdb'.store = zeroed tdb.store off len := by
    rw [(zero_out_store tdb off len tdb' hin hno h).2]
    exact write_zeros_eq_zeroed _ _ _ hin
  refine ⟨hst, ?_, ?_, ?_⟩
  · intro i h1 h2
    rw [hst, zeroed_get, if_pos (by omega), if_pos ⟨h1, h2⟩]
  · intro i hi
    rw [hst, zeroed_get]
    by_cases hl : i < tdb.store.length
    · rw [if_pos hl, if_neg (by omega)]
    · rw [if_neg hl, List.getElem?_eq_none (by omega)]
  · intro other other' hsame ho
    rw [hst, (zero_out_store other off len other' (by rw [hsame]; exact hin) hno ho).2,
      hsame]
    exact write_zeros_eq_zeroed _ _ _ hin

/-- C14, at a sample: 8 bytes at offset 4 of an unmapped store are zeroed
through the write method, `pwrite` transferring 2 bytes a call, and the mapped
handle on the same bytes, which clears in place, ends on the same store. -/
theorem C14_zero_out_witness :
    sample_zeroed.store = zeroed sample_short_writes.store 4 8
    ∧ (∀ i, 4 ≤ i → i < 4 + 8 → sample_zeroed.store[i]? = some 0)
    ∧ (∀ i, i < 4 ∨ 4 + 8 ≤ i → sample_zeroed.store[i]? = sample_short_writes.store[i]?)
    ∧ (∀ other other', other.store = sample_short_writes.store →
        zero_out other 4 8 = some (0, other') → other'.store = sample_zeroed.store) :=
  C14_zero_out sample_short_writes 4 8 sample_zeroed (by decide) (by decide) rfl

/-! ## C11, C12: the scans -/

theorem le_decode_eq_zero (w : List Byte) : le_decode w = 0 ↔ ∀ b ∈ w, b = 0 := by
  induction w with
  | nil => simp [le_decode]
  | cons b w ih =>
    have hc : le_decode (b :: w) = b + 256 * le_decode w := rfl
    rw [hc, List.forall_mem_cons, ← ih]
    constructor
    · intro h
      have h1 : b = 0 := Nat.eq_zero_of_add_eq_zero_right h
      have h2 : 256 * le_decode w = 0 := Nat.eq_zero_of_add_eq_zero_left h
      exact ⟨h1, (Nat.mul_eq_zero.mp h2).resolve_left (by decide)⟩
    · rintro ⟨h1, h2⟩
      rw [h1, h2]

theorem host_decode_eq_zero (big : Bool) (w : List Byte) :
    host_decode big w = 0 ↔ ∀ b ∈ w, b = 0 := by
  unfold host_decode
  cases big with
  | false => simpa using le_decode_eq_zero w
  | true =>
    simp only [if_true]
    rw [le_decode_eq_zero]
    simp

theorem host_decode_bswap_eq_zero (big : Bool) (w : List Byte) :
    host_decode big (bswap_64 w) = 0 ↔ host_decode big w = 0 := by
  rw [host_decode_eq_zero, host_decode_eq_zero, bswap_64]
  simp

theorem slice_slice (s : List Byte) (off L a b : Nat) (h : a + b ≤ L) :
    slice (slice s off L) a b = slice s (off + a) b := by
  apply List.ext_getElem?
  intro i
  rw [slice_get, slice_get, slice_get]
  by_cases hi : i < b
  · rw [if_pos hi, if_pos (by omega), if_pos hi]
    congr 1
    omega
  · rw [if_neg hi, if_neg hi]

theorem scan_zero_spec (fuel : Nat) :
    ∀ (val : Nat → Option Nat) (vals : Nat → Nat) (num i : Nat),
      (∀ j, j < num → val j = some (vals j)) → i ≤ num → num ≤ fuel + i →
      ∃ r, scan_zero fuel val num i = some r ∧ i ≤ r ∧ r ≤ num
        ∧ (∀ j, i ≤ j → j < r → vals j ≠ 0) ∧ (r < num → vals r = 0) := by
  induction fuel with
  | zero =>
    intro val vals num i _ h1 h2
    have : i = num := by omega
    subst this
    exact ⟨i, rfl, le_refl _, le_refl _, fun j _ _ => by omega, fun h => by omega⟩
  | succ fuel ih =>
    intro val vals num i hval h1 h2
    unfold scan_zero
    by_cases hi : i < num
    · rw [if_pos hi, hval i hi]
      dsimp only
      by_cases hz : vals i = 0
      · rw [if_pos hz]
        exact ⟨i, rfl, le_refl _, by omega, fun j _ _ => by omega, fun _ => hz⟩
      · rw [if_neg hz]
        obtain ⟨r, hr, hr1, hr2, hr3, hr4⟩ := ih val vals num (i + 1) hval (by omega) (by omega)
        refine ⟨r, hr, by omega, hr2, ?_, hr4⟩
        intro j hj1 hj2
        by_cases hji : j = i
        · rw [hji]; exact hz
        · exact hr3 j (by omega) hj2
    · rw [if_neg hi]
      have : i = num := by omega
      subst this
      exact ⟨i, rfl, le_refl _, le_refl _, fun j _ _ => by omega, fun h => by omega⟩

theorem scan_nonzero_spec (fuel : Nat) :
    ∀ (val : Nat → Option Nat) (vals : Nat → Nat) (n i : Nat),
      (∀ j, j < n → val j = some (vals j)) → i ≤ n → n ≤ fuel + i →
      ∃ r, scan_nonzero fuel val n i = some r ∧ i ≤ r ∧ r ≤ n
        ∧ (∀ j, i ≤ j → j < r → vals j = 0) ∧ (r < n → vals r ≠ 0) := by
  induction fuel with
  | zero =>
    intro val vals n i _ h1 h2
    have : i = n := by omega
    subst this
    exact ⟨i, rfl, le_refl _, le_refl _, fun j _ _ => by omega, fun h => by omega⟩
  | succ fuel ih =>
    intro val vals n i hval h1 h2
    unfold scan_nonzero
    by_cases hi : i < n
    · rw [if_pos hi, hval i hi]
      dsimp only
      by_cases hz : vals i = 0
      · rw [if_neg (not_not.mpr hz)]
        obtain ⟨r, hr, hr1, hr2, hr3, hr4⟩ := ih val vals n (i + 1) hval (by omega) (by omega)
        refine ⟨r, hr, by omega, hr2, ?_, hr4⟩
        intro j hj1 hj2
        by_cases hji : j = i
        · rw [hji]; exact hz
        · exact hr3 j (by omega) hj2
      · rw [if_pos hz]
        exact ⟨i, rfl, le_refl _, by omega, fun j _ _ => by omega, fun _ => hz⟩
    · rw [if_neg hi]
      have : i = n := by omega
      subst this
      exact ⟨i, rfl, le_refl _, le_refl _, fun j _ _ => by omega, fun h => by omega⟩

theorem tdb_access_release_defined (t : tdb_context) (v : View)
    (hkind : v.made_direct = true → is_direct t v.ptr = true) :
    ∃ t2, tdb_access_release t v = some t2 ∧ t2.store = t.store := by
  unfold tdb_access_release
  by_cases hd : is_direct t v.ptr = true
  · exact ⟨{ t with direct_access := t.direct_access - 1 }, by rw [if_pos hd], rfl⟩
  · rw [if_neg hd]
    cases v with
    | direct p o l => exact absurd (hkind rfl) hd
    | shadow p h b => exact ⟨_, rfl, rfl⟩

theorem read_view_data (t : tdb_context) (off len : Nat) (v : View) (t1 : tdb_context)
    (data : List Byte)
    (hr : tdb_access_read t off len false = some (some v, t1))
    (hload : view_load t1 v = some data) :
    t1.store = t.store ∧ t1.sys = t.sys ∧ data = slice t.store off len
      ∧ data.length = len := by
  obtain ⟨_, hf, hst, _, hv⟩ := tdb_access_read_spec _ _ _ _ _ _ hr
  refine ⟨hst, hf.sys, ?_⟩
  rcases hv with ⟨p, rfl, _, _, _, _⟩ | ⟨p, d, rfl, hdl, hd, _⟩
  · unfold view_load at hload
    dsimp only at hload
    split at hload
    · rename_i hc
      simp only [Option.some.injEq] at hload
      subst hload
      refine ⟨by rw [hst], ?_⟩
      have hm := hc.2.2
      simp only [mapped, decide_eq_true_eq, Bool.decide_or, Bool.decide_and,
        Bool.or_eq_true, Bool.and_eq_true] at hm
      rcases hm with hz | ⟨_, hl⟩
      · subst hz; simp [slice]
      · exact slice_length _ _ _ hl
    · cases hload
  · simp only [view_load, Option.some.injEq] at hload
    subst hload
    simp only [Bool.false_eq_true, if_false] at hd
    exact ⟨hd, hdl⟩

theorem slice_length_le (s : List Byte) (off len : Nat) : (slice s off len).length ≤ len := by
  unfold slice
  rw [List.length_take]
  exact Nat.min_le_left _ _

/-- A word of a view whose bytes can be loaded is the word of those bytes. -/
theorem view_word_of_load (t : tdb_context) (v : View) (data : List Byte) (k : Nat)
    (hload : view_load t v = some data) (hk : 8 * k + 8 ≤ data.length) :
    view_word t v k = word t.sys.big_endian data k := by
  cases v with
  | direct p off len =>
    unfold view_load at hload
    dsimp only at hload
    split at hload
    · rename_i hc
      simp only [Option.some.injEq] at hload
      subst hload
      have hlen := slice_length_le t.store off len
      have hm := hc.2.2
      simp only [mapped, decide_eq_true_eq, Bool.decide_or, Bool.decide_and,
        Bool.or_eq_true, Bool.and_eq_true] at hm
      rcases hm with hz | ⟨h1, h2⟩
      · omega
      · have hm2 : mapped t (off + 8 * k) 8 = true := by
          simp only [mapped, decide_eq_true_eq, Bool.decide_or, Bool.decide_and,
            Bool.or_eq_true, Bool.and_eq_true]
          exact Or.inr ⟨by omega, by omega⟩
        unfold view_word word
        dsimp only
        rw [if_pos ⟨hc.1, hc.2.1, hm2⟩, if_pos hk, slice_slice _ _ _ _ _ (by omega)]
    · cases hload
  | shadow p h b =>
    simp only [view_load, Option.some.injEq] at hload
    subst hload
    rfl

/-- The view of a read borrow of at least one byte that `tdb_direct` made is
classified as direct by `is_direct`, when the mapping does not wrap the address
space. -/
theorem read_view_kind (t : tdb_context) (off len : Nat) (v : View) (t1 : tdb_context)
    (data : List Byte)
    (hr : tdb_access_read t off len false = some (some v, t1))
    (hload : view_load t1 v = some data) (hpos : 0 < len)
    (hmap : t1.map_ptr + t1.map_size < U64) :
    v.made_direct = true → is_direct t1 v.ptr = true := by
  intro hmade
  obtain ⟨_, _, _, _, hv⟩ := tdb_access_read_spec _ _ _ _ _ _ hr
  rcases hv with ⟨p, rfl, hp0, hp, _, _⟩ | ⟨p, d, rfl, _⟩
  · unfold view_load at hload
    dsimp only at hload
    split at hload
    · rename_i hc
      have hm := hc.2.2
      simp only [mapped, decide_eq_true_eq, Bool.decide_or, Bool.decide_and,
        Bool.or_eq_true, Bool.and_eq_true] at hm
      rcases hm with hz | ⟨h1, _⟩
      · omega
      · have e1 : ptr_add t1.map_ptr off = t1.map_ptr + off :=
          Nat.mod_eq_of_lt (by omega)
        have e2 : ptr_add t1.map_ptr t1.map_size = t1.map_ptr + t1.map_size :=
          Nat.mod_eq_of_lt hmap
        show is_direct t1 p = true
        unfold is_direct
        rw [hp, e1, e2]
        have h0 := hc.1
        simp only [ne_eq, h0, not_false_eq_true, decide_True, Bool.true_and,
          Bool.and_eq_true, decide_eq_true_eq]
        omega
    · cases hload
  · cases hmade

/-- The scan for the first zero slot, on a run whose view can be loaded and is
released as what it was made as: `tdb_find_zero_off` returns, leaves the store
alone, and its result `i` is at most `num`, no slot before `i` is zero, and slot
`i` is zero when `i < num`.  A slot is the `uint64_t` the host reads from the 8
bytes of the store at `off + 8 * j`. -/
theorem tdb_find_zero_off_least (tdb : tdb_context) (off num : Nat) (v : View)
    (t1 : tdb_context) (data : List Byte)
    (hnum : num * 8 < U64)
    (hr : tdb_access_read tdb off (num * 8) false = some (some v, t1))
    (hload : view_load t1 v = some data)
    (hkind : v.made_direct = true → is_direct t1 v.ptr = true) :
    ∃ i t2, tdb_find_zero_off tdb off num = some (i, t2)
      ∧ t2.store = tdb.store
      ∧ i ≤ num
      ∧ (∀ j, j < i →
          host_decode tdb.sys.big_endian (slice tdb.store (off + 8 * j) 8) ≠ 0)
      ∧ (i < num →
          host_decode tdb.sys.big_endian (slice tdb.store (off + 8 * i) 8) = 0) := by
  obtain ⟨hst, hsys, hdata, hlen⟩ := read_view_data _ _ _ _ _ _ hr hload
  obtain ⟨t2, hrel, hst2⟩ := tdb_access_release_defined t1 v hkind
  have hval : ∀ j, j < num →
      view_word t1 v j
        = some (host_decode tdb.sys.big_endian (slice tdb.store (off + 8 * j) 8)) := by
    intro j hj
    rw [view_word_of_load _ _ _ _ hload (by omega), word, if_pos (by omega), hsys, hdata,
      slice_slice _ _ _ _ _ (by omega)]
  obtain ⟨i, hscan, _, hi2, hi3, hi4⟩ := scan_zero_spec num _ _ num 0 hval (by omega)
    (by omega)
  refine ⟨i, t2, ?_, by rw [hst2, hst], hi2, fun j hj => hi3 j (by omega) hj, hi4⟩
  unfold tdb_find_zero_off
  rw [Nat.mod_eq_of_lt hnum, hr]
  dsimp only
  rw [hscan]
  dsimp only
  rw [hrel]

/-- The scan for the first zero slot on a run of at least one slot: the view
need only be loadable and the mapping not wrap the address space. -/
theorem tdb_find_zero_off_nonempty (tdb : tdb_context) (off num : Nat) (v : View)
    (t1 : tdb_context) (data : List Byte)
    (hnum : num * 8 < U64) (hpos : 0 < num)
    (hr : tdb_access_read tdb off (num * 8) false = some (some v, t1))
    (hload : view_load t1 v = some data)
    (hmap : t1.map_ptr + t1.map_size < U64) :
    ∃ i t2, tdb_find_zero_off tdb off num = some (i, t2)
      ∧ t2.store = tdb.store
      ∧ i ≤ num
      ∧ (∀ j, j < i →
          host_decode tdb.sys.big_endian (slice tdb.store (off + 8 * j) 8) ≠ 0)
      ∧ (i < num →
          host_decode tdb.sys.big_endian (slice tdb.store (off + 8 * i) 8) = 0) :=
  tdb_find_zero_off_least tdb off num v t1 data hnum hr hload
    (read_view_kind _ _ _ _ _ _ hr hload (by omega) hmap)

/-- The scan of the slots `[1, 1, 1, 0, 1]` returns 3. -/
theorem tdb_find_zero_off_sample :
    (tdb_find_zero_off sample_slots_zero 0 5).map Prod.fst = some 3
    ∧ ∃ i t2, tdb_find_zero_off sample_slots_zero 0 5 = some (i, t2)
      ∧ t2.store = sample_slots_zero.store
      ∧ i ≤ 5
      ∧ (∀ j, j < i → host_decode sample_slots_zero.sys.big_endian
          (slice sample_slots_zero.store (0 + 8 * j) 8) ≠ 0)
      ∧ (i < 5 → host_decode sample_slots_zero.sys.big_endian
          (slice sample_slots_zero.store (0 + 8 * i) 8) = 0) :=
  ⟨rfl, tdb_find_zero_off_nonempty sample_slots_zero 0 5
      (View.direct sample_slots_zero.map_ptr 0 40)
      { sample_slots_zero with direct_access := 1 } sample_slots_zero.store
      (by decide) (by decide) rfl rfl (by decide)⟩

/-- C11, the code at the failing input: on `sample_slots_zero` (mapped,
`map_size = 40`, no borrow outstanding) the run of `num = 0` slots at `off = 40`
can be read: the read borrow returns the pointer `map_ptr + 40`, made by
`tdb_direct`, and its zero bytes load.  The loop of `tdb_find_zero_off` runs no
round, and the release takes the pointer for a heap block, since
`map_ptr + 40 < map_ptr + map_size` is false: it calls `free` on an address
inside the mapping, and `tdb_find_zero_off` does not return `num`. -/
theorem C11_find_zero_off_empty_run :
    sample_slots_zero.map_size = 40 ∧ sample_slots_zero.direct_access = 0
    ∧ (∃ v t1, tdb_access_read sample_slots_zero 40 (0 * 8) false = some (some v, t1)
        ∧ v = View.direct (sample_slots_zero.map_ptr + 40) 40 0
        ∧ view_load t1 v = some []
        ∧ scan_zero 0 (view_word t1 v) 0 0 = some 0
        ∧ is_direct t1 v.ptr = false
        ∧ tdb_access_release t1 v = none)
    ∧ tdb_find_zero_off sample_slots_zero 40 0 = none :=
  ⟨rfl, rfl, ⟨_, _, rfl, rfl, rfl, rfl, rfl, rfl⟩, rfl⟩

/-- The scan for the first non-zero slot, for `start ≤ end` with
`base + 8 * end` below `2^64`, on a range whose view can be loaded and is
released as what it was made as: `tdb_find_nonzero_off` returns, leaves the
store alone, and its result `i` lies in `[start, end]`, every slot in
`[start, i)` is zero, and slot `i` is not zero when `i < end`.  The same holds
of the byte-swapped slots, so the scan of the converted values ends on the same
index, with `TDB_CONVERT` set or not. -/
theorem tdb_find_nonzero_off_least (tdb : tdb_context) (base start end_ : Nat) (v : View)
    (t1 : tdb_context) (data : List Byte)
    (hse : start ≤ end_) (hrange : base + 8 * end_ < U64)
    (hr : tdb_access_read tdb (base + start * 8) ((end_ - start) * 8) false
        = some (some v, t1))
    (hload : view_load t1 v = some data)
    (hkind : v.made_direct = true → is_direct t1 v.ptr = true) :
    ∃ i t2, tdb_find_nonzero_off tdb base start end_ = some (i, t2)
      ∧ t2.store = tdb.store
      ∧ start ≤ i ∧ i ≤ end_
      ∧ (∀ j, start ≤ j → j < i →
          host_decode tdb.sys.big_endian (slice tdb.store (base + 8 * j) 8) = 0
          ∧ host_decode tdb.sys.big_endian (bswap_64 (slice tdb.store (base + 8 * j) 8)) = 0)
      ∧ (i < end_ →
          host_decode tdb.sys.big_endian (slice tdb.store (base + 8 * i) 8) ≠ 0
          ∧ host_decode tdb.sys.big_endian
              (bswap_64 (slice tdb.store (base + 8 * i) 8)) ≠ 0) := by
  obtain ⟨hst, hsys, hdata, hlen⟩ := read_view_data _ _ _ _ _ _ hr hload
  obtain ⟨t2, hrel, hst2⟩ := tdb_access_release_defined t1 v hkind
  have hn : (end_ + U64 - start) % U64 = end_ - start := by
    have : end_ + U64 - start = (end_ - start) + U64 := by omega
    rw [this, Nat.add_mod_right]
    exact Nat.mod_eq_of_lt (by omega)
  have hval : ∀ j, j < end_ - start →
      view_word t1 v j
        = some (host_decode tdb.sys.big_endian
            (slice tdb.store (base + 8 * (start + j)) 8)) := by
    intro j hj
    have e : base + start * 8 + 8 * j = base + 8 * (start + j) := by omega
    rw [view_word_of_load _ _ _ _ hload (by omega), word, if_pos (by omega), hsys, hdata,
      slice_slice _ _ _ _ _ (by omega), e]
  obtain ⟨i, hscan, _, hi2, hi3, hi4⟩ := scan_nonzero_spec (end_ - start) _
    (fun j => host_decode tdb.sys.big_endian (slice tdb.store (base + 8 * (start + j)) 8))
    (end_ - start) 0 hval (by omega) (by omega)
  refine ⟨start + i, t2, ?_, by rw [hst2, hst], by omega, by omega, ?_, ?_⟩
  · unfold tdb_find_nonzero_off
    dsimp only
    rw [hn, Nat.mod_eq_of_lt (show base + start * 8 < U64 by omega),
      Nat.mod_eq_of_lt (show (end_ - start) * 8 < U64 by omega), hr]
    dsimp only
    rw [hscan]
    dsimp only
    rw [hrel, Nat.mod_eq_of_lt (show start + i < U64 by omega)]
  · intro j hj1 hj2
    have h := hi3 (j - start) (by omega) (by omega)
    have e : start + (j - start) = j := by omega
    rw [e] at h
    exact ⟨h, (host_decode_bswap_eq_zero _ _).mpr h⟩
  · intro hlt
    have h := hi4 (by omega)
    exact ⟨h, fun hc => h ((host_decode_bswap_eq_zero _ _).mp hc)⟩

/-- The scan for the first non-zero slot on a range of at least one slot: the
view need only be loadable and the mapping not wrap the address space. -/
theorem tdb_find_nonzero_off_nonempty (tdb : tdb_context) (base start end_ : Nat)
    (v : View) (t1 : tdb_context) (data : List Byte)
    (hse : start < end_) (hrange : base + 8 * end_ < U64)
    (hr : tdb_access_read tdb (base + start * 8) ((end_ - start) * 8) false
        = some (some v, t1))
    (hload : view_load t1 v = some data)
    (hmap : t1.map_ptr + t1.map_size < U64) :
    ∃ i t2, tdb_find_nonzero_off tdb base start end_ = some (i, t2)
      ∧ t2.store = tdb.store
      ∧ start ≤ i ∧ i ≤ end_
      ∧ (∀ j, start ≤ j → j < i →
          host_decode tdb.sys.big_endian (slice tdb.store (base + 8 * j) 8) = 0
          ∧ host_decode tdb.sys.big_endian (bswap_64 (slice tdb.store (base + 8 * j) 8)) = 0)
      ∧ (i < end_ →
          host_decode tdb.sys.big_endian (slice tdb.store (base + 8 * i) 8) ≠ 0
          ∧ host_decode tdb.sys.big_endian
              (bswap_64 (slice tdb.store (base + 8 * i) 8)) ≠ 0) :=
  tdb_find_nonzero_off_least tdb base start end_ v t1 data (by omega) hrange hr hload
    (read_view_kind _ _ _ _ _ _ hr hload (by omega) hmap)

/-- The scan of the slots `[0, 0, 0, 0, 0, 5, 0, 0]` with start 0 and end 8
returns 5; so does the scan with start 3 and end 2, whose count of slots wraps
and which stops at the non-zero slot all the same. -/
theorem tdb_find_nonzero_off_sample :
    (tdb_find_nonzero_off sample_slots_nonzero 0 0 8).map Prod.fst = some 5
    ∧ (tdb_find_nonzero_off sample_slots_nonzero 0 3 2).map Prod.fst = some 5
    ∧ ∃ i t2, tdb_find_nonzero_off sample_slots_nonzero 0 0 8 = some (i, t2)
      ∧ t2.store = sample_slots_nonzero.store
      ∧ 0 ≤ i ∧ i ≤ 8
      ∧ (∀ j, 0 ≤ j → j < i →
          host_decode sample_slots_nonzero.sys.big_endian
            (slice sample_slots_nonzero.store (0 + 8 * j) 8) = 0
          ∧ host_decode sample_slots_nonzero.sys.big_endian
            (bswap_64 (slice sample_slots_nonzero.store (0 + 8 * j) 8)) = 0)
      ∧ (i < 8 →
          host_decode sample_slots_nonzero.sys.big_endian
            (slice sample_slots_nonzero.store (0 + 8 * i) 8) ≠ 0
          ∧ host_decode sample_slots_nonzero.sys.big_endian
            (bswap_64 (slice sample_slots_nonzero.store (0 + 8 * i) 8)) ≠ 0) :=
  ⟨rfl, rfl, tdb_find_nonzero_off_nonempty sample_slots_nonzero 0 0 8
      (View.direct sample_slots_nonzero.map_ptr 0 64)
      { sample_slots_nonzero with direct_access := 1 } sample_slots_nonzero.store
      (by decide) (by decide) rfl rfl (by decide)⟩

/-- C12, the code at the failing input: on `sample_slots_zero` (mapped,
`map_size = 40`, no borrow outstanding) with `base = 0` the range
`start = end = 5` can be read: the read borrow of its zero bytes at offset 40
returns the pointer `map_ptr + 40`, made by `tdb_direct`, and they load.  The
loop of `tdb_find_nonzero_off` runs no round, and the release takes the pointer
for a heap block, since `map_ptr + 40 < map_ptr + map_size` is false: it calls
`free` on an address inside the mapping, and `tdb_find_nonzero_off` does not
return `end`. -/
theorem C12_find_nonzero_off_empty_range :
    sample_slots_zero.map_size = 40 ∧ sample_slots_zero.direct_access = 0
    ∧ (∃ v t1, tdb_access_read sample_slots_zero (0 + 5 * 8) ((5 - 5) * 8) false
          = some (some v, t1)
        ∧ v = View.direct (sample_slots_zero.map_ptr + 40) 40 0
        ∧ view_load t1 v = some []
        ∧ scan_nonzero 0 (view_word t1 v) 0 0 = some 0
        ∧ is_direct t1 v.ptr = false
        ∧ tdb_access_release t1 v = none)
    ∧ tdb_find_nonzero_off sample_slots_zero 0 5 5 = none :=
  ⟨rfl, rfl, ⟨_, _, rfl, rfl, rfl, rfl, rfl, rfl⟩, rfl⟩

/-! ## C19: 8-byte fields -/

theorem le64_eq (v : Nat) : le64 v = [v % 256, v / 256 % 256, v / 65536 % 256,
    v / 16777216 % 256, v / 4294967296 % 256, v / 1099511627776 % 256,
    v / 281474976710656 % 256, v / 72057594037927936 % 256] := by
  simp [le64, List.range, List.range.loop]

theorem le_decode_eq (a b c d e f g h : Nat) : le_decode [a, b, c, d, e, f, g, h]
    = a + 256 * (b + 256 * (c + 256 * (d + 256 * (e + 256 * (f + 256 * (g + 256 * h)))))) :=
  rfl

theorem le_decode_le64 (v : Nat) (h : v < U64) : le_decode (le64 v) = v := by
  rw [le64_eq, le_decode_eq]
  have : U64 = 18446744073709551616 := by norm_num [U64]
  omega

theorem le64_le_decode (a b c d e f g h : Nat) (ha : a < 256) (hb : b < 256) (hc : c < 256)
    (hd : d < 256) (he : e < 256) (hf : f < 256) (hg : g < 256) (hh : h < 256) :
    le64 (le_decode [a, b, c, d, e, f, g, h]) = [a, b, c, d, e, f, g, h] := by
  rw [le64_eq, le_decode_eq]
  simp only [List.cons.injEq, and_true]
  refine ⟨?_, ?_, ?_, ?_, ?_, ?_, ?_, ?_⟩ <;> omega

theorem host_decode_encode (big : Bool) (v : Nat) (h : v < U64) :
    host_decode big (host_encode big v) = v := by
  unfold host_decode host_encode
  cases big
  · simpa using le_decode_le64 v h
  · simp only [if_true, List.reverse_reverse]
    exact le_decode_le64 v h

theorem host_encode_bswap (big : Bool) (v : Nat) :
    host_encode big (bswap_64_val v) = (host_encode big v).reverse := by
  have key : le64 (le_decode (le64 v).reverse) = (le64 v).reverse := by
    rw [le64_eq v]
    simp only [List.reverse_cons, List.reverse_nil, List.nil_append, List.cons_append]
    exact le64_le_decode _ _ _ _ _ _ _ _ (Nat.mod_lt _ (by decide)) (Nat.mod_lt _ (by decide))
      (Nat.mod_lt _ (by decide)) (Nat.mod_lt _ (by decide)) (Nat.mod_lt _ (by decide))
      (Nat.mod_lt _ (by decide)) (Nat.mod_lt _ (by decide)) (Nat.mod_lt _ (by decide))
  unfold host_encode bswap_64_val
  cases big
  · simpa using key
  · simp only [if_true]
    rw [key]

theorem host_encode_length (big : Bool) (v : Nat) : (host_encode big v).length = 8 := by
  unfold host_encode
  cases big <;> simp [le64]

theorem convert_words_one (w : List Byte) (h : w.length = 8) :
    convert_words (8 / 8) w = w.reverse := by
  have e : (8 : Nat) / 8 = 0 + 1 := rfl
  rw [e, convert_words, convert_words, List.take_of_length_le (by omega),
    List.drop_of_length_le (by omega), bswap_64, List.append_nil]

/-- The bytes `tdb_write_convert` stores for an 8-byte value. -/
theorem tdb_convert_word (t : tdb_context) (big : Bool) (v : Nat) :
    tdb_convert t (host_encode big v) 8
      = if t.TDB_CONVERT then host_encode big (bswap_64_val v) else host_encode big v := by
  unfold tdb_convert
  split
  · rw [convert_words_one _ (host_encode_length _ _), host_encode_bswap]
  · rfl

theorem tdb_write_asserts (t : tdb_context) (off : Nat) (buf : List Byte) (len : Nat) (r : Int)
    (t' : tdb_context) (h : tdb_write t off buf len = some (r, t')) (hl : 0 < len)
    (hro : t.read_only = false) : oob_assertion t = true := by
  unfold tdb_write at h
  rw [if_neg (by omega)] at h
  simp only [hro, Bool.false_eq_true, if_false] at h
  cases ho : tdb_oob t ((off + len) % U64) false with
  | none => simp [ho] at h
  | some p => exact (tdb_oob_spec _ _ _ _ _ ho).1

theorem tdb_write_convert_asserts (t : tdb_context) (off : Nat) (record : List Byte)
    (len : Nat) (t' : tdb_context) (h : tdb_write_convert t off record len = some (0, t'))
    (hl : 0 < len) (hro : t.read_only = false) : oob_assertion t = true := by
  unfold tdb_write_convert at h
  by_cases hc : t.TDB_CONVERT = true
  · simp only [hc, if_true] at h
    by_cases hm : (malloc t len).1 = 0
    · simp [hm] at h
    · simp only [hm, if_false] at h
      cases hw : tdb_write (malloc t len).2 off
          (tdb_convert (malloc t len).2 (record.take len) len) len with
      | none => simp [hw] at h
      | some p =>
        have ha := tdb_write_asserts _ _ _ _ _ _ hw hl hro
        have e : oob_assertion (malloc t len).2 = oob_assertion t :=
          oob_assertion_congr t _ (steady_tick t (Event.malloc len)).toFrame rfl
        exact e.symm.trans ha
  · rw [if_neg hc] at h
    exact tdb_write_asserts _ _ _ _ _ _ h hl hro

/-- The pointer `tdb_read_off` and `tdb_write_off` try first. -/
theorem word_pointer_spec (t : tdb_context) (off p : Nat) (ta : tdb_context)
    (hd : (if !t.TDB_CONVERT then tdb_direct t off 8 else some (0, t)) = some (p, ta)) :
    Frame t ta ∧ ta.store = t.store ∧ ta.direct_access = t.direct_access
      ∧ (p ≠ 0 → t.TDB_CONVERT = false ∧ oob_assertion t = true
          ∧ (off + 8) % U64 ≤ ta.map_size) := by
  cases hc : t.TDB_CONVERT with
  | true =>
    rw [hc] at hd
    simp only [Bool.not_true, Bool.false_eq_true, if_false, Option.some.injEq,
      Prod.mk.injEq] at hd
    obtain ⟨rfl, rfl⟩ := hd
    exact ⟨Frame.same _, rfl, rfl, fun h => absurd rfl h⟩
  | false =>
    rw [hc] at hd
    simp only [Bool.not_false, if_true] at hd
    obtain ⟨hf, hst, hda, _, h0, hne, hp⟩ := tdb_direct_spec _ _ _ _ _ hd
    refine ⟨hf, hst, hda, fun h => ⟨rfl, ?_, (hp h).1⟩⟩
    by_cases hm : t.map_ptr = 0
    · exact absurd (h0 hm).2 h
    · exact hne hm

theorem tdb_write_off_spec (tdb : tdb_context) (off v : Nat) (t1 : tdb_context)
    (hin : off + 8 ≤ tdb.store.length) (hfile : tdb.store.length ≤ OFF_MAX)
    (hw : tdb_write_off tdb off v = some (0, t1)) :
    Frame tdb t1 ∧ oob_assertion t1 = true ∧ off + 8 ≤ t1.map_size
      ∧ t1.store = write_at tdb.store off
          (if tdb.TDB_CONVERT then host_encode tdb.sys.big_endian (bswap_64_val v)
            else host_encode tdb.sys.big_endian v) := by
  have h64 : off + 8 < U64 := by have := OFF_MAX_lt_U64; omega
  unfold tdb_write_off at hw
  by_cases hro : tdb.read_only = true
  · rw [if_pos hro] at hw
    simp at hw
  · rw [if_neg hro] at hw
    have hro' : tdb.read_only = false := by simpa using hro
    cases hd : (if !tdb.TDB_CONVERT then tdb_direct tdb off 8 else some (0, tdb)) with
    | none =>
      rw [hd] at hw
      simp at hw
    | some q =>
      obtain ⟨p, ta⟩ := q
      rw [hd] at hw
      dsimp only at hw
      obtain ⟨hf, hst, hda, hp⟩ := word_pointer_spec _ _ _ _ hd
      by_cases hp0 : p = 0
      · rw [if_neg (not_not.mpr hp0)] at hw
        obtain ⟨hf2, hda2, _, _, hz⟩ :=
          tdb_write_convert_spec _ _ _ _ _ _ (by rw [host_encode_length]) hw
        obtain ⟨hfit, hstore⟩ := hz rfl (by decide)
        have ha := tdb_write_convert_asserts _ _ _ _ _ hw (by decide)
          (hf.read_only.trans hro')
        refine ⟨hf.trans hf2, ?_, ?_, ?_⟩
        · rw [oob_assertion_congr ta t1 hf2 hda2]; exact ha
        · rw [Nat.mod_eq_of_lt h64] at hfit; exact hfit
        · rw [hstore, hst, List.take_of_length_le (by rw [host_encode_length]),
            tdb_convert_word, hf.convert, hf.sys]
      · rw [if_pos hp0] at hw
        obtain ⟨hcf, ha, hfit⟩ := hp hp0
        split at hw
        · simp only [Option.some.injEq, Prod.mk.injEq, true_and] at hw
          subst hw
          refine ⟨hf.trans (steady_store _ _).toFrame, ?_, ?_, ?_⟩
          · exact (oob_assertion_congr ta _ (steady_store ta _).toFrame rfl).trans
              ((oob_assertion_congr tdb ta hf hda).trans ha)
          · rw [Nat.mod_eq_of_lt h64] at hfit; exact hfit
          · show write_at ta.store off (host_encode ta.sys.big_endian v) = _
            rw [hst, hf.sys, hcf]
            simp
        · cases hw

/-- A read within the cached size and the file returns; it gives the bytes of
the store when it returns 0, which it does on a mapping and whenever `pread`
transfers. -/
theorem tdb_read_in (t : tdb_context) (off len : Nat) (ha : oob_assertion t = true)
    (hfit : off + len ≤ t.map_size) (hin : off + len ≤ t.store.length)
    (hfile : t.store.length ≤ OFF_MAX) :
    ∃ r data t2, tdb_read t off len = some (r, data, t2) ∧ Frame t t2
      ∧ t2.store = t.store ∧ (r = 0 ∨ r = -1)
      ∧ (r = 0 → data = slice t.store off len)
      ∧ ((t.map_ptr ≠ 0 ∨ ∀ n, 0 < t.sys.pread n) → r = 0) := by
  have h64 : off + len < U64 := by have := OFF_MAX_lt_U64; omega
  by_cases hp : t.map_ptr = 0
  · obtain ⟨r, data, t2, he, hs, hst, hr⟩ := tdb_read_fits t off len ha h64 hfit hin
    obtain ⟨_, hf, _, _, _, hr01, hd⟩ := tdb_read_spec _ _ _ _ _ _ he
    refine ⟨r, data, t2, he, hf, hst, hr01, fun h => (hd h).2.1, ?_⟩
    rintro (h | h)
    · exact absurd hp h
    · exact hr h (by omega)
  · refine ⟨0, slice t.store off len, t, ?_, Frame.same _, rfl, Or.inl rfl, fun _ => rfl,
      fun _ => rfl⟩
    unfold tdb_read
    rw [Nat.mod_eq_of_lt h64, tdb_oob_fits t _ _ ha hfit]
    simp [hp, mapped, hfit, hin]

theorem tdb_read_off_word (off_err : Nat) (t : tdb_context) (off v : Nat) (hv : v < U64)
    (ha : oob_assertion t = true) (hfit : off + 8 ≤ t.map_size)
    (hin : off + 8 ≤ t.store.length) (hfile : t.store.length ≤ OFF_MAX)
    (hs : slice t.store off 8
      = if t.TDB_CONVERT then host_encode t.sys.big_endian (bswap_64_val v)
          else host_encode t.sys.big_endian v) :
    ∃ r t2, tdb_read_off off_err t off = some (r, t2) ∧ (r = v ∨ r = off_err)
      ∧ ((t.map_ptr ≠ 0 ∨ ∀ n, 0 < t.sys.pread n) → r = v) := by
  have h64 : off + 8 < U64 := by have := OFF_MAX_lt_U64; omega
  have hdec : host_decode t.sys.big_endian (tdb_convert t (slice t.store off 8) 8) = v := by
    rw [hs]
    unfold tdb_convert
    by_cases hc : t.TDB_CONVERT = true
    · simp only [hc, if_true]
      rw [convert_words_one _ (host_encode_length _ _), host_encode_bswap,
        List.reverse_reverse]
      exact host_decode_encode _ _ hv
    · simp only [hc, Bool.false_eq_true, if_false]
      exact host_decode_encode _ _ hv
  have tail : ∃ r t2,
      (match tdb_read_convert t off 8 with
        | none => none
        | some (r, ret, tdb) =>
          if r = -1 then some (off_err, tdb)
          else some (host_decode tdb.sys.big_endian ret, tdb)) = some (r, t2)
      ∧ (r = v ∨ r = off_err)
      ∧ ((t.map_ptr ≠ 0 ∨ ∀ n, 0 < t.sys.pread n) → r = v) := by
    obtain ⟨r, data, t2, he, hf, _, hr01, hd, hok⟩ := tdb_read_in t off 8 ha hfit hin hfile
    unfold tdb_read_convert
    rw [he]
    dsimp only
    rcases hr01 with rfl | rfl
    · rw [if_neg (by decide)]
      have e : host_decode t2.sys.big_endian (tdb_convert t2 data 8) = v := by
        rw [hd rfl, tdb_convert_congr t t2 hf.convert, hf.sys]
        exact hdec
      exact ⟨_, t2, rfl, Or.inl e, fun _ => e⟩
    · rw [if_pos rfl]
      refine ⟨off_err, t2, rfl, Or.inr rfl, fun h => ?_⟩
      exact absurd (hok h) (by decide)
  unfold tdb_read_off
  by_cases hc : t.TDB_CONVERT = true
  · simp only [hc, Bool.not_true, Bool.false_eq_true, if_false, ne_eq, not_true_eq_false]
    exact tail
  · have hc' : t.TDB_CONVERT = false := by simpa using hc
    simp only [hc', Bool.not_false, if_true]
    rw [tdb_direct_fits t off 8 ha (by rw [Nat.mod_eq_of_lt h64]; exact hfit)]
    dsimp only
    by_cases hq : (if t.map_ptr = 0 then 0 else ptr_add t.map_ptr off) = 0
    · rw [if_neg (not_not.mpr hq)]
      exact tail
    · rw [if_pos hq]
      have hp : t.map_ptr ≠ 0 := by
        intro h0
        rw [if_pos h0] at hq
        exact hq rfl
      have hm : mapped t off 8 = true := by simp [mapped, hfit, hin]
      rw [if_pos ⟨hp, hm⟩]
      have e : host_decode t.sys.big_endian (slice t.store off 8) = v := by
        rw [hs, hc']
        exact host_decode_encode _ _ hv
      exact ⟨_, t, rfl, Or.inl e, fun _ => e⟩

/-- C19. On a handle whose file is no longer than the largest `off_t`, for every
offset `off` with `off + 8` within the file and every value `v` below `2^64`:
after `tdb_write_off` returns 0 the 8 bytes of the store at `off` are the host
encoding of the byte-swapped `v` when `TDB_CONVERT` is set and of `v` when it
is clear, and the `tdb_read_off` that follows returns, with `v` or with
`TDB_OFF_ERR`; it returns `v` on a mapped handle, with or without
`TDB_CONVERT`, and on an unmapped one whenever `pread` transfers. -/
theorem C19_write_off_read_off (off_err : Nat) (tdb : tdb_context) (off v : Nat)
    (t1 : tdb_context) (hv : v < U64) (hin : off + 8 ≤ tdb.store.length)
    (hfile : tdb.store.length ≤ OFF_MAX)
    (hw : tdb_write_off tdb off v = some (0, t1)) :
    tdb.read_only = false
    ∧ slice t1.store off 8
        = (if tdb.TDB_CONVERT then host_encode tdb.sys.big_endian (bswap_64_val v)
            else host_encode tdb.sys.big_endian v)
    ∧ ∃ r t2, tdb_read_off off_err t1 off = some (r, t2) ∧ (r = v ∨ r = off_err)
        ∧ ((t1.map_ptr ≠ 0 ∨ ∀ n, 0 < t1.sys.pread n) → r = v) := by
  obtain ⟨hf, ha, hfit, hst⟩ := tdb_write_off_spec _ _ _ _ hin hfile hw
  have hwl : (if tdb.TDB_CONVERT then host_encode tdb.sys.big_endian (bswap_64_val v)
      else host_encode tdb.sys.big_endian v).length = 8 := by
    split <;> exact host_encode_length _ _
  have hlen : t1.store.length = tdb.store.length := by
    rw [hst, write_at_length_of_le _ _ _ (by rw [hwl]; exact hin)]
  have hsl : slice t1.store off 8
      = (if tdb.TDB_CONVERT then host_encode tdb.sys.big_endian (bswap_64_val v)
          else host_encode tdb.sys.big_endian v) := by
    have := slice_write_at tdb.store off
      (if tdb.TDB_CONVERT then host_encode tdb.sys.big_endian (bswap_64_val v)
        else host_encode tdb.sys.big_endian v)
    rw [hwl, ← hst] at this
    exact this
  refine ⟨?_, hsl, ?_⟩
  · cases hro : tdb.read_only with
    | false => rfl
    | true =>
      unfold tdb_write_off at hw
      rw [if_pos hro] at hw
      simp at hw
  · apply tdb_read_off_word off_err t1 off v hv ha hfit (by rw [hlen]; exact hin)
      (by rw [hlen]; exact hfile)
    rw [hsl, hf.convert, hf.sys]

/-- C19, at a sample: `0x0102030405060708` written at offset 8 of a
little-endian handle with `TDB_CONVERT` set; the store holds the bytes most
significant first, and the value is read back. -/
theorem C19_write_off_read_off_witness :
    (sample_convert.read_only = false
      ∧ slice sample_off_written.store 8 8
        = (if sample_convert.TDB_CONVERT
            then host_encode sample_convert.sys.big_endian (bswap_64_val 0x0102030405060708)
            else host_encode sample_convert.sys.big_endian 0x0102030405060708)
      ∧ ∃ r t2, tdb_read_off (2 ^ 64 - 1) sample_off_written 8 = some (r, t2)
          ∧ (r = 0x0102030405060708 ∨ r = 2 ^ 64 - 1)
          ∧ ((sample_off_written.map_ptr ≠ 0 ∨ ∀ n, 0 < sample_off_written.sys.pread n) →
              r = 0x0102030405060708))
    ∧ slice sample_off_written.store 8 8 = [1, 2, 3, 4, 5, 6, 7, 8] :=
  ⟨C19_write_off_read_off (2 ^ 64 - 1) sample_convert 8 0x0102030405060708
      sample_off_written (by decide) (by decide) (by decide) rfl, rfl⟩

/-! ## C20: byte-level write precision -/

theorem overlay_empty (s : List Byte) (off : Nat) (W : List Byte) (i : Nat)
    (h : W.length = 0) : overlay s off W i = s[i]? := by
  unfold overlay
  rw [if_neg (by omega)]

theorem write_at_overlay (s : List Byte) (off : Nat) (W : List Byte) (i : Nat)
    (h : off + W.length ≤ s.length) : (write_at s off W)[i]? = overlay s off W i := by
  rw [write_at_get]
  unfold overlay
  by_cases h1 : i < off
  · have h2 : i < s.length := by omega
    have h3 : ¬(off ≤ i ∧ i < off + W.length) := fun hc => by omega
    rw [if_pos h1, if_pos h2, if_neg h3]
  · rw [if_neg h1]
    by_cases h2 : i < off + W.length
    · have h3 : off ≤ i ∧ i < off + W.length := ⟨by omega, h2⟩
      rw [if_pos h2, if_pos h3]
    · have h3 : ¬(off ≤ i ∧ i < off + W.length) := fun hc => h2 hc.2
      rw [if_neg h2, if_neg h3]

theorem write_at_nil (s : List Byte) (off : Nat) (h : off ≤ s.length) :
    write_at s off [] = s := by
  apply List.ext_getElem?
  intro i
  rw [write_at_overlay s off [] i (by simpa using h), overlay_empty s off [] i rfl]

theorem tdb_write_landed (tdb : tdb_context) (off len : Nat) (B : List Byte)
    (t1 : tdb_context) (hB : B.length = len) (hin : off + len ≤ tdb.store.length)
    (hfile : tdb.store.length ≤ OFF_MAX)
    (h : tdb_write tdb off B len = some (0, t1)) :
    t1.store = write_at tdb.store off B
      ∧ (0 < len → oob_assertion t1 = true ∧ off + len ≤ t1.map_size) := by
  have h64 : off + len < U64 := by have := OFF_MAX_lt_U64; omega
  obtain ⟨hf, hda, _, hz, hpos⟩ := tdb_write_spec _ _ _ _ _ _ (by omega) h
  by_cases h0 : len = 0
  · have hnil : B = [] := List.length_eq_zero.mp (hB.trans h0)
    rw [hz h0, hnil, write_at_nil _ _ (by omega)]
    exact ⟨rfl, fun hl => by omega⟩
  · obtain ⟨hfit, hst⟩ := hpos rfl (by omega)
    rw [List.take_of_length_le (by omega)] at hst
    rw [Nat.mod_eq_of_lt h64] at hfit
    refine ⟨hst, fun _ => ⟨?_, hfit⟩⟩
    have hro : tdb.read_only = false := by
      cases hro : tdb.read_only with
      | false => rfl
      | true =>
        unfold tdb_write at h
        rw [if_neg h0, if_pos hro] at h
        simp at h
    rw [oob_assertion_congr tdb t1 hf hda]
    exact tdb_write_asserts _ _ _ _ _ _ h (by omega) hro

theorem commit_landed (t : tdb_context) (off len : Nat) (convert : Bool)
    (B : List Byte) (v : View) (t1 t1' : tdb_context) (v' : View) (t2 : tdb_context)
    (hin : off + len ≤ t.store.length) (hB : B.length = len)
    (hw : tdb_access_write t off len convert = some (some v, t1))
    (hheap : v.made_direct = false → is_direct t1 v.ptr = false)
    (hs : view_store t1 v B = some (t1', v'))
    (hc : tdb_access_commit t1' v' = some (0, t2)) :
    t2.store = write_at t.store off (if convert then tdb_convert t B len else B) := by
  obtain ⟨ha, hf, hst, hfit, hro, hv⟩ := tdb_access_write_spec _ _ _ _ _ _ hw
  have hwl : (if convert = true then tdb_convert t B len else B).length = len := by
    split
    · rw [tdb_convert_length]; exact hB
    · exact hB
  rcases hv with ⟨p, rfl, hp0, hp, hcv, hda⟩ | ⟨p, data, rfl, hdl, hdata, hda⟩
  · obtain ⟨rfl, rfl, hmp, _, _, _⟩ := view_store_direct _ _ _ _ _ _ _ hs
    obtain ⟨_, rfl, _⟩ := tdb_access_commit_direct _ _ _ _ _ _ hc
    have hid : (if convert = true then tdb_convert t B len else B) = B := by
      split
      · exact tdb_convert_off t hcv _ _
      · rfl
    rw [hid]
    show (if len = 0 then t1.store else write_at t1.store off B) = _
    by_cases h0 : len = 0
    · have hnil : B = [] := List.length_eq_zero.mp (hB.trans h0)
      rw [if_pos h0, hst, hnil, write_at_nil _ _ (by omega)]
    · rw [if_neg h0, hst]
  · obtain ⟨rfl, rfl, _⟩ := view_store_shadow _ _ _ _ _ _ _ hs
    obtain ⟨hf2, hda2, hmono, hz, hpos⟩ :=
      tdb_access_commit_shadow t1' p off len convert B 0 t2 hB (hheap rfl) hc
    by_cases h0 : len = 0
    · have hnil : (if convert = true then tdb_convert t B len else B) = [] :=
        List.length_eq_zero.mp (hwl.trans h0)
      rw [hz h0, hst, hnil, write_at_nil _ _ (by omega)]
    · rw [(hpos rfl (by omega)).2, tdb_convert_congr t t1' hf.convert, hst]

theorem read_landed (t0 t : tdb_context) (off : Nat) (W : List Byte)
    (hW : off + W.length ≤ t0.store.length) (hfile : t0.store.length ≤ OFF_MAX)
    (hst : t.store = write_at t0.store off W) :
    (∀ i, t.store[i]? = overlay t0.store off W i)
    ∧ ∀ off2 len2, oob_assertion t = true → off2 + len2 ≤ t.map_size →
        off2 + len2 ≤ t.store.length →
        ∃ r data t3, tdb_read t off2 len2 = some (r, data, t3) ∧ (r = 0 ∨ r = -1)
          ∧ (r = 0 → data.length = len2
              ∧ ∀ i, i < len2 → data[i]? = overlay t0.store off W (off2 + i))
          ∧ ((t.map_ptr ≠ 0 ∨ ∀ n, 0 < t.sys.pread n) → r = 0) := by
  have hall : ∀ i, t.store[i]? = overlay t0.store off W i := by
    intro i
    rw [hst]
    exact write_at_overlay _ _ _ _ hW
  have hlen : t.store.length = t0.store.length := by
    rw [hst, write_at_length_of_le _ _ _ hW]
  refine ⟨hall, ?_⟩
  intro off2 len2 ha hfit hin
  obtain ⟨r, data, t3, he, _, _, hr01, hd, hok⟩ :=
    tdb_read_in t off2 len2 ha hfit hin (by rw [hlen]; exact hfile)
  refine ⟨r, data, t3, he, hr01, ?_, hok⟩
  intro hr
  rw [hd hr]
  refine ⟨slice_length _ _ _ hin, ?_⟩
  intro i hi
  rw [slice_get, if_pos hi]
  exact hall _

/-- C20, refuted as stated: on a handle with `TDB_CONVERT` set the write borrow
of `[4, 12)` taken with the convert flag, filled with `1 .. 8` and committed
with result 0 leaves the bytes `8 .. 1` in `[4, 12)` of the store, not the bytes
that were filled in. -/
theorem C20_write_precision_counterexample :
    tdb_access_write sample_convert 4 8 true = some (some sample_view, sample_borrowed)
    ∧ view_store sample_borrowed sample_view [1, 2, 3, 4, 5, 6, 7, 8]
        = some (sample_borrowed,
            View.shadow sample_view.ptr (some ⟨4, 8, true⟩) [1, 2, 3, 4, 5, 6, 7, 8])
    ∧ tdb_access_commit sample_borrowed
        (View.shadow sample_view.ptr (some ⟨4, 8, true⟩) [1, 2, 3, 4, 5, 6, 7, 8])
        = some (0, sample_committed)
    ∧ slice sample_committed.store 4 8 = [8, 7, 6, 5, 4, 3, 2, 1]
    ∧ slice sample_committed.store 4 8 ≠ [1, 2, 3, 4, 5, 6, 7, 8] :=
  ⟨rfl, rfl, rfl, rfl, by decide⟩

/-- C20, amended.  On a handle whose file is no longer than the largest `off_t`,
for every `off`, `len` within the file and every buffer `B` of `len` bytes:
after `tdb_write` returns 0 the store holds `B` in `[off, off+len)` and every
byte outside that range is as before; after a write borrow of `[off, off+len)`
filled with `B` is committed with result 0 the same holds of `W`, where `W` is
`B`, and `tdb_convert` of `B` when the borrow was taken with the convert flag
(the byte-swapped words on a handle with `TDB_CONVERT` set).  In both cases a
later `tdb_read` of a range within the cached size and the file returns, and
when it returns 0 its buffer holds the written bytes on the overlap and the
prior content elsewhere; it returns 0 on a mapped handle and whenever `pread`
transfers. -/
theorem C20_write_precision (tdb : tdb_context) (off len : Nat) (B : List Byte)
    (hB : B.length = len) (hin : off + len ≤ tdb.store.length)
    (hfile : tdb.store.length ≤ OFF_MAX) :
    (∀ t1, tdb_write tdb off B len = some (0, t1) →
      (∀ i, t1.store[i]? = overlay tdb.store off B i)
      ∧ (0 < len → oob_assertion t1 = true ∧ off + len ≤ t1.map_size)
      ∧ ∀ off2 len2, oob_assertion t1 = true → off2 + len2 ≤ t1.map_size →
          off2 + len2 ≤ t1.store.length →
          ∃ r data t3, tdb_read t1 off2 len2 = some (r, data, t3) ∧ (r = 0 ∨ r = -1)
            ∧ (r = 0 → data.length = len2
                ∧ ∀ i, i < len2 → data[i]? = overlay tdb.store off B (off2 + i))
            ∧ ((t1.map_ptr ≠ 0 ∨ ∀ n, 0 < t1.sys.pread n) → r = 0))
    ∧ (∀ convert v ta ta' v' t2,
        tdb_access_write tdb off len convert = some (some v, ta) →
        (v.made_direct = false → is_direct ta v.ptr = false) →
        view_store ta v B = some (ta', v') →
        tdb_access_commit ta' v' = some (0, t2) →
        (∀ i, t2.store[i]?
          = overlay tdb.store off (if convert then tdb_convert tdb B len else B) i)
        ∧ oob_assertion t2 = true ∧ off + len ≤ t2.map_size
        ∧ ∀ off2 len2, off2 + len2 ≤ t2.map_size → off2 + len2 ≤ t2.store.length →
            ∃ r data t3, tdb_read t2 off2 len2 = some (r, data, t3) ∧ (r = 0 ∨ r = -1)
              ∧ (r = 0 → data.length = len2
                  ∧ ∀ i, i < len2 → data[i]?
                    = overlay tdb.store off
                        (if convert then tdb_convert tdb B len else B) (off2 + i))
              ∧ ((t2.map_ptr ≠ 0 ∨ ∀ n, 0 < t2.sys.pread n) → r = 0)) := by
  have h64 : off + len < U64 := by have := OFF_MAX_lt_U64; omega
  constructor
  · intro t1 h
    obtain ⟨hst, hpos⟩ := tdb_write_landed _ _ _ _ _ hB hin hfile h
    obtain ⟨hall, hread⟩ := read_landed tdb t1 off B (by rw [hB]; exact hin) hfile hst
    exact ⟨hall, hpos, hread⟩
  · intro convert v ta ta' v' t2 hw hheap hs hc
    have hwl : (if convert = true then tdb_convert tdb B len else B).length = len := by
      split
      · rw [tdb_convert_length]; exact hB
      · exact hB
    have hst := commit_landed _ _ _ _ _ _ _ _ _ _ hin hB hw hheap hs hc
    obtain ⟨_, ha, hfit, _, _, _⟩ :=
      borrow_store_commit _ _ _ _ _ _ _ _ _ _ h64 hin hB hw hheap hs hc
    obtain ⟨hall, hread⟩ := read_landed tdb t2 off _ (by rw [hwl]; exact hin) hfile hst
    exact ⟨hall, ha, hfit, fun off2 len2 => hread off2 len2 ha⟩

/-- C20, at two samples: 8 bytes written at offset 6 of a memory-only handle
grown to 16 bytes, where the read of 8 bytes at offset 2 gives the 4 prior bytes
of `2 .. 5` followed by the first 4 bytes written; and the committed borrow on
the handle with `TDB_CONVERT` set. -/
theorem C20_write_precision_witness :
    (∀ i, sample_written.store[i]?
        = overlay sample_internal_wide.store 6 [11, 12, 13, 14, 15, 16, 17, 18] i)
    ∧ (∀ i, sample_committed.store[i]?
        = overlay sample_convert.store 4
            (if true then tdb_convert sample_convert [1, 2, 3, 4, 5, 6, 7, 8] 8
              else [1, 2, 3, 4, 5, 6, 7, 8]) i)
    ∧ tdb_read sample_written 2 8
        = some (0, [0xa5, 0xa5, 0xa5, 0xa5, 11, 12, 13, 14], sample_written) :=
  ⟨((C20_write_precision sample_internal_wide 6 8 [11, 12, 13, 14, 15, 16, 17, 18]
      rfl (by decide) (by decide)).1 sample_written rfl).1,
   ((C20_write_precision sample_convert 4 8 [1, 2, 3, 4, 5, 6, 7, 8]
      rfl (by decide) (by decide)).2 true sample_view sample_borrowed sample_borrowed
      (View.shadow sample_view.ptr (some ⟨4, 8, true⟩) [1, 2, 3, 4, 5, 6, 7, 8])
      sample_committed rfl (fun _ => rfl) rfl rfl).1,
   rfl⟩

end tdb2
